import Mathlib

/-!
# KinKal: helical trajectory kinematics, field-correction effect and wire-hit residuals

A shallow embedding of `LHelix` (LHelix.hh / LHelix.cc), `KKBField` (KKBField.hh),
`WireHit` (WireHit.hh) and the `BField` interface (BField.hh).

Conventions of the embedding.

* A C++ `double` is an element of a linearly ordered field `F`; the theorems about the
  helix take `F = ℝ`.  Arithmetic on finite values is exact.
* The libm / ROOT scalar functions the code calls (`sqrt`, `cbrt`, `sin`, `cos`, `asin`,
  `atan2`, `rint`, the constant `M_PI`) are a parameter `MathFns F`; `realMath` is their
  meaning over the reals.
* The constants `CLHEP::c_light` and `BField::cbar()` are not defined in the sources at
  hand; they are a parameter `PhysConst F`.
* A quotient is the field quotient.  The two step estimates of `rangeInTolerance` divide by a
  quantity that is exactly zero in a uniform field; their value is followed through the IEEE
  special values with `Ext`.  Any other divisor is zero only for a helix without field or
  without momentum, which the theorems exclude by hypothesis where the quotient matters.
* A C++ `throw` is an `Except Exn` result, or, for a method that has already changed the
  object when it throws, a field `raised` of the returned record.
* A loop whose number of passes depends on the data takes a fuel argument; the theorems give
  a fuel from which on the result is returned.  The loop of `rangeInTolerance` adds the step
  to the upper bound exactly; how many passes the compiled loop makes depends on the rounding
  of that sum in `double` arithmetic, which the embedding does not follow.
-/

namespace KinKal

/-! ## Scalar library, constants, exceptions -/

/-- The scalar library functions used by the code. -/
structure MathFns (F : Type) where
  pi : F
  sqrt : F → F
  cbrt : F → F
  sin : F → F
  cos : F → F
  asin : F → F
  atan2 : F → F → F
  rint : F → F

/-- Physical constants read by the code: `CLHEP::c_light` and `BField::cbar()`. -/
structure PhysConst (F : Type) where
  c_light : F
  cbar : F

/-- The two standard exception classes thrown by the code. -/
inductive Exn where
  | invalid_argument (msg : String)
  | runtime_error (msg : String)
  deriving DecidableEq, Repr

section Algebra

variable {F : Type} [LinearOrderedField F]

/-! ## Vectors (Vectors.hh: ROOT GenVector typedefs) -/

/-- Cartesian 3-vector, `Vec3 = ROOT::Math::XYZVector`. -/
structure Vec3 (F : Type) where
  x : F
  y : F
  z : F

/-- Space-time 4-vector, `Vec4 = ROOT::Math::XYZTVector`. -/
structure Vec4 (F : Type) where
  x : F
  y : F
  z : F
  t : F

/-- Four-momentum with the mass as 4th coordinate, `Mom4 = ROOT::Math::PxPyPzMVector`. -/
structure Mom4 (F : Type) where
  px : F
  py : F
  pz : F
  m : F

/-- Polar 2-vector, `Pol2 = ROOT::Math::Polar2D<double>`. -/
structure Pol2 (F : Type) where
  r : F
  phi : F

/-- Default-constructed `Vec3()`. -/
def Vec3.zero : Vec3 F := ⟨0, 0, 0⟩

/-- Vector sum. -/
def Vec3.add (a b : Vec3 F) : Vec3 F := ⟨a.x + b.x, a.y + b.y, a.z + b.z⟩

/-- Vector difference. -/
def Vec3.sub (a b : Vec3 F) : Vec3 F := ⟨a.x - b.x, a.y - b.y, a.z - b.z⟩

/-- Product of a vector with a scalar. -/
def Vec3.smul (c : F) (a : Vec3 F) : Vec3 F := ⟨c * a.x, c * a.y, c * a.z⟩

/-- Quotient of a vector by a scalar. -/
def Vec3.sdiv (a : Vec3 F) (c : F) : Vec3 F := ⟨a.x / c, a.y / c, a.z / c⟩

/-- Scalar product `Dot`. -/
def Vec3.Dot (a b : Vec3 F) : F := a.x * b.x + a.y * b.y + a.z * b.z

/-- Vector product `Cross`. -/
def Vec3.Cross (a b : Vec3 F) : Vec3 F :=
  ⟨a.y * b.z - a.z * b.y, a.z * b.x - a.x * b.z, a.x * b.y - a.y * b.x⟩

/-- Squared magnitude `Mag2`. -/
def Vec3.Mag2 (a : Vec3 F) : F := a.x * a.x + a.y * a.y + a.z * a.z

/-- Magnitude `R()`. -/
def Vec3.R (M : MathFns F) (a : Vec3 F) : F := M.sqrt a.Mag2

/-- Transverse magnitude `Rho()`. -/
def Vec3.Rho (M : MathFns F) (a : Vec3 F) : F := M.sqrt (a.x * a.x + a.y * a.y)

/-- Azimuth `Phi()`. -/
def Vec3.Phi (M : MathFns F) (a : Vec3 F) : F := M.atan2 a.y a.x

/-- Polar angle `Theta()`. -/
def Vec3.Theta (M : MathFns F) (a : Vec3 F) : F := M.atan2 (a.Rho M) a.z

/-- Unit vector `Unit()`: the vector itself when its magnitude is zero. -/
def Vec3.Unit (M : MathFns F) (a : Vec3 F) : Vec3 F :=
  if a.R M = 0 then a else a.sdiv (a.R M)

/-- Spatial part `Vect()` of a 4-position. -/
def Vec4.Vect (p : Vec4 F) : Vec3 F := ⟨p.x, p.y, p.z⟩

/-- Momentum part `Vect()` of a 4-momentum. -/
def Mom4.Vect (p : Mom4 F) : Vec3 F := ⟨p.px, p.py, p.pz⟩

/-- Three by three matrix in row-major order: `Rotation3D` components and the field
gradient `BField::Grad`. -/
structure Mat3 (F : Type) where
  xx : F
  xy : F
  xz : F
  yx : F
  yy : F
  yz : F
  zx : F
  zy : F
  zz : F

/-- Zero matrix, the default-constructed `Grad()`. -/
def Mat3.zero : Mat3 F := ⟨0, 0, 0, 0, 0, 0, 0, 0, 0⟩

/-- Matrix times vector: `Rotation3D::operator()` on a `Vec3`, `Grad * Vec3`. -/
def Mat3.apply (m : Mat3 F) (v : Vec3 F) : Vec3 F :=
  ⟨m.xx * v.x + m.xy * v.y + m.xz * v.z,
   m.yx * v.x + m.yy * v.y + m.yz * v.z,
   m.zx * v.x + m.zy * v.y + m.zz * v.z⟩

/-- The call `Rotation3D::Inverse()`: the transposed matrix. -/
def Mat3.Inverse (m : Mat3 F) : Mat3 F :=
  ⟨m.xx, m.yx, m.zx, m.xy, m.yy, m.zy, m.xz, m.yz, m.zz⟩

/-- The conversion `Rotation3D(AxisAngle(axis, angle))` of ROOT: the axis is normalised by the
`AxisAngle` constructor, then the matrix is filled by the Rodrigues formula. -/
def Mat3.ofAxisAngle (M : MathFns F) (axis : Vec3 F) (angle : F) : Mat3 F :=
  let u := axis.Unit M
  let sinDelta := M.sin angle
  let cosDelta := M.cos angle
  let oneMinusCosDelta := 1 - cosDelta
  ⟨oneMinusCosDelta * u.x * u.x + cosDelta,
   oneMinusCosDelta * u.x * u.y - sinDelta * u.z,
   oneMinusCosDelta * u.x * u.z + sinDelta * u.y,
   oneMinusCosDelta * u.y * u.x + sinDelta * u.z,
   oneMinusCosDelta * u.y * u.y + cosDelta,
   oneMinusCosDelta * u.y * u.z - sinDelta * u.x,
   oneMinusCosDelta * u.z * u.x - sinDelta * u.y,
   oneMinusCosDelta * u.z * u.y + sinDelta * u.x,
   oneMinusCosDelta * u.z * u.z + cosDelta⟩

/-- A rotation applied to a 4-position: the spatial part is rotated, the time is kept. -/
def Mat3.apply4 (m : Mat3 F) (p : Vec4 F) : Vec4 F :=
  let v := m.apply p.Vect
  ⟨v.x, v.y, v.z, p.t⟩

/-! ## Time ranges and parameter payload (TRange.hh, PData.hh) -/

/-- Time range `TRange`. -/
structure TRange (F : Type) where
  low : F
  high : F

/-- Length `range()` of a time range. -/
def TRange.range (r : TRange F) : F := r.high - r.low

/-- Midpoint `mid()` of a time range. -/
def TRange.mid (r : TRange F) : F := (r.low + r.high) / 2

/-- Parameter derivative vector `DVEC` (six components). -/
abbrev DVEC (F : Type) := Fin 6 → F

/-- Parameter payload `PData<6>`: parameter vector and covariance matrix. -/
structure PData (F : Type) where
  parameters : DVEC F
  covariance : Fin 6 → Fin 6 → F

/-- Default-constructed payload: all zero. -/
def PData.zero : PData F := ⟨fun _ => 0, fun _ _ => 0⟩

end Algebra

/-! ## Local basis (LocalBasis.hh) -/

/-- Local basis direction `LocalBasis::LocDir`.  A C++ enumeration variable can hold a value
that is none of the three enumerators; `invalid` stands for every such value. -/
inductive LocDir where
  | perpdir
  | phidir
  | momdir
  | invalid
  deriving DecidableEq, Repr

/-! ## The looping helix (LHelix.hh, LHelix.cc) -/

/-- Index `rad_` of `LHelix::ParamIndex`. -/
def rad_ : Fin 6 := 0

/-- Index `lam_` of `LHelix::ParamIndex`. -/
def lam_ : Fin 6 := 1

/-- Index `cx_` of `LHelix::ParamIndex`. -/
def cx_ : Fin 6 := 2

/-- Index `cy_` of `LHelix::ParamIndex`. -/
def cy_ : Fin 6 := 3

/-- Index `phi0_` of `LHelix::ParamIndex`. -/
def phi0_ : Fin 6 := 4

/-- Index `t0_` of `LHelix::ParamIndex`. -/
def t0_ : Fin 6 := 5

/-- Data members of `class LHelix`. -/
structure LHelix (F : Type) where
  trange_ : TRange F
  pars_ : PData F
  mass_ : F
  charge_ : Int
  mbar_ : F
  bnom_ : Vec3 F
  l2g_ : Mat3 F
  g2l_ : Mat3 F

section Helix

variable {F : Type} [LinearOrderedField F]

namespace LHelix

/-- Accessor `paramVal(index)`. -/
def paramVal (h : LHelix F) (index : Fin 6) : F := h.pars_.parameters index

/-- Non-const accessor `param(index) = v`: overwrite one parameter. -/
def setParam (h : LHelix F) (index : Fin 6) (v : F) : LHelix F :=
  { h with pars_ := { h.pars_ with parameters := Function.update h.pars_.parameters index v } }

/-- Constructor `LHelix(pdata, other)`: copy and override the parameters. -/
def withPData (pdata : PData F) (other : LHelix F) : LHelix F := { other with pars_ := pdata }

/-- The helix with its parameter vector displaced by `eps` times `delta`, built with
`LHelix(pdata, other)`; every other member is copied. -/
def displaced (h : LHelix F) (delta : DVEC F) (eps : F) : LHelix F :=
  withPData ⟨fun i => h.pars_.parameters i + eps * delta i, h.pars_.covariance⟩ h

/-- Accessor `range()`. -/
def range (h : LHelix F) : TRange F := h.trange_

/-- Mutator `setRange`. -/
def setRange (h : LHelix F) (trange : TRange F) : LHelix F := { h with trange_ := trange }

/-- Accessor `rad()`. -/
def rad (h : LHelix F) : F := h.paramVal rad_

/-- Accessor `lam()`. -/
def lam (h : LHelix F) : F := h.paramVal lam_

/-- Accessor `cx()`. -/
def cx (h : LHelix F) : F := h.paramVal cx_

/-- Accessor `cy()`. -/
def cy (h : LHelix F) : F := h.paramVal cy_

/-- Accessor `phi0()`. -/
def phi0 (h : LHelix F) : F := h.paramVal phi0_

/-- Accessor `t0()`. -/
def t0 (h : LHelix F) : F := h.paramVal t0_

/-- Bending sign `sign() = copysign(1.0, mbar_)`. -/
def sign (h : LHelix F) : F := if h.mbar_ < 0 then -1 else 1

/-- Squared reduced momentum `pbar2()`. -/
def pbar2 (h : LHelix F) : F := h.rad * h.rad + h.lam * h.lam

/-- Reduced momentum `pbar()`. -/
def pbar (M : MathFns F) (h : LHelix F) : F := M.sqrt h.pbar2

/-- Squared reduced energy `ebar2()`. -/
def ebar2 (h : LHelix F) : F := h.pbar2 + h.mbar_ * h.mbar_

/-- Reduced energy `ebar()`. -/
def ebar (M : MathFns F) (h : LHelix F) : F := M.sqrt h.ebar2

/-- Reduced mass `mbar()`. -/
def mbar (h : LHelix F) : F := h.mbar_

/-- Reduced charge `Q()`. -/
def Q (h : LHelix F) : F := h.mass_ / h.mbar_

/-- Rotational velocity `omega()`. -/
def omega (M : MathFns F) (K : PhysConst F) (h : LHelix F) : F := K.c_light * h.sign / h.ebar M

/-- Relativistic `beta()`. -/
def beta (M : MathFns F) (h : LHelix F) : F := h.pbar M / h.ebar M

/-- Relativistic `gamma()`. -/
def gamma (M : MathFns F) (h : LHelix F) : F := |h.ebar M / h.mbar_|

/-- Relativistic `betaGamma()`. -/
def betaGamma (M : MathFns F) (h : LHelix F) : F := |h.pbar M / h.mbar_|

/-- Azimuth advance `dphi(t)`. -/
def dphi (M : MathFns F) (K : PhysConst F) (h : LHelix F) (t : F) : F := h.omega M K * (t - h.t0)

/-- Azimuth `phi(t)`. -/
def phi (M : MathFns F) (K : PhysConst F) (h : LHelix F) (t : F) : F := h.dphi M K t + h.phi0

/-- The call `speed(time)`. -/
def speed (M : MathFns F) (K : PhysConst F) (h : LHelix F) (_time : F) : F := K.c_light * h.beta M

/-- The call `momentumMag(time)`. -/
def momentumMag (M : MathFns F) (h : LHelix F) (_time : F) : F := |h.mass_ * h.betaGamma M|

/-- The call `energy(time)`. -/
def energy (M : MathFns F) (h : LHelix F) (_time : F) : F := |h.mass_ * h.ebar M / h.mbar_|

/-- The call `invertCT()`: flip the helix in time and charge. -/
def invertCT (h : LHelix F) : LHelix F :=
  { h with
    mbar_ := h.mbar_ * -1
    charge_ := h.charge_ * -1
    pars_ := { h.pars_ with
      parameters := Function.update h.pars_.parameters t0_ (h.pars_.parameters t0_ * -1) } }

/-- The call `Vec3 position(double time)`. -/
def position (M : MathFns F) (K : PhysConst F) (h : LHelix F) (time : F) : Vec3 F :=
  let df := h.dphi M K time
  let phival := df + h.phi0
  h.l2g_.apply ⟨h.cx + h.rad * M.sin phival, h.cy - h.rad * M.cos phival, df * h.lam⟩

/-- The call `void position(Vec4& pos)`: the time of `pos` is the input. -/
def position4 (M : MathFns F) (K : PhysConst F) (h : LHelix F) (pos : Vec4 F) : Vec4 F :=
  let temp := h.position M K pos.t
  ⟨temp.x, temp.y, temp.z, pos.t⟩

/-- The call `pos4(time)`. -/
def pos4 (M : MathFns F) (K : PhysConst F) (h : LHelix F) (time : F) : Vec4 F :=
  let temp := h.position M K time
  ⟨temp.x, temp.y, temp.z, time⟩

/-- The call `direction(time, mdir)`; the default case throws `invalid_argument`. -/
def direction (M : MathFns F) (K : PhysConst F) (h : LHelix F) (time : F) (mdir : LocDir) :
    Except Exn (Vec3 F) :=
  let phival := h.phi M K time
  let invpb := h.sign / h.pbar M
  match mdir with
  | .perpdir =>
    .ok (h.l2g_.apply ⟨h.lam * M.cos phival * invpb, h.lam * M.sin phival * invpb, -h.rad * invpb⟩)
  | .phidir => .ok (h.l2g_.apply ⟨-M.sin phival, M.cos phival, 0⟩)
  | .momdir =>
    .ok (h.l2g_.apply ⟨h.rad * M.cos phival * invpb, h.rad * M.sin phival * invpb, h.lam * invpb⟩)
  | .invalid => .error (.invalid_argument "Invalid direction")

/-- The call `momentum(time)`; `direction(time)` is called with its default `momdir`. -/
def momentum (M : MathFns F) (K : PhysConst F) (h : LHelix F) (time : F) : Except Exn (Mom4 F) := do
  let dir ← h.direction M K time .momdir
  let bgm := h.betaGamma M * h.mass_
  pure ⟨bgm * dir.x, bgm * dir.y, bgm * dir.z, h.mass_⟩

/-- The 4-momentum that `momentum(time)` returns for the helix displaced by `eps * delta`: the
body of `momentum` on its only path, the `momdir` case of `direction`. -/
def displacedMomentum (M : MathFns F) (K : PhysConst F) (h : LHelix F) (delta : DVEC F)
    (time eps : F) : Mom4 F :=
  let g := h.displaced delta eps
  let phival := g.phi M K time
  let invpb := g.sign / g.pbar M
  let dir := g.l2g_.apply
    ⟨g.rad * M.cos phival * invpb, g.rad * M.sin phival * invpb, g.lam * invpb⟩
  let bgm := g.betaGamma M * g.mass_
  ⟨bgm * dir.x, bgm * dir.y, bgm * dir.z, g.mass_⟩

/-- The unit vector that `direction(time, momdir)` returns for the helix displaced by
`eps * delta`: the `momdir` case of `direction`. -/
def displacedDirection (M : MathFns F) (K : PhysConst F) (h : LHelix F) (delta : DVEC F)
    (time eps : F) : Vec3 F :=
  let g := h.displaced delta eps
  let phival := g.phi M K time
  let invpb := g.sign / g.pbar M
  g.l2g_.apply ⟨g.rad * M.cos phival * invpb, g.rad * M.sin phival * invpb, g.lam * invpb⟩

/-- The call `velocity(time)`. -/
def velocity (M : MathFns F) (K : PhysConst F) (h : LHelix F) (time : F) : Except Exn (Vec3 F) := do
  let dir ← h.direction M K time .momdir
  pure (Vec3.smul (h.speed M K time) dir)

/-- The call `momDeriv(time, mdir)`: derivatives of the parameters for a momentum change along
the basis direction; the default case throws `invalid_argument`.  The components are listed in
the order of `ParamIndex`: rad, lam, cx, cy, phi0, t0. -/
def momDeriv (M : MathFns F) (K : PhysConst F) (h : LHelix F) (time : F) (mdir : LocDir) :
    Except Exn (DVEC F) :=
  let bval := h.beta M
  let omval := h.omega M K
  let pb := h.pbar M * h.sign
  let dt := time - h.t0
  let phival := omval * dt + h.phi0
  match mdir with
  | .perpdir =>
    .ok ![h.lam, -h.rad, -h.lam * M.sin phival, h.lam * M.cos phival,
          -omval * dt * h.rad / h.lam, -dt * h.rad / h.lam]
  | .phidir =>
    .ok ![0, 0, -pb * M.cos phival, -pb * M.sin phival, pb / h.rad, 0]
  | .momdir =>
    .ok ![h.rad, h.lam, -h.rad * M.sin phival, h.rad * M.cos phival,
          omval * dt, dt * (1 - bval * bval)]
  | .invalid => .error (.invalid_argument "Invalid direction")

/-- Lines 43 to 64 of the constructor `LHelix(pos0, mom0, charge, bnom, trange)`: the six
parameters computed from the rotated position `pos` and the rotated momentum `mom`.  The
rotated 4-momentum is read only through `Pt()`, `Phi()`, `X()`, `Y()`, `Z()`, so only its
3-vector part is kept. -/
def fill (M : MathFns F) (K : PhysConst F) (g2l : Mat3 F) (pos : Vec4 F) (mom : Vec3 F)
    (mass : F) (charge : Int) (bnom : Vec3 F) (trange : TRange F) : LHelix F :=
  let twopi := 2 * M.pi
  let l2g := g2l.Inverse
  let pt := mom.Rho M
  let phibar := mom.Phi M
  let momToRad := 1 / (K.cbar * (charge : F) * bnom.R M)
  let mbar := -mass * momToRad
  let h0 : LHelix F :=
    { trange_ := trange, pars_ := PData.zero, mass_ := mass, charge_ := charge,
      mbar_ := mbar, bnom_ := bnom, l2g_ := l2g, g2l_ := g2l }
  let h1 := h0.setParam rad_ (-pt * momToRad)
  let h2 := h1.setParam lam_ (-mom.z * momToRad)
  let om := h2.omega M K
  let h3 := h2.setParam t0_ (pos.t - pos.z / (om * h2.lam))
  let nwind := M.rint ((pos.z / h3.lam - phibar) / twopi)
  let h4 := h3.setParam phi0_ (phibar - om * (pos.t - h3.t0) + twopi * nwind)
  let h5 := h4.setParam cx_ (pos.x + mom.y * momToRad)
  h5.setParam cy_ (pos.y - mom.x * momToRad)

/-- Constructor `LHelix(pos0, mom0, charge, bnom, trange)`: rotation into the frame where z
is along the field (with its check), the parameters (`fill`), and the final test of the
position and momentum functions against the inputs. -/
def construct (M : MathFns F) (K : PhysConst F) (pos0 : Vec4 F) (mom0 : Mom4 F) (charge : Int)
    (bnom : Vec3 F) (trange : TRange F) : Except Exn (LHelix F) :=
  let g2l := Mat3.ofAxisAngle M ⟨M.sin (bnom.Phi M), -M.cos (bnom.Phi M), 0⟩ (bnom.Theta M)
  if |(g2l.apply bnom).Theta M| > 1 / 1000000 then .error (.invalid_argument "Rotation Error")
  else
    let pos := g2l.apply4 pos0
    let mom := g2l.apply mom0.Vect
    let h := fill M K g2l pos mom mom0.m charge bnom trange
    let testpos := h.position4 M K pos0
    match h.momentum M K testpos.t with
    | .error e => .error e
    | .ok testmom =>
      let dp := testpos.Vect.sub pos0.Vect
      let dm := testmom.Vect.sub mom0.Vect
      if dp.R M > 1 / 100000 ∨ dm.R M > 1 / 100000 then
        .error (.invalid_argument "Rotation Error")
      else .ok h

/-- Constructor `LHelix(pos0, mom0, charge, double bnom, range)`: field along z. -/
def constructZ (M : MathFns F) (K : PhysConst F) (pos0 : Vec4 F) (mom0 : Mom4 F) (charge : Int)
    (bnom : F) (trange : TRange F) : Except Exn (LHelix F) :=
  construct M K pos0 mom0 charge ⟨0, 0, bnom⟩ trange

end LHelix

end Helix

/-! ## Magnetic field interface (BField.hh) -/

/-- Interface `class BField`: the field vector and the field gradient at a position. -/
structure BField (F : Type) where
  fieldVect : Vec3 F → Vec3 F
  fieldGrad : Vec3 F → Mat3 F

section Field

variable {F : Type} [LinearOrderedField F]

/-- Modelled from the spec: `BField::fieldDeriv(position, velocity)` is called by
`LHelix::rangeInTolerance` but declared in no source file at hand; the spec describes it as the
local field gradient along the velocity, that is the gradient tensor applied to the velocity. -/
def BField.fieldDeriv (b : BField F) (position velocity : Vec3 F) : Vec3 F :=
  (b.fieldGrad position).apply velocity

/-- The class `UniformBField`: constant field vector, zero gradient. -/
def UniformBField (fvec : Vec3 F) : BField F where
  fieldVect := fun _ => fvec
  fieldGrad := fun _ => Mat3.zero

/-- Constructor `UniformBField(double BZ)`. -/
def UniformBField.ofBZ (BZ : F) : BField F := UniformBField ⟨0, 0, BZ⟩

/-- The class `GradBField(b0, b1, zg0, zg1)`: field along z growing linearly between two
planes, with the transverse components that keep it divergence free. -/
def GradBField (b0 b1 zg0 zg1 : F) : BField F where
  fieldVect := fun position =>
    let grad := (b1 - b0) / (zg1 - zg0)
    if position.z < zg0 then ⟨0, 0, b0⟩
    else if position.z > zg1 then ⟨0, 0, b1⟩
    else ⟨-(1 / 2) * grad * position.x, -(1 / 2) * grad * position.y,
          b0 + grad * (position.z - zg0)⟩
  fieldGrad := fun position =>
    let grad := (b1 - b0) / (zg1 - zg0)
    if position.z > zg0 ∧ position.z < zg1 then
      ⟨-(1 / 2) * grad, 0, 0, 0, -(1 / 2) * grad, 0, 0, 0, grad⟩
    else Mat3.zero

end Field

/-! ## Domain splitter (LHelix::rangeInTolerance) -/

/-- Value of a floating-point expression: a finite real or one of the IEEE special values.
The step estimates of `rangeInTolerance` divide by a quantity that is exactly zero in a
uniform field, so their value has to be followed through the special values. -/
inductive Ext (F : Type) where
  | fin (v : F)
  | posInf
  | negInf
  | nan

/-- Outcome of `rangeInTolerance` in the embedding. -/
inductive TolOutcome (F : Type) where
  /-- Normal return: the range written to `drange`, the accumulated distortion `dx` and the
  number of passes through the loop body. -/
  | done (drange : TRange F) (dx : F) (nsteps : Nat)
  /-- The step size is not a finite number: the result is outside the embedding. -/
  | nonFinite
  /-- An exception left the function. -/
  | raised (e : Exn)
  /-- The loop did not finish within the fuel. -/
  | outOfFuel

section Splitter

variable {F : Type} [LinearOrderedField F]

/-- Quotient `x / y` of two finite values where the divisor is a non-negative quantity, so
that a zero divisor is `+0`: the quotient is then an infinity of the sign of `x`, or NaN. -/
def Ext.div (x y : F) : Ext F :=
  if y = 0 then (if 0 < x then .posInf else if x < 0 then .negInf else .nan) else .fin (x / y)

/-- The call `sqrt` on an extended value: NaN for a negative argument. -/
def Ext.sqrt (M : MathFns F) : Ext F → Ext F
  | .fin v => if v < 0 then .nan else .fin (M.sqrt v)
  | .posInf => .posInf
  | .negInf => .nan
  | .nan => .nan

/-- The call `cbrt` on an extended value. -/
def Ext.cbrt (M : MathFns F) : Ext F → Ext F
  | .fin v => .fin (M.cbrt v)
  | .posInf => .posInf
  | .negInf => .negInf
  | .nan => .nan

/-- Product of a finite constant with an extended value. -/
def Ext.scale (c : F) : Ext F → Ext F
  | .fin v => .fin (c * v)
  | .posInf => if 0 < c then .posInf else if c < 0 then .negInf else .nan
  | .negInf => if 0 < c then .negInf else if c < 0 then .posInf else .nan
  | .nan => .nan

/-- Comparison `a < b` of extended values: false as soon as one side is NaN. -/
def Ext.lt : Ext F → Ext F → Bool
  | .fin a, .fin b => decide (a < b)
  | .fin _, .posInf => true
  | .negInf, .fin _ => true
  | .negInf, .posInf => true
  | _, _ => false

/-- The call `std::min(a, b)`, which returns `b` when `b < a` and `a` otherwise. -/
def Ext.min (a b : Ext F) : Ext F := if Ext.lt b a then b else a

namespace LHelix

/-- The scaling factor `sfac` of `rangeInTolerance`, computed at the start of the range.  The
quotient is the field quotient: for a helix without nominal field or without momentum the
divisor is zero and the code computes an infinity or a NaN, which this value does not follow;
the theorems that read it through a returned result take a helix with non-zero nominal field
and momentum. -/
def tolSfac (M : MathFns F) (K : PhysConst F) (h : LHelix F) (low : F) : F :=
  let bn := h.bnom_.R M
  let spd := h.speed M K low
  spd * spd / (bn * h.pbar M)

/-- The step size `tstep` of `rangeInTolerance` (lines 176 to 183), given the velocity at the
start of the range. -/
def tolStep (M : MathFns F) (K : PhysConst F) (h : LHelix F) (low : F) (bfield : BField F)
    (tol : F) (vel : Vec3 F) : Ext F :=
  let sfac := h.tolSfac M K low
  let tpos := h.position M K low
  let bvec := bfield.fieldVect tpos
  let db := (bvec.sub h.bnom_).R M
  let tstep : Ext F :=
    if db > 1 / 10000 then Ext.scale (2 / 10) (Ext.sqrt M (Ext.div tol (sfac * db)))
    else .fin (1 / 10)
  let dBdt := bfield.fieldDeriv tpos vel
  Ext.min tstep (Ext.scale (5 / 10) (Ext.cbrt M (Ext.div tol (sfac * dBdt.R M))))

/-- The do-while loop of `rangeInTolerance` (lines 190 to 199) for a finite step `tstep`:
`high` and `dx` are the values of `drange.high()` and `dx` on entry to the loop body, `n` counts
the passes already made.  The sum `drange.high() += tstep` is the exact sum; the rounding of
the accumulated `double` is not followed, so the number of passes of the compiled program can
differ from the one of this loop where a rounded sum falls on the other side of
`range().high()`. -/
def tolLoop (M : MathFns F) (K : PhysConst F) (h : LHelix F) (low : F) (bfield : BField F)
    (tol sfac tstep : F) : Nat → F → F → Nat → TolOutcome F
  | 0, _, _, _ => .outOfFuel
  | fuel + 1, high, dx, n =>
    let high1 := high + tstep
    let tpos := h.position M K high1
    let bvec := bfield.fieldVect tpos
    let db := (bvec.sub h.bnom_).R M
    let dx1 := dx + sfac * (TRange.mk low high1).range * tstep * db
    if |dx1| < tol ∧ high1 < h.range.high then
      tolLoop M K h low bfield tol sfac tstep fuel high1 dx1 (n + 1)
    else .done ⟨low, high1⟩ dx1 (n + 1)

/-- The accumulated distortion `dx` of `rangeInTolerance` after `k` passes of step `tstep`
through the loop body, following the update of line 198: the value the loop holds after `k`
passes, written as a function of `k`. -/
def tolDx (M : MathFns F) (K : PhysConst F) (h : LHelix F) (low : F) (bfield : BField F)
    (sfac tstep : F) : Nat → F
  | 0 => 0
  | k + 1 =>
    tolDx M K h low bfield sfac tstep k +
      sfac * (TRange.mk low (low + ((k + 1 : Nat) : F) * tstep)).range * tstep *
        ((bfield.fieldVect (h.position M K (low + ((k + 1 : Nat) : F) * tstep))).sub h.bnom_).R M

/-- The call `rangeInTolerance(drange, bfield, tol)`: only the lower bound of `drange` is read;
`fuel` bounds the number of passes through the loop. -/
def rangeInTolerance (M : MathFns F) (K : PhysConst F) (h : LHelix F) (fuel : Nat)
    (drange : TRange F) (bfield : BField F) (tol : F) : TolOutcome F :=
  match h.velocity M K drange.low with
  | .error e => .raised e
  | .ok vel =>
    match h.tolStep M K drange.low bfield tol vel with
    | .fin tstep =>
      tolLoop M K h drange.low bfield tol (h.tolSfac M K drange.low) tstep fuel drange.low 0 0
    | _ => .nonFinite

end LHelix

end Splitter

/-! ## Field-correction effect (KKBField.hh) -/

/-- Time direction `TDir` of a sweep. -/
inductive TDir where
  | forwards
  | backwards
  deriving DecidableEq, Repr

/-- Processing state of an effect in one direction (`KKEffBase`). -/
inductive Status where
  | unprocessed
  | processed
  deriving DecidableEq, Repr

/-- Data members of `KKBField`, with the per-direction status of its base `KKEffBase`. -/
structure KKBField (F : Type) where
  bfield_ : BField F
  drange_ : TRange F
  dpfrac_ : Vec3 F
  bfeff_ : PData F
  active_ : Bool
  statusFwd : Status
  statusBwd : Status

section FieldEffect

variable {F : Type} [LinearOrderedField F]

namespace KKBField

/-- Constructor `KKBField(bfield, pktraj, drange)`: not active until updated. -/
def create (bfield : BField F) (drange : TRange F) : KKBField F :=
  { bfield_ := bfield, drange_ := drange, dpfrac_ := Vec3.zero, bfeff_ := PData.zero,
    active_ := false, statusFwd := .unprocessed, statusBwd := .unprocessed }

/-- Accessor `time()`: the correction is applied at the middle of the range. -/
def time (e : KKBField F) : F := e.drange_.mid

/-- Accessor `isActive()`. -/
def isActive (e : KKBField F) : Bool := e.active_

/-- Accessor `effect()`. -/
def effect (e : KKBField F) : PData F := e.bfeff_

/-- Modelled from the spec: `KKEffBase::setStatus(tdir, status)` is declared in no source file
at hand; the spec gives each effect one processing state per sweep direction. -/
def setStatus (e : KKBField F) (tdir : TDir) (st : Status) : KKBField F :=
  match tdir with
  | .forwards => { e with statusFwd := st }
  | .backwards => { e with statusBwd := st }

/-- The call `process(kkdata, tdir)`.  The accumulator type `KKDATA` and its method `append`
are declared in no source file at hand and are parameters. -/
def process {KKDATA : Type} (append : KKDATA → PData F → KKDATA) (e : KKBField F)
    (kkdata : KKDATA) (tdir : TDir) : KKBField F × KKDATA :=
  let kkdata1 :=
    if e.active_ then
      if tdir = TDir.forwards then append kkdata e.bfeff_
      else
        let reverse : PData F := { e.bfeff_ with parameters := fun i => e.bfeff_.parameters i * -1 }
        append kkdata reverse
    else kkdata
  (e.setStatus tdir .processed, kkdata1)

end KKBField

end FieldEffect

/-! ## Drift wire hit (WireHit.hh) -/

/-- Parameters for updating wire hits, `struct WireHitUpdater`. -/
structure WireHitUpdater (F : Type) where
  mindoca_ : F
  maxdoca_ : F

/-- Modelled from the spec: the enumeration `LRAmbig` (LRAmbig.hh is not at hand); the spec
gives the left and right ambiguities the values -1 and +1, and the null ambiguity. -/
inductive LRAmbig where
  | left
  | null
  | right
  deriving DecidableEq, Repr

/-- The underlying integer of an ambiguity, `static_cast<underlying_type<LRAmbig>::type>`. -/
def LRAmbig.toInt : LRAmbig → Int
  | .left => -1
  | .null => 0
  | .right => 1

/-- An element of `MConfig::hitupdaters_`, a `std::any`: it holds a `WireHitUpdater` or a value
of some other type. -/
inductive AnyUpdater (F : Type) where
  | wireHit (u : WireHitUpdater F)
  | other (tag : Nat)

/-- The call `std::any_cast<WireHitUpdater>(&uparams)`: the held updater, or a null pointer. -/
def AnyUpdater.castWireHit {F : Type} : AnyUpdater F → Option (WireHitUpdater F)
  | .wireHit u => some u
  | .other _ => none

/-- Iteration configuration `MConfig`, with the members read by the code at hand. -/
structure MConfig (F : Type) where
  miter_ : Nat
  updatebfcorr_ : Bool
  hitupdaters_ : List (AnyUpdater F)

/-- Wire line `TLine`; the code at hand reads its direction only. -/
structure TLine (F : Type) where
  dir : Vec3 F

/-- Distance-to-time relation `D2T`: `distanceToTime(drift, tdrift, tdvar, vdrift)` returns the
drift time, its variance and the drift velocity through its three reference arguments. -/
structure D2T (F : Type) where
  distanceToTime : Pol2 F → F × F × F

/-- Closest approach `TPoca` between the trajectory and the wire, with the accessors read by the
code at hand. -/
structure TPoca (F : Type) where
  usable : Bool
  doca : F
  deltaT : F
  delta : Vec4 F
  particlePoca : Vec4 F
  dDdP : DVEC F
  dTdP : DVEC F

/-- Kind tag of a residual, `RESIDUAL::dtime` or `RESIDUAL::distance`. -/
inductive ResidKind where
  | dtime
  | distance
  deriving DecidableEq, Repr

/-- A residual built by `RESIDUAL(kind, tpoca, value, variance, dRdP)`. -/
structure Residual (F : Type) where
  kind : ResidKind
  tpoca : TPoca F
  value : F
  variance : F
  dRdP : DVEC F

/-- Data members of `WireHit`, with the activity flag of its base `THit`. -/
structure WireHit (F : Type) where
  wire_ : TLine F
  d2t_ : D2T F
  csize_ : F
  nullvar_ : F
  ambig_ : LRAmbig
  bfield_ : BField F
  active_ : Bool

/-- Result of `resid(tpoca, resid)`: the residual variable of the caller after the call, and
the exception thrown, if any. -/
structure ResidResult (F : Type) where
  residual : Residual F
  raised : Option Exn

/-- Result of `update(pktraj, mconfig, residual)`: the hit and the residual variable of the
caller after the call, and the exception thrown, if any. -/
structure UpdateResult (F : Type) where
  hit : WireHit F
  residual : Residual F
  raised : Option Exn

section Hit

variable {F : Type} [LinearOrderedField F]

/-- The call `std::min(a, b)` on doubles. -/
def stdMin (a b : F) : F := if b < a then b else a

namespace WireHit

/-- Accessor `cellSize()`. -/
def cellSize (hit : WireHit F) : F := hit.csize_

/-- Accessor `wire()`. -/
def wire (hit : WireHit F) : TLine F := hit.wire_

/-- Accessor `ambig()`. -/
def ambig (hit : WireHit F) : LRAmbig := hit.ambig_

/-- Accessor `d2T()`. -/
def d2T (hit : WireHit F) : D2T F := hit.d2t_

/-- The call `setNullVar(mindoca)`. -/
def setNullVar (hit : WireHit F) (mindoca : F) : WireHit F :=
  { hit with nullvar_ := mindoca * mindoca / 3 }

/-- The call `setAmbig(newambig)`. -/
def setAmbig (hit : WireHit F) (newambig : LRAmbig) : WireHit F := { hit with ambig_ := newambig }

/-- The call `THit::setActivity(active)`. -/
def setActivity (hit : WireHit F) (active : Bool) : WireHit F := { hit with active_ := active }

/-- Constructor `WireHit(dxing, bfield, wire, d2t, csize, ambig)`: active, null variance set
from the cell size. -/
def create (bfield : BField F) (wire : TLine F) (d2t : D2T F) (csize : F) (ambig : LRAmbig) :
    WireHit F :=
  setNullVar
    { wire_ := wire, d2t_ := d2t, csize_ := csize, nullvar_ := 0, ambig_ := ambig,
      bfield_ := bfield, active_ := true } csize

/-- The call `resid(tpoca, resid)`, the implementation of the residual from a TPOCA. -/
def resid (M : MathFns F) (hit : WireHit F) (tpoca : TPoca F) (resid : Residual F) :
    ResidResult F :=
  if tpoca.usable then
    if hit.ambig_ ≠ LRAmbig.null then
      let iambig : F := (hit.ambig_.toInt : F)
      let rho := tpoca.doca * iambig
      let bvec := hit.bfield_.fieldVect tpoca.particlePoca.Vect
      let pdir := (bvec.Cross hit.wire_.dir).Unit M
      let dvec := tpoca.delta.Vect
      let phi := M.asin ((dvec.Unit M).Dot pdir)
      let drift : Pol2 F := ⟨rho, phi⟩
      let (tdrift, tdvar, vdrift) := hit.d2T.distanceToTime drift
      let dRdP : DVEC F := fun i => tpoca.dDdP i * iambig / vdrift - tpoca.dTdP i
      ⟨⟨.dtime, tpoca, tpoca.deltaT - tdrift, tdvar, dRdP⟩, none⟩
    else
      ⟨⟨.distance, tpoca, -tpoca.doca, hit.nullvar_, tpoca.dDdP⟩, none⟩
  else ⟨resid, some (.runtime_error "POCA failure")⟩

/-- The search loop of `update` (lines 66 to 73): the single `WireHitUpdater` of the list, a
null pointer when there is none, `invalid_argument` when a second one is met. -/
def findUpdater : List (AnyUpdater F) → Option (WireHitUpdater F) →
    Except Exn (Option (WireHitUpdater F))
  | [], whupdater => .ok whupdater
  | uparams :: rest, whupdater =>
    match uparams.castWireHit with
    | some whu =>
      if whupdater.isSome then .error (.invalid_argument "Multiple WireHitUpdaters found")
      else findUpdater rest (some whu)
    | none => findUpdater rest whupdater

/-- The call `update(pktraj, mconfig, residual)`.  The trajectory type `PKTRAJ` and the
constructor `TPOCA(pktraj, wire)` are declared in no source file at hand and are parameters. -/
def update {PKTRAJ : Type} (M : MathFns F) (mkTPoca : PKTRAJ → TLine F → TPoca F)
    (hit : WireHit F) (pktraj : PKTRAJ) (mconfig : MConfig F) (residual : Residual F) :
    UpdateResult F :=
  let tpoca := mkTPoca pktraj hit.wire
  match findUpdater mconfig.hitupdaters_ none with
  | .error e => ⟨hit, residual, some e⟩
  | .ok whupdater =>
    let hit1 :=
      match whupdater with
      | some whu =>
        let hit2 :=
          if |tpoca.doca| > whu.mindoca_ then
            hit.setAmbig (if tpoca.doca > 0 then LRAmbig.right else LRAmbig.left)
          else (hit.setAmbig LRAmbig.null).setNullVar (stdMin hit.cellSize whu.mindoca_)
        hit2.setActivity (decide (|tpoca.doca| < whu.maxdoca_))
      | none => hit
    let r := hit1.resid M tpoca residual
    ⟨hit1, r.residual, r.raised⟩

/-- A finite sequence of calls of `update` on one hit, each call with its own trajectory,
configuration and residual variable.  A call that throws leaves the hit as it was when the
exception left `update`, and the next call starts from that state. -/
def updateAll {PKTRAJ : Type} (M : MathFns F) (mkTPoca : PKTRAJ → TLine F → TPoca F)
    (hit : WireHit F) : List (PKTRAJ × MConfig F × Residual F) → WireHit F
  | [] => hit
  | call :: rest =>
    updateAll M mkTPoca (hit.update M mkTPoca call.1 call.2.1 call.2.2).hit rest

/-- The call `resid(pktraj, residual)`: the TPOCA is computed, then turned into a residual. -/
def residTraj {PKTRAJ : Type} (M : MathFns F) (mkTPoca : PKTRAJ → TLine F → TPoca F)
    (hit : WireHit F) (pktraj : PKTRAJ) (residual : Residual F) : ResidResult F :=
  hit.resid M (mkTPoca pktraj hit.wire_) residual

end WireHit

end Hit

/-! ## Field-correction effect: update and append (KKBField.hh) -/

/-- Operations of the piecewise trajectory `PKTraj<KTRAJ>` and the path integral of the field
that `KKBField` calls.  The class `PKTraj` and `BField::integrate` are declared in no source
file at hand, so the trajectory type `PKTRAJ` and these operations are parameters.  The last
piece `back()` is `none` for a trajectory without pieces; `integrate` returns the vector that
`integrate(ref, drange, dp)` writes to `dp`. -/
structure PKTrajOps (PKTRAJ : Type) (F : Type) where
  back : PKTRAJ → Option (LHelix F)
  range : PKTRAJ → TRange F
  append : PKTRAJ → LHelix F → PKTRAJ
  nearestPiece : PKTRAJ → F → LHelix F
  momentumMag : PKTRAJ → F → F
  integrate : BField F → PKTRAJ → TRange F → Vec3 F

section FieldEffectUpdate

variable {F : Type} [LinearOrderedField F]

/-- The call `std::max(a, b)` on doubles, which returns `b` when `a < b` and `a` otherwise. -/
def stdMax (a b : F) : F := if a < b then b else a

/-- Modelled from the spec: `newpiece.params() += dvec` (PData.hh is not at hand); the spec
has the correction vector added to the copied parameters, with no noise term, so the
covariance is kept. -/
def LHelix.addToParams (h : LHelix F) (dvec : DVEC F) : LHelix F :=
  { h with pars_ := { h.pars_ with parameters := fun i => h.pars_.parameters i + dvec i } }

namespace KKBField

/-- Modelled from the spec: `KKEffBase::updateStatus()` is declared in no source file at hand;
the spec has the processing states reset to unprocessed before a new sweep. -/
def updateStatus (e : KKBField F) : KKBField F :=
  { e with statusFwd := Status.unprocessed, statusBwd := Status.unprocessed }

/-- The call `update(ref)`: the stored momentum change is projected onto the two directions
perpendicular to the momentum of the piece nearest the middle of the domain. -/
def update {PKTRAJ : Type} (ops : PKTrajOps PKTRAJ F) (M : MathFns F) (K : PhysConst F)
    (e : KKBField F) (ref : PKTRAJ) : Except Exn (KKBField F) := do
  let locref := ops.nearestPiece ref e.drange_.mid
  let time := e.time
  let t1hat ← locref.direction M K time LocDir.perpdir
  let t2hat ← locref.direction M K time LocDir.phidir
  let dpdt1 ← locref.momDeriv M K time LocDir.perpdir
  let dpdt2 ← locref.momDeriv M K time LocDir.phidir
  let e1 : KKBField F :=
    { e with bfeff_ := { e.bfeff_ with
        parameters := fun i => e.dpfrac_.Dot t1hat * dpdt1 i + e.dpfrac_.Dot t2hat * dpdt2 i } }
  pure e1.updateStatus

/-- The call `update(ref, mconfig)`: when the configuration asks for it the effect is made
active and the fractional momentum change is integrated again; then `update(ref)`. -/
def updateConfig {PKTRAJ : Type} (ops : PKTrajOps PKTRAJ F) (M : MathFns F) (K : PhysConst F)
    (e : KKBField F) (ref : PKTRAJ) (mconfig : MConfig F) : Except Exn (KKBField F) :=
  let e1 : KKBField F :=
    if mconfig.updatebfcorr_ then
      let dp := ops.integrate e.bfield_ ref e.drange_
      { e with active_ := true, dpfrac_ := dp.sdiv (ops.momentumMag ref e.drange_.mid) }
    else e
  update ops M K e1 ref

/-- Lines 88 to 95 of `append(fit)`: the new piece, a copy of the last piece of `fit` with the
stored correction added to its parameters and the new range set.  It is `none` when `fit` has
no last piece. -/
def newPiece {PKTRAJ : Type} (ops : PKTrajOps PKTRAJ F) (e : KKBField F) (fit : PKTRAJ) :
    Option (LHelix F) :=
  match ops.back fit with
  | none => none
  | some back =>
    let time := e.time
    let tlow := stdMax time (back.range.low + 1 / 100)
    let newrange : TRange F := ⟨tlow, (ops.range fit).high⟩
    let newpiece := back.addToParams e.bfeff_.parameters
    some (newpiece.setRange newrange)

/-- The call `append(fit)`: an active effect appends its new piece to `fit`, an inactive one
does nothing.  The result is `none` when an active effect meets a `fit` without pieces. -/
def append {PKTRAJ : Type} (ops : PKTrajOps PKTRAJ F) (e : KKBField F) (fit : PKTRAJ) :
    Option PKTRAJ :=
  if e.active_ then (newPiece ops e fit).map (ops.append fit) else some fit

end KKBField

end FieldEffectUpdate

/-! ## The scalar library over the reals -/

/-- Round to the nearest integer, halfway cases to the even neighbour: `rint` in the default
rounding mode. -/
noncomputable def realRint (x : ℝ) : ℝ :=
  if x - ⌊x⌋ < 1 / 2 then ⌊x⌋
  else if 1 / 2 < x - ⌊x⌋ then ⌊x⌋ + 1
  else if Even ⌊x⌋ then ⌊x⌋ else ⌊x⌋ + 1

/-- Real cube root `cbrt`, odd in its argument. -/
noncomputable def realCbrt (x : ℝ) : ℝ :=
  if 0 ≤ x then x ^ (1 / 3 : ℝ) else -((-x) ^ (1 / 3 : ℝ))

/-- The scalar library functions over the reals; `atan2 y x` is the argument of `x + i y`,
with `atan2 0 0 = 0`. -/
noncomputable def realMath : MathFns ℝ where
  pi := Real.pi
  sqrt := Real.sqrt
  cbrt := realCbrt
  sin := Real.sin
  cos := Real.cos
  asin := Real.arcsin
  atan2 := fun y x => Complex.arg ⟨x, y⟩
  rint := realRint

/-! ## Example inputs -/

/-- Example constants: the speed of light of CLHEP in mm/ns, and a thousandth of it for
`cbar`. -/
noncomputable def exampleConst : PhysConst ℝ := ⟨299792458 / 1000000, 299792458 / 1000000000⟩

/-- Example helix, the one the constructor returns for the position (0, -3, 0) at time 0, the
4-momentum (3, 0, 4) `cbar` with mass 12 `cbar`, charge -1 and a field of 1 along z (so both
rotations are the identity): radius 3, wavelength 4, reduced mass 12, centre and reference
azimuth and time 0, valid from time 0 to time 10.  Its reduced momentum is 5 and its reduced
energy 13. -/
noncomputable def exampleHelix : LHelix ℝ :=
  { trange_ := ⟨0, 10⟩, pars_ := ⟨![3, 4, 0, 0, 0, 0], fun _ _ => 0⟩,
    mass_ := 12 * (299792458 / 1000000000), charge_ := -1, mbar_ := 12, bnom_ := ⟨0, 0, 1⟩,
    l2g_ := ⟨1, 0, 0, 0, 1, 0, 0, 0, 1⟩, g2l_ := ⟨1, 0, 0, 0, 1, 0, 0, 0, 1⟩ }

/-- Example helix of negative mass, the one the constructor returns for the position
(0, -3, 0) at time 0, the 4-momentum (3, 0, 4) `cbar` with mass coordinate -4 `cbar`, charge -1
and a field of 1 along z: radius 3, wavelength 4, reduced mass -4. -/
noncomputable def exampleNegMassHelix : LHelix ℝ :=
  { trange_ := ⟨0, 10⟩, pars_ := ⟨![3, 4, 0, 0, 0, 0], fun _ _ => 0⟩,
    mass_ := -4 * (299792458 / 1000000000), charge_ := -1, mbar_ := -4, bnom_ := ⟨0, 0, 1⟩,
    l2g_ := ⟨1, 0, 0, 0, 1, 0, 0, 0, 1⟩, g2l_ := ⟨1, 0, 0, 0, 1, 0, 0, 0, 1⟩ }

/-- Example hit: uniform field of 1 along z, wire along y, cell size 4, drift time equal to
half the drift radius with variance 1 and drift velocity 2, null ambiguity. -/
noncomputable def exampleHit : WireHit ℝ :=
  WireHit.create (UniformBField ⟨0, 0, 1⟩) ⟨⟨0, 1, 0⟩⟩ ⟨fun d => (d.r / 2, 1, 2)⟩ 4 LRAmbig.null

/-- Example closest approach with a given signed distance and usability flag. -/
noncomputable def examplePoca (doca : ℝ) (usable : Bool) : TPoca ℝ :=
  ⟨usable, doca, 3, ⟨1, 0, 0, 3⟩, ⟨0, 0, 0, 0⟩, ![1, 0, 0, 0, 0, 0], ![0, 0, 0, 0, 0, 1]⟩

/-- Example value of the residual variable of the caller before a call. -/
noncomputable def exampleResidual : Residual ℝ := ⟨ResidKind.distance, examplePoca 0 false, 0, 0, fun _ => 0⟩

/-- Example configuration: one entry of another type and one `WireHitUpdater(1, 5)`. -/
noncomputable def exampleConfig : MConfig ℝ := ⟨0, false, [AnyUpdater.other 7, AnyUpdater.wireHit ⟨1, 5⟩]⟩

/-- Example field-correction effect: active, with a stored correction (1, 2, 3, 4, 5, 6) and
the identity as covariance. -/
noncomputable def exampleEffect : KKBField ℝ :=
  { bfield_ := UniformBField ⟨0, 0, 1⟩, drange_ := ⟨0, 1⟩, dpfrac_ := ⟨0, 0, 0⟩,
    bfeff_ := ⟨![1, 2, 3, 4, 5, 6], fun i j => if i = j then 1 else 0⟩, active_ := true,
    statusFwd := Status.unprocessed, statusBwd := Status.unprocessed }

/-- Example piecewise trajectory operations on a list of pieces in time order: the last piece
of the list is `back()`, the range runs from the low end of the first piece to the high end of
the last one, `append` adds the piece at the end of the list, the nearest piece is the last
one, the momentum magnitude is read from it, and the field integral is zero. -/
noncomputable def examplePKTrajOps : PKTrajOps (List (LHelix ℝ)) ℝ :=
  { back := fun fit => fit.getLast?,
    range := fun fit =>
      ⟨(fit.head?.map fun p => p.range.low).getD 0,
       (fit.getLast?.map fun p => p.range.high).getD 0⟩,
    append := fun fit piece => fit ++ [piece],
    nearestPiece := fun fit _ => fit.getLast?.getD exampleHelix,
    momentumMag := fun fit t => (fit.getLast?.getD exampleHelix).momentumMag realMath t,
    integrate := fun _ _ _ => ⟨0, 0, 0⟩ }

/-- Example fit of one piece, the example helix, valid from time 0 to time 10. -/
noncomputable def exampleFit : List (LHelix ℝ) := [exampleHelix]

/-- Example inactive field-correction effect: the example effect with the activity flag
cleared. -/
noncomputable def exampleInactiveEffect : KKBField ℝ := { exampleEffect with active_ := false }

/-- Example configuration without any `WireHitUpdater` entry. -/
noncomputable def exampleFrozenConfig : MConfig ℝ := ⟨0, false, [AnyUpdater.other 7]⟩

/-! # Theorems -/

section Theorems

variable {F : Type} [LinearOrderedField F]

/-! ### Facts about the real scalar library -/

@[simp] theorem realMath_pi : realMath.pi = Real.pi := rfl
@[simp] theorem realMath_sqrt : realMath.sqrt = Real.sqrt := rfl
@[simp] theorem realMath_sin : realMath.sin = Real.sin := rfl
@[simp] theorem realMath_cos : realMath.cos = Real.cos := rfl
@[simp] theorem realMath_atan2 (y x : ℝ) : realMath.atan2 y x = Complex.arg ⟨x, y⟩ := rfl
@[simp] theorem realMath_rint : realMath.rint = realRint := rfl

theorem realMath_sqrt_mul_sin_atan2 (a b : ℝ) :
    Real.sqrt (a * a + b * b) * Real.sin (Complex.arg ⟨a, b⟩) = b := by
  by_cases h : (⟨a, b⟩ : ℂ) = 0
  · have hb : b = 0 := by simpa using congrArg Complex.im h
    have ha : a = 0 := by simpa using congrArg Complex.re h
    subst ha hb
    simp
  · rw [Complex.sin_arg, Complex.abs_apply, Complex.normSq_mk]
    have hne : Real.sqrt (a * a + b * b) ≠ 0 := by
      intro h0
      apply h
      have := (Complex.normSq_eq_zero (z := ⟨a, b⟩)).1
      apply this
      rw [Complex.normSq_mk]
      have h1 : 0 ≤ a * a + b * b := add_nonneg (mul_self_nonneg a) (mul_self_nonneg b)
      exact (Real.sqrt_eq_zero h1).1 h0
    field_simp

theorem realMath_sqrt_mul_cos_atan2 (a b : ℝ) :
    Real.sqrt (a * a + b * b) * Real.cos (Complex.arg ⟨a, b⟩) = a := by
  by_cases h : (⟨a, b⟩ : ℂ) = 0
  · have hb : b = 0 := by simpa using congrArg Complex.im h
    have ha : a = 0 := by simpa using congrArg Complex.re h
    subst ha hb
    simp
  · rw [Complex.cos_arg h, Complex.abs_apply, Complex.normSq_mk]
    have hne : Real.sqrt (a * a + b * b) ≠ 0 := by
      intro h0
      apply h
      have := (Complex.normSq_eq_zero (z := ⟨a, b⟩)).1
      apply this
      rw [Complex.normSq_mk]
      have h1 : 0 ≤ a * a + b * b := add_nonneg (mul_self_nonneg a) (mul_self_nonneg b)
      exact (Real.sqrt_eq_zero h1).1 h0
    field_simp

theorem realRint_int (x : ℝ) : ∃ k : ℤ, realRint x = k := by
  unfold realRint
  split_ifs
  · exact ⟨⌊x⌋, rfl⟩
  · exact ⟨⌊x⌋ + 1, by push_cast; ring⟩
  · exact ⟨⌊x⌋, rfl⟩
  · exact ⟨⌊x⌋ + 1, by push_cast; ring⟩

theorem axis_unit (p : ℝ) :
    Vec3.Unit realMath ⟨Real.sin p, -Real.cos p, 0⟩ = ⟨Real.sin p, -Real.cos p, 0⟩ := by
  have h1 : Vec3.R realMath (⟨Real.sin p, -Real.cos p, 0⟩ : Vec3 ℝ) = 1 := by
    simp only [Vec3.R, Vec3.Mag2, realMath_sqrt]
    have : Real.sin p * Real.sin p + -Real.cos p * -Real.cos p + 0 * 0 = 1 := by
      have := Real.sin_sq_add_cos_sq p
      nlinarith
    rw [this, Real.sqrt_one]
  simp [Vec3.Unit, h1, Vec3.sdiv]

theorem rot_inverse_apply (p q : ℝ) (v : Vec3 ℝ) :
    (Mat3.ofAxisAngle realMath ⟨Real.sin p, -Real.cos p, 0⟩ q).Inverse.apply
      ((Mat3.ofAxisAngle realMath ⟨Real.sin p, -Real.cos p, 0⟩ q).apply v) = v := by
  have hp := Real.sin_sq_add_cos_sq p
  have hq := Real.sin_sq_add_cos_sq q
  obtain ⟨vx, vy, vz⟩ := v
  simp only [Mat3.ofAxisAngle, realMath_sin, realMath_cos, axis_unit, Mat3.Inverse, Mat3.apply,
    Vec3.mk.injEq]
  set s := Real.sin p
  set c := Real.cos p
  set S := Real.sin q
  set C := Real.cos q
  refine ⟨?_, ?_, ?_⟩
  · linear_combination (S^2*vx + (1-C)^2*(s*vx - c*vy)*s) * hp + (vx - (s*vx - c*vy)*s) * hq
  · linear_combination (S^2*vy + (1-C)^2*(s*vx - c*vy)*(-c)) * hp + (vy - (s*vx - c*vy)*(-c)) * hq
  · linear_combination (S^2*vz) * hp + (vz) * hq



theorem fill_rad (M : MathFns F) (K : PhysConst F) (g2l : Mat3 F) (pos : Vec4 F) (mom : Vec3 F)
    (mass : F) (charge : Int) (bnom : Vec3 F) (trange : TRange F) :
    (LHelix.fill M K g2l pos mom mass charge bnom trange).rad
      = -mom.Rho M * (1 / (K.cbar * (charge : F) * bnom.R M)) := by
  rfl

theorem fill_lam (M : MathFns F) (K : PhysConst F) (g2l : Mat3 F) (pos : Vec4 F) (mom : Vec3 F)
    (mass : F) (charge : Int) (bnom : Vec3 F) (trange : TRange F) :
    (LHelix.fill M K g2l pos mom mass charge bnom trange).lam
      = -mom.z * (1 / (K.cbar * (charge : F) * bnom.R M)) := by
  rfl

theorem fill_mbar (M : MathFns F) (K : PhysConst F) (g2l : Mat3 F) (pos : Vec4 F) (mom : Vec3 F)
    (mass : F) (charge : Int) (bnom : Vec3 F) (trange : TRange F) :
    (LHelix.fill M K g2l pos mom mass charge bnom trange).mbar_
      = -mass * (1 / (K.cbar * (charge : F) * bnom.R M)) := by
  rfl

theorem fill_cx (M : MathFns F) (K : PhysConst F) (g2l : Mat3 F) (pos : Vec4 F) (mom : Vec3 F)
    (mass : F) (charge : Int) (bnom : Vec3 F) (trange : TRange F) :
    (LHelix.fill M K g2l pos mom mass charge bnom trange).cx
      = pos.x + mom.y * (1 / (K.cbar * (charge : F) * bnom.R M)) := by
  rfl

theorem fill_cy (M : MathFns F) (K : PhysConst F) (g2l : Mat3 F) (pos : Vec4 F) (mom : Vec3 F)
    (mass : F) (charge : Int) (bnom : Vec3 F) (trange : TRange F) :
    (LHelix.fill M K g2l pos mom mass charge bnom trange).cy
      = pos.y - mom.x * (1 / (K.cbar * (charge : F) * bnom.R M)) := by
  rfl

theorem fill_t0 (M : MathFns F) (K : PhysConst F) (g2l : Mat3 F) (pos : Vec4 F) (mom : Vec3 F)
    (mass : F) (charge : Int) (bnom : Vec3 F) (trange : TRange F) :
    (LHelix.fill M K g2l pos mom mass charge bnom trange).t0
      = pos.t - pos.z / ((LHelix.fill M K g2l pos mom mass charge bnom trange).omega M K *
          (LHelix.fill M K g2l pos mom mass charge bnom trange).lam) := by
  rfl

theorem fill_phi0 (M : MathFns F) (K : PhysConst F) (g2l : Mat3 F) (pos : Vec4 F) (mom : Vec3 F)
    (mass : F) (charge : Int) (bnom : Vec3 F) (trange : TRange F) :
    (LHelix.fill M K g2l pos mom mass charge bnom trange).phi0
      = mom.Phi M - (LHelix.fill M K g2l pos mom mass charge bnom trange).omega M K *
          (pos.t - (LHelix.fill M K g2l pos mom mass charge bnom trange).t0)
        + 2 * M.pi * M.rint ((pos.z / (LHelix.fill M K g2l pos mom mass charge bnom trange).lam
            - mom.Phi M) / (2 * M.pi)) := by
  rfl



theorem sin_add_two_pi_rint (a x : ℝ) :
    Real.sin (a + 2 * Real.pi * realRint x) = Real.sin a := by
  obtain ⟨k, hk⟩ := realRint_int x
  rw [hk, show a + 2 * Real.pi * (k : ℝ) = a + k * (2 * Real.pi) by ring]
  exact Real.sin_add_int_mul_two_pi a k

theorem cos_add_two_pi_rint (a x : ℝ) :
    Real.cos (a + 2 * Real.pi * realRint x) = Real.cos a := by
  obtain ⟨k, hk⟩ := realRint_int x
  rw [hk, show a + 2 * Real.pi * (k : ℝ) = a + k * (2 * Real.pi) by ring]
  exact Real.cos_add_int_mul_two_pi a k

/-- The azimuth of the filled helix at the input time is the momentum azimuth up to whole
turns. -/
theorem fill_phi (K : PhysConst ℝ) (g2l : Mat3 ℝ) (pos : Vec4 ℝ) (mom : Vec3 ℝ)
    (mass : ℝ) (charge : Int) (bnom : Vec3 ℝ) (trange : TRange ℝ) :
    (LHelix.fill realMath K g2l pos mom mass charge bnom trange).phi realMath K pos.t
      = mom.Phi realMath + 2 * Real.pi * realRint
          ((pos.z / (LHelix.fill realMath K g2l pos mom mass charge bnom trange).lam
            - mom.Phi realMath) / (2 * Real.pi)) := by
  rw [LHelix.phi, LHelix.dphi, fill_phi0]
  simp only [realMath_pi, realMath_rint]
  ring

theorem fill_pbar2 (K : PhysConst ℝ) (g2l : Mat3 ℝ) (pos : Vec4 ℝ) (mom : Vec3 ℝ)
    (mass : ℝ) (charge : Int) (bnom : Vec3 ℝ) (trange : TRange ℝ) :
    (LHelix.fill realMath K g2l pos mom mass charge bnom trange).pbar2
      = (1 / (K.cbar * (charge : ℝ) * bnom.R realMath)) ^ 2 * mom.Mag2 := by
  rw [LHelix.pbar2, fill_rad, fill_lam]
  simp only [Vec3.Rho, Vec3.Mag2, realMath_sqrt]
  have h := Real.mul_self_sqrt (add_nonneg (mul_self_nonneg mom.x) (mul_self_nonneg mom.y))
  linear_combination (1 / (K.cbar * (charge : ℝ) * bnom.R realMath)) ^ 2 * h



theorem fill_l2g (K : PhysConst ℝ) (g2l : Mat3 ℝ) (pos : Vec4 ℝ) (mom : Vec3 ℝ)
    (mass : ℝ) (charge : Int) (bnom : Vec3 ℝ) (trange : TRange ℝ) :
    (LHelix.fill realMath K g2l pos mom mass charge bnom trange).l2g_ = g2l.Inverse := rfl

theorem fill_mass (K : PhysConst ℝ) (g2l : Mat3 ℝ) (pos : Vec4 ℝ) (mom : Vec3 ℝ)
    (mass : ℝ) (charge : Int) (bnom : Vec3 ℝ) (trange : TRange ℝ) :
    (LHelix.fill realMath K g2l pos mom mass charge bnom trange).mass_ = mass := rfl

/-- Positivity of the reduced energy when the reduced mass is not zero. -/
theorem ebar_pos (h : LHelix ℝ) (hm : h.mbar_ ≠ 0) : 0 < h.ebar realMath := by
  rw [LHelix.ebar, realMath_sqrt]
  apply Real.sqrt_pos.2
  rw [LHelix.ebar2, LHelix.pbar2]
  have := mul_self_pos.2 hm
  nlinarith [mul_self_nonneg h.rad, mul_self_nonneg h.lam]

theorem sign_ne_zero (h : LHelix ℝ) : h.sign ≠ 0 := by
  unfold LHelix.sign
  split_ifs <;> norm_num

theorem omega_ne_zero (K : PhysConst ℝ) (h : LHelix ℝ) (hc : K.c_light ≠ 0) (hm : h.mbar_ ≠ 0) :
    h.omega realMath K ≠ 0 := by
  rw [LHelix.omega]
  exact div_ne_zero (mul_ne_zero hc (sign_ne_zero h)) (ebar_pos h hm).ne'

/-- In the rotated frame the filled helix passes through the input position at the input
time. -/
theorem fill_position_local (K : PhysConst ℝ) (g2l : Mat3 ℝ) (pos : Vec4 ℝ) (mom : Vec3 ℝ)
    (mass : ℝ) (charge : Int) (bnom : Vec3 ℝ) (trange : TRange ℝ)
    (hc : K.c_light ≠ 0) (hcb : K.cbar ≠ 0) (hq : charge ≠ 0) (hB : bnom.R realMath ≠ 0)
    (hm : 0 < mass) (hpz : mom.z ≠ 0) :
    (LHelix.fill realMath K g2l pos mom mass charge bnom trange).position realMath K pos.t
      = g2l.Inverse.apply ⟨pos.x, pos.y, pos.z⟩ := by
  set h := LHelix.fill realMath K g2l pos mom mass charge bnom trange with hh
  have hm2r : (1 / (K.cbar * (charge : ℝ) * bnom.R realMath)) ≠ 0 :=
    one_div_ne_zero (mul_ne_zero (mul_ne_zero hcb (Int.cast_ne_zero.2 hq)) hB)
  have hmbar : h.mbar_ ≠ 0 := by
    rw [hh, fill_mbar]
    exact mul_ne_zero (neg_ne_zero.2 hm.ne') hm2r
  have hlam : h.lam ≠ 0 := by
    rw [hh, fill_lam]
    exact mul_ne_zero (neg_ne_zero.2 hpz) hm2r
  have hom := omega_ne_zero K h hc hmbar
  have hphi := fill_phi K g2l pos mom mass charge bnom trange
  rw [← hh, LHelix.phi] at hphi
  have hz : h.dphi realMath K pos.t * h.lam = pos.z := by
    rw [LHelix.dphi, hh, fill_t0, ← hh]
    field_simp
    ring
  rw [LHelix.position, hh, fill_l2g, ← hh]
  simp only [realMath_sin, realMath_cos]
  rw [hphi, sin_add_two_pi_rint, cos_add_two_pi_rint, hz]
  congr 2
  · rw [hh, fill_cx, fill_rad]
    simp only [Vec3.Rho, Vec3.Phi, realMath_sqrt, realMath_atan2]
    have := realMath_sqrt_mul_sin_atan2 mom.x mom.y
    linear_combination -(1 / (K.cbar * (charge : ℝ) * bnom.R realMath)) * this
  · rw [hh, fill_cy, fill_rad]
    simp only [Vec3.Rho, Vec3.Phi, realMath_sqrt, realMath_atan2]
    have := realMath_sqrt_mul_cos_atan2 mom.x mom.y
    linear_combination (1 / (K.cbar * (charge : ℝ) * bnom.R realMath)) * this



/-- The call `momentum(time)` never throws: it asks for `momdir`. -/
theorem momentum_eq (M : MathFns F) (K : PhysConst F) (h : LHelix F) (t : F) :
    h.momentum M K t = .ok
      ⟨h.betaGamma M * h.mass_ * (h.l2g_.apply ⟨h.rad * M.cos (h.phi M K t) * (h.sign / h.pbar M),
          h.rad * M.sin (h.phi M K t) * (h.sign / h.pbar M), h.lam * (h.sign / h.pbar M)⟩).x,
       h.betaGamma M * h.mass_ * (h.l2g_.apply ⟨h.rad * M.cos (h.phi M K t) * (h.sign / h.pbar M),
          h.rad * M.sin (h.phi M K t) * (h.sign / h.pbar M), h.lam * (h.sign / h.pbar M)⟩).y,
       h.betaGamma M * h.mass_ * (h.l2g_.apply ⟨h.rad * M.cos (h.phi M K t) * (h.sign / h.pbar M),
          h.rad * M.sin (h.phi M K t) * (h.sign / h.pbar M), h.lam * (h.sign / h.pbar M)⟩).z,
       h.mass_⟩ := rfl

/-- In the rotated frame the filled helix has the input momentum at the input time. -/
theorem fill_momentum_local (K : PhysConst ℝ) (g2l : Mat3 ℝ) (pos : Vec4 ℝ) (mom : Vec3 ℝ)
    (mass : ℝ) (charge : Int) (bnom : Vec3 ℝ) (trange : TRange ℝ)
    (hcb : K.cbar ≠ 0) (hq : charge ≠ 0) (hB : bnom.R realMath ≠ 0)
    (hm : 0 < mass) (hpz : mom.z ≠ 0) :
    (LHelix.fill realMath K g2l pos mom mass charge bnom trange).momentum realMath K pos.t
      = .ok ⟨(g2l.Inverse.apply mom).x, (g2l.Inverse.apply mom).y, (g2l.Inverse.apply mom).z,
          mass⟩ := by
  set h := LHelix.fill realMath K g2l pos mom mass charge bnom trange with hh
  set m2r : ℝ := 1 / (K.cbar * (charge : ℝ) * bnom.R realMath) with hm2
  have hm2r : m2r ≠ 0 :=
    one_div_ne_zero (mul_ne_zero (mul_ne_zero hcb (Int.cast_ne_zero.2 hq)) hB)
  have hmbar : h.mbar_ = -mass * m2r := by rw [hh, fill_mbar]
  have hmbar0 : h.mbar_ ≠ 0 := by
    rw [hmbar]; exact mul_ne_zero (neg_ne_zero.2 hm.ne') hm2r
  have hlam : h.lam = -mom.z * m2r := by rw [hh, fill_lam]
  have hrad : h.rad = -mom.Rho realMath * m2r := by rw [hh, fill_rad]
  have hlam0 : h.lam ≠ 0 := by
    rw [hlam]; exact mul_ne_zero (neg_ne_zero.2 hpz) hm2r
  have hpb : 0 < h.pbar realMath := by
    rw [LHelix.pbar, realMath_sqrt]
    apply Real.sqrt_pos.2
    rw [LHelix.pbar2]
    nlinarith [mul_self_nonneg h.rad, mul_self_pos.2 hlam0]
  -- the product of the momentum scale and the signed inverse reduced momentum
  have hk : h.betaGamma realMath * h.mass_ * (h.sign / h.pbar realMath) * m2r = -1 := by
    rw [LHelix.betaGamma, abs_div, abs_of_pos hpb, hh, fill_mass, ← hh, LHelix.sign]
    rcases lt_or_gt_of_ne hmbar0 with hneg | hpos
    · rw [if_pos hneg, abs_of_neg hneg, hmbar]
      have : mass * m2r ≠ 0 := mul_ne_zero hm.ne' hm2r
      field_simp
      ring
    · rw [if_neg (not_lt.2 hpos.le), abs_of_pos hpos, hmbar]
      have : mass * m2r ≠ 0 := mul_ne_zero hm.ne' hm2r
      field_simp
      ring
  have hphi := fill_phi K g2l pos mom mass charge bnom trange
  rw [← hh] at hphi
  have hs := realMath_sqrt_mul_sin_atan2 mom.x mom.y
  have hcs := realMath_sqrt_mul_cos_atan2 mom.x mom.y
  have e1 : h.betaGamma realMath * h.mass_ *
      (h.rad * Real.cos (h.phi realMath K pos.t) * (h.sign / h.pbar realMath)) = mom.x := by
    rw [hphi, cos_add_two_pi_rint, hrad]
    simp only [Vec3.Rho, Vec3.Phi, realMath_sqrt, realMath_atan2]
    linear_combination
      (-Real.sqrt (mom.x * mom.x + mom.y * mom.y) * Real.cos (Complex.arg ⟨mom.x, mom.y⟩)) * hk
        + hcs
  have e2 : h.betaGamma realMath * h.mass_ *
      (h.rad * Real.sin (h.phi realMath K pos.t) * (h.sign / h.pbar realMath)) = mom.y := by
    rw [hphi, sin_add_two_pi_rint, hrad]
    simp only [Vec3.Rho, Vec3.Phi, realMath_sqrt, realMath_atan2]
    linear_combination
      (-Real.sqrt (mom.x * mom.x + mom.y * mom.y) * Real.sin (Complex.arg ⟨mom.x, mom.y⟩)) * hk
        + hs
  have e3 : h.betaGamma realMath * h.mass_ * (h.lam * (h.sign / h.pbar realMath)) = mom.z := by
    rw [hlam]
    linear_combination (-mom.z) * hk
  have hmass : h.mass_ = mass := by rw [hh, fill_mass]
  rw [hmass] at e1 e2 e3
  rw [momentum_eq, hh, fill_l2g, fill_mass, ← hh]
  simp only [realMath_sin, realMath_cos, Mat3.apply]
  congr 2
  · linear_combination g2l.Inverse.xx * e1 + g2l.Inverse.xy * e2 + g2l.Inverse.xz * e3
  · linear_combination g2l.Inverse.yx * e1 + g2l.Inverse.yy * e2 + g2l.Inverse.yz * e3
  · linear_combination g2l.Inverse.zx * e1 + g2l.Inverse.zy * e2 + g2l.Inverse.zz * e3



theorem mag2_nonneg (b : Vec3 ℝ) : 0 ≤ b.x * b.x + b.y * b.y + b.z * b.z :=
  add_nonneg (add_nonneg (mul_self_nonneg _) (mul_self_nonneg _)) (mul_self_nonneg _)

/-- The transverse direction of the rotation axis is orthogonal to the field. -/
theorem axis_dot_bnom (b : Vec3 ℝ) :
    Real.sin (b.Phi realMath) * b.x - Real.cos (b.Phi realMath) * b.y = 0 := by
  simp only [Vec3.Phi, realMath_atan2]
  have hs := realMath_sqrt_mul_sin_atan2 b.x b.y
  have hc := realMath_sqrt_mul_cos_atan2 b.x b.y
  by_cases h0 : Real.sqrt (b.x * b.x + b.y * b.y) = 0
  · rw [h0, zero_mul] at hs hc
    rw [← hs, ← hc]; ring
  · apply (mul_right_inj' h0).1
    linear_combination b.x * hs - b.y * hc

theorem bnom_R_eq (b : Vec3 ℝ) :
    Real.sqrt (b.z * b.z + b.Rho realMath * b.Rho realMath) = b.R realMath := by
  simp only [Vec3.Rho, Vec3.R, Vec3.Mag2, realMath_sqrt]
  rw [Real.mul_self_sqrt (add_nonneg (mul_self_nonneg b.x) (mul_self_nonneg b.y))]
  congr 1
  ring

/-- The rotation built by the constructor takes the nominal field onto the z axis. -/
theorem rot_apply_bnom (b : Vec3 ℝ) (hb : b.R realMath ≠ 0) :
    (Mat3.ofAxisAngle realMath ⟨Real.sin (b.Phi realMath), -Real.cos (b.Phi realMath), 0⟩
      (b.Theta realMath)).apply b = ⟨0, 0, b.R realMath⟩ := by
  have hfs := realMath_sqrt_mul_sin_atan2 b.x b.y
  have hfc := realMath_sqrt_mul_cos_atan2 b.x b.y
  have hts := realMath_sqrt_mul_sin_atan2 b.z (b.Rho realMath)
  have htc := realMath_sqrt_mul_cos_atan2 b.z (b.Rho realMath)
  rw [bnom_R_eq] at hts htc
  have hax := axis_dot_bnom b
  have hn2 : b.R realMath * b.R realMath = b.x * b.x + b.y * b.y + b.z * b.z := by
    simp only [Vec3.R, realMath_sqrt, Vec3.Mag2]
    exact Real.mul_self_sqrt (mag2_nonneg b)
  simp only [Mat3.ofAxisAngle, realMath_sin, realMath_cos, axis_unit, Mat3.apply, Vec3.mk.injEq]
  simp only [Vec3.Theta, Vec3.Phi, realMath_atan2] at *
  have hrho : b.Rho realMath = Real.sqrt (b.x * b.x + b.y * b.y) := rfl
  rw [hrho] at hts htc ⊢
  set s := Real.sin (Complex.arg ⟨b.x, b.y⟩)
  set c := Real.cos (Complex.arg ⟨b.x, b.y⟩)
  set ρ := Real.sqrt (b.x * b.x + b.y * b.y)
  set S := Real.sin (Complex.arg ⟨b.z, ρ⟩)
  set C := Real.cos (Complex.arg ⟨b.z, ρ⟩)
  set n := b.R realMath
  refine ⟨?_, ?_, ?_⟩
  · apply (mul_right_inj' hb).1
    linear_combination (n * (1 - C) * s) * hax + b.x * htc - (c * b.z) * hts - b.z * hfc
  · apply (mul_right_inj' hb).1
    linear_combination (-n * (1 - C) * c) * hax + b.y * htc - (s * b.z) * hts - b.z * hfs
  · apply (mul_right_inj' hb).1
    linear_combination (c * b.x + s * b.y) * hts + b.z * htc + b.x * hfc + b.y * hfs - hn2

/-- The z component of a rotated vector is its component along the nominal field. -/
theorem rot_apply_z (b p : Vec3 ℝ) :
    b.R realMath * ((Mat3.ofAxisAngle realMath
      ⟨Real.sin (b.Phi realMath), -Real.cos (b.Phi realMath), 0⟩ (b.Theta realMath)).apply p).z
      = p.Dot b := by
  have hfs := realMath_sqrt_mul_sin_atan2 b.x b.y
  have hfc := realMath_sqrt_mul_cos_atan2 b.x b.y
  have hts := realMath_sqrt_mul_sin_atan2 b.z (b.Rho realMath)
  have htc := realMath_sqrt_mul_cos_atan2 b.z (b.Rho realMath)
  rw [bnom_R_eq] at hts htc
  simp only [Mat3.ofAxisAngle, realMath_sin, realMath_cos, axis_unit, Mat3.apply, Vec3.Dot]
  simp only [Vec3.Theta, Vec3.Phi, realMath_atan2] at *
  have hrho : b.Rho realMath = Real.sqrt (b.x * b.x + b.y * b.y) := rfl
  rw [hrho] at hts htc ⊢
  linear_combination (Real.cos (Complex.arg ⟨b.x, b.y⟩) * p.x
    + Real.sin (Complex.arg ⟨b.x, b.y⟩) * p.y) * hts + p.z * htc + p.x * hfc + p.y * hfs

theorem theta_z_axis (n : ℝ) (hn : 0 ≤ n) : (⟨0, 0, n⟩ : Vec3 ℝ).Theta realMath = 0 := by
  simp only [Vec3.Theta, Vec3.Rho, realMath_atan2, realMath_sqrt]
  norm_num
  have : (⟨n, 0⟩ : ℂ) = (n : ℂ) := rfl
  rw [this]
  exact Complex.arg_ofReal_of_nonneg hn

theorem R_zero : (⟨0, 0, 0⟩ : Vec3 ℝ).R realMath = 0 := by
  simp [Vec3.R, Vec3.Mag2]

theorem R_ne_zero (b : Vec3 ℝ) (hb : b ≠ ⟨0, 0, 0⟩) : b.R realMath ≠ 0 := by
  intro h0
  apply hb
  simp only [Vec3.R, realMath_sqrt, Vec3.Mag2] at h0
  have h1 := (Real.sqrt_eq_zero (mag2_nonneg b)).1 h0
  obtain ⟨x, y, z⟩ := b
  simp only at h1
  have hx : x = 0 := by nlinarith [mul_self_nonneg x, mul_self_nonneg y, mul_self_nonneg z]
  have hy : y = 0 := by nlinarith [mul_self_nonneg x, mul_self_nonneg y, mul_self_nonneg z]
  have hz : z = 0 := by nlinarith [mul_self_nonneg x, mul_self_nonneg y, mul_self_nonneg z]
  rw [hx, hy, hz]

/-- Claim C1: for a 4-position `pos0`, a 4-momentum `mom0` of positive mass, a non-zero charge,
a non-zero nominal field `bnom` and a non-zero momentum component along `bnom`, the constructor
`LHelix(pos0, mom0, charge, bnom)` returns a helix (neither of its two checks throws), and this
helix has `position(pos0.T())` equal to the spatial part of `pos0` and `momentum(pos0.T())`
equal to `mom0`, exactly over the reals.  The two constants `c_light` and `cbar` are not zero. -/
theorem construct_roundtrip (K : PhysConst ℝ) (pos0 : Vec4 ℝ) (mom0 : Mom4 ℝ)
    (charge : Int) (bnom : Vec3 ℝ) (trange : TRange ℝ)
    (hc : K.c_light ≠ 0) (hcb : K.cbar ≠ 0) (hm : 0 < mom0.m) (hq : charge ≠ 0)
    (hB : bnom ≠ ⟨0, 0, 0⟩) (hp : mom0.Vect.Dot bnom ≠ 0) :
    ∃ h : LHelix ℝ, LHelix.construct realMath K pos0 mom0 charge bnom trange = .ok h ∧
      h.position realMath K pos0.t = pos0.Vect ∧
      h.momentum realMath K pos0.t = .ok mom0 := by
  have hR := R_ne_zero bnom hB
  have hRpos : 0 ≤ bnom.R realMath := Real.sqrt_nonneg _
  set g2l := Mat3.ofAxisAngle realMath
    ⟨Real.sin (bnom.Phi realMath), -Real.cos (bnom.Phi realMath), 0⟩ (bnom.Theta realMath) with hg
  have hpz : (g2l.apply mom0.Vect).z ≠ 0 := by
    intro h0
    apply hp
    rw [← rot_apply_z bnom mom0.Vect, ← hg, h0, mul_zero]
  have hpos := fill_position_local K g2l (g2l.apply4 pos0) (g2l.apply mom0.Vect) mom0.m charge
    bnom trange hc hcb hq hR hm hpz
  have hmom := fill_momentum_local K g2l (g2l.apply4 pos0) (g2l.apply mom0.Vect) mom0.m charge
    bnom trange hcb hq hR hm hpz
  have ht : (g2l.apply4 pos0).t = pos0.t := rfl
  have hv : (⟨(g2l.apply4 pos0).x, (g2l.apply4 pos0).y, (g2l.apply4 pos0).z⟩ : Vec3 ℝ)
      = g2l.apply pos0.Vect := rfl
  rw [ht, hv, hg, rot_inverse_apply, ← hg] at hpos
  rw [ht, hg, rot_inverse_apply, ← hg] at hmom
  have hmom' : (LHelix.fill realMath K g2l (g2l.apply4 pos0) (g2l.apply mom0.Vect) mom0.m charge
      bnom trange).momentum realMath K pos0.t = .ok mom0 := hmom
  refine ⟨LHelix.fill realMath K g2l (g2l.apply4 pos0) (g2l.apply mom0.Vect) mom0.m charge
      bnom trange, ?_, hpos, hmom'⟩
  unfold LHelix.construct
  simp only [realMath_sin, realMath_cos]
  rw [← hg]
  have hth : ¬ (|(g2l.apply bnom).Theta realMath| > 1 / 1000000) := by
    rw [hg, rot_apply_bnom bnom hR, theta_z_axis _ hRpos]
    norm_num
  rw [if_neg hth]
  have hp4 : (LHelix.fill realMath K g2l (g2l.apply4 pos0) (g2l.apply mom0.Vect) mom0.m charge
      bnom trange).position4 realMath K pos0 = pos0 := by
    rw [LHelix.position4, hpos]
    rfl
  simp only [hp4, hmom']
  have hz : (Vec3.sub pos0.Vect pos0.Vect) = ⟨0, 0, 0⟩ := by simp [Vec3.sub]
  have hz' : (Vec3.sub mom0.Vect mom0.Vect) = ⟨0, 0, 0⟩ := by simp [Vec3.sub]
  rw [hz, hz', R_zero]
  norm_num

/-- Witness of claim C1: a unit-charge particle of mass 1 and momentum (1, 0, 1) at the point
(1, 2, 3) at time 0 in a field of 1 along z. -/
theorem construct_roundtrip_witness :
    ∃ h : LHelix ℝ,
      LHelix.construct realMath ⟨299792458 / 1000000, 299792458 / 1000000000⟩
        ⟨1, 2, 3, 0⟩ ⟨1, 0, 1, 1⟩ 1 ⟨0, 0, 1⟩ ⟨0, 10⟩ = .ok h ∧
      h.position realMath ⟨299792458 / 1000000, 299792458 / 1000000000⟩ 0 = ⟨1, 2, 3⟩ ∧
      h.momentum realMath ⟨299792458 / 1000000, 299792458 / 1000000000⟩ 0 = .ok ⟨1, 0, 1, 1⟩ :=
  construct_roundtrip ⟨299792458 / 1000000, 299792458 / 1000000000⟩
    ⟨1, 2, 3, 0⟩ ⟨1, 0, 1, 1⟩ 1 ⟨0, 0, 1⟩ ⟨0, 10⟩
    (by norm_num) (by norm_num) (by norm_num) (by norm_num)
    (by intro h; injection h with _ _ h3; norm_num at h3) (by norm_num [Mom4.Vect, Vec3.Dot])

/-! ### The field-correction effect -/

/-- Claim C3: for an active field-correction effect, `process(kkdata, forwards)` appends the
stored correction `bfeff_` itself to the accumulator, and `process(kkdata, backwards)` appends
a copy whose parameters are -1 times those of `bfeff_` and whose covariance is that of
`bfeff_`; the parameters appended in the two directions sum to zero. -/
theorem process_sweep_sign {KKDATA : Type} (append : KKDATA → PData F → KKDATA)
    (e : KKBField F) (kkdata : KKDATA) (hact : e.active_ = true) :
    (e.process append kkdata TDir.forwards).2 = append kkdata e.bfeff_ ∧
    ∃ reverse : PData F,
      (e.process append kkdata TDir.backwards).2 = append kkdata reverse ∧
      (∀ i, reverse.parameters i = -1 * e.bfeff_.parameters i) ∧
      reverse.covariance = e.bfeff_.covariance ∧
      (∀ i, e.bfeff_.parameters i + reverse.parameters i = 0) := by
  refine ⟨?_, ⟨{ e.bfeff_ with parameters := fun i => e.bfeff_.parameters i * -1 }, ?_, ?_, ?_, ?_⟩⟩
  · simp [KKBField.process, hact]
  · simp [KKBField.process, hact]
  · intro i; simp
  · rfl
  · intro i; simp

/-- Witness of claim C3: the example effect, with a list of the appended corrections as
accumulator. -/
theorem process_sweep_sign_witness :
    exampleEffect.active_ = true ∧
    (exampleEffect.process (fun (l : List (PData ℝ)) p => p :: l) [] TDir.forwards).2
      = [exampleEffect.bfeff_] ∧
    ∃ reverse : PData ℝ,
      (exampleEffect.process (fun (l : List (PData ℝ)) p => p :: l) [] TDir.backwards).2
        = [reverse] ∧
      (∀ i, reverse.parameters i = -1 * exampleEffect.bfeff_.parameters i) ∧
      reverse.covariance = exampleEffect.bfeff_.covariance ∧
      (∀ i, exampleEffect.bfeff_.parameters i + reverse.parameters i = 0) :=
  ⟨rfl, process_sweep_sign (fun (l : List (PData ℝ)) p => p :: l) exampleEffect [] rfl⟩

/-! ### The wire hit -/

omit [LinearOrderedField F] in
/-- The search loop returns the updater held so far when the list holds none, the single one
when nothing is held yet, and throws in every other case. -/
theorem findUpdater_spec (l : List (AnyUpdater F)) (acc : Option (WireHitUpdater F)) :
    WireHit.findUpdater l acc =
      match acc, l.filterMap AnyUpdater.castWireHit with
      | acc, [] => .ok acc
      | none, [u] => .ok (some u)
      | _, _ => .error (.invalid_argument "Multiple WireHitUpdaters found") := by
  induction l generalizing acc with
  | nil => cases acc <;> rfl
  | cons a rest ih =>
    cases hc : a.castWireHit with
    | none =>
      rw [WireHit.findUpdater]
      simp only [hc, List.filterMap_cons]
      exact ih acc
    | some u =>
      rw [WireHit.findUpdater]
      simp only [hc, List.filterMap_cons]
      cases acc with
      | some v =>
        simp
      | none =>
        simp only [Option.isSome_none, Bool.false_eq_true, if_false]
        rw [ih]
        cases hr : List.filterMap AnyUpdater.castWireHit rest with
        | nil => rfl
        | cons w ws => rfl

omit [LinearOrderedField F] in
theorem findUpdater_single (l : List (AnyUpdater F)) (u : WireHitUpdater F)
    (h : l.filterMap AnyUpdater.castWireHit = [u]) :
    WireHit.findUpdater l none = .ok (some u) := by
  rw [findUpdater_spec, h]

theorem stdMin_eq_min (a b : F) : stdMin a b = min a b := by
  unfold stdMin
  split_ifs with h
  · exact (min_eq_right h.le).symm
  · exact (min_eq_left (not_lt.1 h)).symm

/-- The hit left by `update` when the configuration holds the single updater `whu`. -/
theorem update_hit_single {PKTRAJ : Type} (M : MathFns F) (mkTPoca : PKTRAJ → TLine F → TPoca F)
    (hit : WireHit F) (pktraj : PKTRAJ) (mconfig : MConfig F) (residual : Residual F)
    (whu : WireHitUpdater F)
    (hone : mconfig.hitupdaters_.filterMap AnyUpdater.castWireHit = [whu]) :
    (hit.update M mkTPoca pktraj mconfig residual).hit =
      WireHit.setActivity
        (if |(mkTPoca pktraj hit.wire_).doca| > whu.mindoca_ then
          hit.setAmbig (if (mkTPoca pktraj hit.wire_).doca > 0 then LRAmbig.right else LRAmbig.left)
        else (hit.setAmbig LRAmbig.null).setNullVar (stdMin hit.csize_ whu.mindoca_))
        (decide (|(mkTPoca pktraj hit.wire_).doca| < whu.maxdoca_)) := by
  simp only [WireHit.update, findUpdater_single _ _ hone, WireHit.wire, WireHit.cellSize]

/-- The activity left by `update` when the configuration holds the single updater `whu`: the
hit is active exactly when `|doca|` is below `maxdoca`. -/
theorem update_activity {PKTRAJ : Type} (M : MathFns F) (mkTPoca : PKTRAJ → TLine F → TPoca F)
    (hit : WireHit F) (pktraj : PKTRAJ) (mconfig : MConfig F) (residual : Residual F)
    (whu : WireHitUpdater F)
    (hone : mconfig.hitupdaters_.filterMap AnyUpdater.castWireHit = [whu]) :
    ((hit.update M mkTPoca pktraj mconfig residual).hit.active_ = true ↔
      |(mkTPoca pktraj hit.wire_).doca| < whu.maxdoca_) := by
  rw [update_hit_single M mkTPoca hit pktraj mconfig residual whu hone]
  simp [WireHit.setActivity]

/-- Claim C4: when the configuration holds exactly one `WireHitUpdater(mindoca, maxdoca)`, after
`update` the ambiguity is right for `doca > 0` and left otherwise if `|doca| > mindoca` (and a
residual computed afterwards from a usable POCA has kind time); if `|doca| <= mindoca` the
ambiguity is null and the null variance is `min(cellSize, mindoca)^2 / 3`.  For a positive
`mindoca`, `doca = mindoca / 2` gives null with that variance and `doca = 2 * mindoca` gives
right. -/
theorem update_ambiguity {PKTRAJ : Type} (M : MathFns F) (mkTPoca : PKTRAJ → TLine F → TPoca F)
    (hit : WireHit F) (pktraj : PKTRAJ) (mconfig : MConfig F) (residual : Residual F)
    (whu : WireHitUpdater F)
    (hone : mconfig.hitupdaters_.filterMap AnyUpdater.castWireHit = [whu]) :
    let doca := (mkTPoca pktraj hit.wire_).doca
    let hit1 := (hit.update M mkTPoca pktraj mconfig residual).hit
    (|doca| > whu.mindoca_ →
      hit1.ambig_ = (if doca > 0 then LRAmbig.right else LRAmbig.left) ∧
      ∀ (tpoca : TPoca F) (res : Residual F), tpoca.usable = true →
        (hit1.resid M tpoca res).raised = none ∧
        (hit1.resid M tpoca res).residual.kind = ResidKind.dtime) ∧
    (|doca| ≤ whu.mindoca_ →
      hit1.ambig_ = LRAmbig.null ∧
      hit1.nullvar_ = (min hit.csize_ whu.mindoca_) ^ 2 / 3) ∧
    (0 < whu.mindoca_ → doca = whu.mindoca_ / 2 →
      hit1.ambig_ = LRAmbig.null ∧
      hit1.nullvar_ = (min hit.csize_ whu.mindoca_) ^ 2 / 3) ∧
    (0 < whu.mindoca_ → doca = 2 * whu.mindoca_ → hit1.ambig_ = LRAmbig.right) := by
  intro doca hit1
  have hh : hit1 = _ := update_hit_single M mkTPoca hit pktraj mconfig residual whu hone
  have hbig : |doca| > whu.mindoca_ →
      hit1.ambig_ = (if doca > 0 then LRAmbig.right else LRAmbig.left) := by
    intro hgt
    rw [hh, if_pos hgt]
    rfl
  have hsmall : |doca| ≤ whu.mindoca_ →
      hit1.ambig_ = LRAmbig.null ∧ hit1.nullvar_ = (min hit.csize_ whu.mindoca_) ^ 2 / 3 := by
    intro hle
    rw [hh, if_neg (not_lt.2 hle), stdMin_eq_min]
    refine ⟨rfl, ?_⟩
    simp only [WireHit.setActivity, WireHit.setNullVar, WireHit.setAmbig]
    ring
  refine ⟨fun hgt => ⟨hbig hgt, ?_⟩, hsmall, ?_, ?_⟩
  · intro tpoca res hus
    have hne : hit1.ambig_ ≠ LRAmbig.null := by
      rw [hbig hgt]
      split_ifs <;> decide
    simp [WireHit.resid, hus, hne]
  · intro hpos hd
    apply hsmall
    rw [hd, abs_of_pos (by linarith)]
    linarith
  · intro hpos hd
    have hgt : |doca| > whu.mindoca_ := by
      rw [hd, abs_of_pos (by linarith)]
      linarith
    rw [hbig hgt, if_pos (by rw [hd]; linarith)]

/-- Witness of claim C4: the example hit and configuration (`mindoca = 1`) with a POCA at
distance 2: the ambiguity becomes right. -/
theorem update_ambiguity_witness :
    exampleConfig.hitupdaters_.filterMap AnyUpdater.castWireHit = [⟨1, 5⟩] ∧
    (exampleHit.update realMath (fun (_ : Unit) _ => examplePoca 2 true) () exampleConfig
      exampleResidual).hit.ambig_ = LRAmbig.right :=
  ⟨rfl, (update_ambiguity realMath (fun (_ : Unit) _ => examplePoca 2 true) exampleHit ()
    exampleConfig exampleResidual ⟨1, 5⟩ rfl).2.2.2 (by norm_num)
    (by norm_num [examplePoca])⟩

/-- Claim C5: `resid(tpoca, resid)` throws exactly when `tpoca.usable()` is false, whatever the
state of the hit; when it throws, the exception is the runtime error "POCA failure" and the
residual variable of the caller is not assigned. -/
theorem resid_raises_iff_unusable (M : MathFns F) (hit : WireHit F) (tpoca : TPoca F)
    (res : Residual F) :
    ((hit.resid M tpoca res).raised.isSome = true ↔ tpoca.usable = false) ∧
    (tpoca.usable = false →
      (hit.resid M tpoca res).raised = some (.runtime_error "POCA failure") ∧
      (hit.resid M tpoca res).residual = res) := by
  cases hu : tpoca.usable with
  | false => simp [WireHit.resid, hu]
  | true =>
    by_cases ha : hit.ambig_ = LRAmbig.null
    · simp [WireHit.resid, hu, ha]
    · simp [WireHit.resid, hu, ha]

/-- Claim C8: for a hit of null ambiguity and a usable POCA, `resid` throws nothing and returns
a residual of kind distance with value `-doca`, the stored null variance as variance and the
POCA derivative `dDdP` as derivative vector. -/
theorem resid_null (M : MathFns F) (hit : WireHit F) (tpoca : TPoca F) (res : Residual F)
    (hnull : hit.ambig_ = LRAmbig.null) (hus : tpoca.usable = true) :
    (hit.resid M tpoca res).raised = none ∧
    (hit.resid M tpoca res).residual.kind = ResidKind.distance ∧
    (hit.resid M tpoca res).residual.value = -tpoca.doca ∧
    (hit.resid M tpoca res).residual.variance = hit.nullvar_ ∧
    (hit.resid M tpoca res).residual.dRdP = tpoca.dDdP := by
  simp [WireHit.resid, hus, hnull]

/-- Witness of claim C8: the example hit (null ambiguity) and a usable POCA at distance 2. -/
theorem resid_null_witness :
    exampleHit.ambig_ = LRAmbig.null ∧ (examplePoca 2 true).usable = true ∧
    (exampleHit.resid realMath (examplePoca 2 true) exampleResidual).residual.value = -2 :=
  ⟨rfl, rfl, (resid_null realMath exampleHit (examplePoca 2 true) exampleResidual rfl rfl).2.2.1⟩

/-- Claim C9: for a hit of ambiguity `a` in {-1, +1} and a usable POCA, `resid` throws nothing;
it queries the distance-to-time relation at the drift radius `rho = doca * a` and the azimuth
`phi = asin(unit(delta) . unit(B x wire direction))`, obtaining `(tdrift, tdvar, vdrift)`, and
returns a residual of kind time with value `deltaT - tdrift`, variance `tdvar` and derivative
`dDdP * a / vdrift - dTdP`. -/
theorem resid_nonnull (M : MathFns F) (hit : WireHit F) (tpoca : TPoca F) (res : Residual F)
    (hne : hit.ambig_ ≠ LRAmbig.null) (hus : tpoca.usable = true) :
    let a : F := (hit.ambig_.toInt : F)
    let rho := tpoca.doca * a
    let pdir := ((hit.bfield_.fieldVect tpoca.particlePoca.Vect).Cross hit.wire_.dir).Unit M
    let phi := M.asin ((tpoca.delta.Vect.Unit M).Dot pdir)
    let q := hit.d2t_.distanceToTime ⟨rho, phi⟩
    (a = -1 ∨ a = 1) ∧
    (hit.resid M tpoca res).raised = none ∧
    (hit.resid M tpoca res).residual.kind = ResidKind.dtime ∧
    (hit.resid M tpoca res).residual.value = tpoca.deltaT - q.1 ∧
    (hit.resid M tpoca res).residual.variance = q.2.1 ∧
    (hit.resid M tpoca res).residual.dRdP = fun i => tpoca.dDdP i * a / q.2.2 - tpoca.dTdP i := by
  refine ⟨?_, ?_⟩
  · cases ha : hit.ambig_ with
    | left => left; simp [LRAmbig.toInt]
    | null => exact absurd ha hne
    | right => right; simp [LRAmbig.toInt]
  · simp [WireHit.resid, hus, hne, WireHit.d2T]

/-- Witness of claim C9: the example hit with its ambiguity set to right and a usable POCA at
distance 2: the drift time is 1, so the residual is 3 - 1. -/
theorem resid_nonnull_witness :
    (exampleHit.setAmbig LRAmbig.right).ambig_ ≠ LRAmbig.null ∧
    (examplePoca 2 true).usable = true ∧
    ((exampleHit.setAmbig LRAmbig.right).resid realMath (examplePoca 2 true)
      exampleResidual).residual.value = 2 :=
  ⟨by decide, rfl, by
    have h := (resid_nonnull realMath (exampleHit.setAmbig LRAmbig.right) (examplePoca 2 true)
      exampleResidual (by decide) rfl).2.2.2.1
    rw [h]
    norm_num [exampleHit, WireHit.setAmbig, WireHit.create, WireHit.setNullVar, examplePoca,
      LRAmbig.toInt]⟩

/-- Counterexample to claim C10 as stated: with `WireHitUpdater(1, 5)` and a POCA at distance
exactly 5, which does not exceed `maxdoca = 5`, `update` leaves the example hit, active before
the call, deactivated. -/
theorem update_activity_not_exceeding :
    exampleHit.active_ = true ∧ ¬ (|(examplePoca 5 true).doca| > 5) ∧
    (exampleHit.update realMath (fun (_ : Unit) _ => examplePoca 5 true) () exampleConfig
      exampleResidual).hit.active_ = false := by
  refine ⟨rfl, by norm_num [examplePoca], ?_⟩
  have h := update_activity realMath (fun (_ : Unit) _ => examplePoca 5 true) exampleHit ()
    exampleConfig exampleResidual ⟨1, 5⟩ rfl
  rw [Bool.eq_false_iff]
  intro hact
  have := h.1 hact
  norm_num [examplePoca] at this

/-- Claim C10, as the code has it: when the configuration holds exactly one `WireHitUpdater`,
after `update` the hit is active exactly when `|doca| < maxdoca` and deactivated exactly when
`|doca| >= maxdoca`, whatever its activity before the call. -/
theorem update_activity_policy {PKTRAJ : Type} (M : MathFns F)
    (mkTPoca : PKTRAJ → TLine F → TPoca F) (hit : WireHit F) (pktraj : PKTRAJ)
    (mconfig : MConfig F) (residual : Residual F) (whu : WireHitUpdater F)
    (hone : mconfig.hitupdaters_.filterMap AnyUpdater.castWireHit = [whu]) :
    ((hit.update M mkTPoca pktraj mconfig residual).hit.active_ = false ↔
      whu.maxdoca_ ≤ |(mkTPoca pktraj hit.wire_).doca|) ∧
    ((hit.update M mkTPoca pktraj mconfig residual).hit.active_ = true ↔
      |(mkTPoca pktraj hit.wire_).doca| < whu.maxdoca_) ∧
    (hit.update M mkTPoca pktraj mconfig residual).hit.active_ =
      ((hit.setActivity (!hit.active_)).update M mkTPoca pktraj mconfig residual).hit.active_ := by
  have h1 := update_activity M mkTPoca hit pktraj mconfig residual whu hone
  refine ⟨?_, h1, ?_⟩
  · rw [← not_lt, ← h1, Bool.not_eq_true]
  · rw [update_hit_single M mkTPoca hit pktraj mconfig residual whu hone,
      update_hit_single M mkTPoca (hit.setActivity (!hit.active_)) pktraj mconfig residual whu
        hone]
    rfl

/-- Witness of claim C10 as the code has it: the example hit, deactivated beforehand, is active
again after an update with a POCA at distance 2, below `maxdoca = 5`. -/
theorem update_activity_policy_witness :
    exampleConfig.hitupdaters_.filterMap AnyUpdater.castWireHit = [⟨1, 5⟩] ∧
    ((exampleHit.setActivity false).update realMath (fun (_ : Unit) _ => examplePoca 2 true) ()
      exampleConfig exampleResidual).hit.active_ = true :=
  ⟨rfl, (update_activity_policy realMath (fun (_ : Unit) _ => examplePoca 2 true)
    (exampleHit.setActivity false) () exampleConfig exampleResidual ⟨1, 5⟩ rfl).2.1.2
    (by norm_num [examplePoca, WireHit.setActivity, exampleHit, WireHit.create,
      WireHit.setNullVar])⟩

/-! ### The domain splitter -/

/-- What a normal exit of the stepping loop says: entered after `cnt` passes, it leaves after
`n > cnt` passes, at the first pass where the accumulated distortion is not below `tol` or the
upper bound of the trajectory range has been reached. -/
theorem tolLoop_done (M : MathFns F) (K : PhysConst F) (h : LHelix F) (low : F)
    (bfield : BField F) (tol sfac tstep : F) :
    ∀ (fuel cnt : Nat) (r : TRange F) (dx : F) (n : Nat),
      LHelix.tolLoop M K h low bfield tol sfac tstep fuel (low + (cnt : F) * tstep)
        (LHelix.tolDx M K h low bfield sfac tstep cnt) cnt = .done r dx n →
      cnt < n ∧ r = ⟨low, low + (n : F) * tstep⟩ ∧
      dx = LHelix.tolDx M K h low bfield sfac tstep n ∧
      ¬ (|dx| < tol ∧ r.high < h.range.high) ∧
      ∀ k, cnt < k → k < n →
        |LHelix.tolDx M K h low bfield sfac tstep k| < tol ∧
        low + (k : F) * tstep < h.range.high := by
  intro fuel
  induction fuel with
  | zero =>
    intro cnt r dx n hdone
    simp [LHelix.tolLoop] at hdone
  | succ fuel ih =>
    intro cnt r dx n hdone
    have hhigh : low + (cnt : F) * tstep + tstep = low + ((cnt + 1 : Nat) : F) * tstep := by
      push_cast; ring
    rw [LHelix.tolLoop] at hdone
    simp only [hhigh] at hdone
    have hdx : LHelix.tolDx M K h low bfield sfac tstep cnt +
        sfac * (TRange.mk low (low + ((cnt + 1 : Nat) : F) * tstep)).range * tstep *
          ((bfield.fieldVect (h.position M K (low + ((cnt + 1 : Nat) : F) * tstep))).sub
            h.bnom_).R M = LHelix.tolDx M K h low bfield sfac tstep (cnt + 1) := rfl
    rw [hdx] at hdone
    split_ifs at hdone with hc
    · obtain ⟨h1, h2, h3, h4, h5⟩ := ih (cnt + 1) r dx n hdone
      refine ⟨by omega, h2, h3, h4, ?_⟩
      intro k hk1 hk2
      rcases Nat.eq_or_lt_of_le (Nat.succ_le_of_lt hk1) with heq | hlt
      · rw [← heq]; exact hc
      · exact h5 k hlt hk2
    · simp only [TolOutcome.done.injEq] at hdone
      obtain ⟨hr, hd, hn⟩ := hdone
      subst hr hd hn
      refine ⟨by omega, rfl, rfl, hc, ?_⟩
      intro k hk1 hk2
      omega

/-- A result of the stepping loop does not depend on the fuel left over. -/
theorem tolLoop_fuel_mono (M : MathFns F) (K : PhysConst F) (h : LHelix F) (low : F)
    (bfield : BField F) (tol sfac tstep : F) :
    ∀ (fuel : Nat) (high dx : F) (cnt : Nat) (r : TRange F) (dx1 : F) (n : Nat),
      LHelix.tolLoop M K h low bfield tol sfac tstep fuel high dx cnt = .done r dx1 n →
      ∀ fuel1, fuel ≤ fuel1 →
        LHelix.tolLoop M K h low bfield tol sfac tstep fuel1 high dx cnt = .done r dx1 n := by
  intro fuel
  induction fuel with
  | zero =>
    intro high dx cnt r dx1 n hdone
    simp [LHelix.tolLoop] at hdone
  | succ fuel ih =>
    intro high dx cnt r dx1 n hdone fuel1 hle
    obtain ⟨f1, rfl⟩ : ∃ f1, fuel1 = f1 + 1 := ⟨fuel1 - 1, by omega⟩
    rw [LHelix.tolLoop] at hdone ⊢
    split_ifs at hdone ⊢ with hc
    · exact ih _ _ _ _ _ _ hdone f1 (by omega)
    · exact hdone

/-- The stepping loop with a positive step ends: `m + 1` passes are enough when the upper
bound of the trajectory range is at most `m + 1` steps away. -/
theorem tolLoop_terminates (M : MathFns F) (K : PhysConst F) (h : LHelix F) (low : F)
    (bfield : BField F) (tol sfac tstep : F) :
    ∀ (m : Nat) (high dx : F) (cnt : Nat), h.range.high - high ≤ ((m + 1 : Nat) : F) * tstep →
      ∃ (r : TRange F) (dx1 : F) (n : Nat),
        LHelix.tolLoop M K h low bfield tol sfac tstep (m + 1) high dx cnt = .done r dx1 n := by
  intro m
  induction m with
  | zero =>
    intro high dx cnt hle
    rw [LHelix.tolLoop]
    have : ¬ (high + tstep < h.range.high) := by
      push_cast at hle
      linarith
    simp [this]
  | succ m ih =>
    intro high dx cnt hle
    rw [LHelix.tolLoop]
    split_ifs with hc
    · apply ih
      push_cast at hle ⊢
      linarith
    · exact ⟨_, _, _, rfl⟩


/-! ### Uniform field -/

theorem velocity_eq (M : MathFns F) (K : PhysConst F) (h : LHelix F) (t : F) :
    h.velocity M K t = .ok (Vec3.smul (h.speed M K t)
      (h.l2g_.apply ⟨h.rad * M.cos (h.phi M K t) * (h.sign / h.pbar M),
        h.rad * M.sin (h.phi M K t) * (h.sign / h.pbar M), h.lam * (h.sign / h.pbar M)⟩)) := rfl

/-- The reduced momentum of a helix with a non-zero radius or wavelength is positive. -/
theorem pbar_pos (h : LHelix ℝ) (hp : h.rad ≠ 0 ∨ h.lam ≠ 0) : 0 < h.pbar realMath := by
  rw [LHelix.pbar, realMath_sqrt]
  apply Real.sqrt_pos.2
  rw [LHelix.pbar2]
  rcases hp with hr | hl
  · nlinarith [mul_self_pos.2 hr, mul_self_nonneg h.lam]
  · nlinarith [mul_self_pos.2 hl, mul_self_nonneg h.rad]

theorem sub_self_R (v : Vec3 ℝ) : (v.sub v).R realMath = 0 := by
  simp [Vec3.sub, Vec3.R, Vec3.Mag2]

theorem uniform_fieldDeriv_R (b p v : Vec3 ℝ) :
    ((UniformBField b).fieldDeriv p v).R realMath = 0 := by
  simp [BField.fieldDeriv, UniformBField, Mat3.zero, Mat3.apply, Vec3.R, Vec3.Mag2]

/-- In the nominal field the step is the default 0.1 for every tolerance that is not
negative. -/
theorem tolStep_uniform (K : PhysConst ℝ) (h : LHelix ℝ) (low tol : ℝ) (vel : Vec3 ℝ)
    (htol : 0 ≤ tol) :
    h.tolStep realMath K low (UniformBField h.bnom_) tol vel = .fin (1 / 10) := by
  unfold LHelix.tolStep
  simp only [uniform_fieldDeriv_R]
  have hdb : (((UniformBField h.bnom_).fieldVect (h.position realMath K low)).sub h.bnom_).R
      realMath = 0 := sub_self_R _
  simp only [hdb, mul_zero]
  have h1 : ¬ ((0 : ℝ) > 1 / 10000) := by norm_num
  rw [if_neg h1]
  rcases htol.lt_or_eq with hpos | hzero
  · simp [Ext.div, hpos, Ext.cbrt, Ext.scale, Ext.min, Ext.lt]
  · simp [Ext.div, ← hzero, Ext.cbrt, Ext.scale, Ext.min, Ext.lt]

theorem tolDx_uniform (K : PhysConst ℝ) (h : LHelix ℝ) (low sfac tstep : ℝ) (k : Nat) :
    h.tolDx realMath K low (UniformBField h.bnom_) sfac tstep k = 0 := by
  induction k with
  | zero => rfl
  | succ k ih =>
    rw [LHelix.tolDx, ih]
    have hdb : (((UniformBField h.bnom_).fieldVect
        (h.position realMath K (low + ((k + 1 : Nat) : ℝ) * tstep))).sub h.bnom_).R
          realMath = 0 := sub_self_R _
    rw [hdb]
    ring

/-- Claim C6 as amended: for every helix with a non-zero nominal field and a non-zero momentum
(`rad` and `lam` not both zero), every starting time `drange.low` and every tolerance
`tol > 0`, when the field is the nominal field everywhere (uniform field `bnom`, zero
gradient): the divisor `bnom_.R() * pbar()` of the scaling factor is not zero, so that the
scaling factor is the finite number the code computes, and `rangeInTolerance` returns, for
every fuel from some bound on, a range with the lower bound `drange.low` unchanged and an
upper bound at or beyond `range().high()`. -/
theorem rangeInTolerance_uniform (K : PhysConst ℝ) (h : LHelix ℝ) (drange : TRange ℝ) (tol : ℝ)
    (htol : 0 < tol) (hB : h.bnom_ ≠ ⟨0, 0, 0⟩) (hp : h.rad ≠ 0 ∨ h.lam ≠ 0) :
    h.bnom_.R realMath * h.pbar realMath ≠ 0 ∧
    ∃ N : Nat, ∀ fuel, N ≤ fuel → ∃ (high dx : ℝ) (n : Nat),
      h.rangeInTolerance realMath K fuel drange (UniformBField h.bnom_) tol
        = .done ⟨drange.low, high⟩ dx n ∧ h.range.high ≤ high := by
  refine ⟨mul_ne_zero (R_ne_zero _ hB) (pbar_pos h hp).ne', ?_⟩
  obtain ⟨m, hm⟩ := exists_nat_ge ((h.range.high - drange.low) / (1 / 10))
  refine ⟨m + 1, fun fuel hfuel => ?_⟩
  have hle : h.range.high - drange.low ≤ ((m + 1 : Nat) : ℝ) * (1 / 10) := by
    have h10 : (0 : ℝ) < 1 / 10 := by norm_num
    rw [div_le_iff₀ h10] at hm
    push_cast
    linarith
  obtain ⟨r, dx, n, hdone⟩ := tolLoop_terminates realMath K h drange.low
    (UniformBField h.bnom_) tol (h.tolSfac realMath K drange.low) (1 / 10) m drange.low 0 0 hle
  have hdone1 := tolLoop_fuel_mono realMath K h drange.low (UniformBField h.bnom_) tol
    (h.tolSfac realMath K drange.low) (1 / 10) (m + 1) drange.low 0 0 r dx n hdone fuel hfuel
  have hch := tolLoop_done realMath K h drange.low (UniformBField h.bnom_) tol
    (h.tolSfac realMath K drange.low) (1 / 10) fuel 0 r dx n
    (by simpa [LHelix.tolDx] using hdone1)
  obtain ⟨_, hr, hdx, hex, _⟩ := hch
  refine ⟨drange.low + (n : ℝ) * (1 / 10), dx, n, ?_, ?_⟩
  · rw [LHelix.rangeInTolerance, velocity_eq]
    simp only [tolStep_uniform K h drange.low tol _ htol.le]
    rw [hdone1, hr]
  · rw [hdx, tolDx_uniform, hr] at hex
    simp only [abs_zero, htol, true_and, not_lt] at hex
    exact hex

/-- For a tolerance that is not positive the loop body runs once. -/
theorem rangeInTolerance_uniform_zero_tol (K : PhysConst ℝ) (h : LHelix ℝ) (drange : TRange ℝ)
    (fuel : Nat) :
    h.rangeInTolerance realMath K (fuel + 1) drange (UniformBField h.bnom_) 0
      = .done ⟨drange.low, drange.low + 1 / 10⟩ 0 1 := by
  rw [LHelix.rangeInTolerance, velocity_eq]
  simp only [tolStep_uniform K h drange.low 0 _ le_rfl]
  rw [LHelix.tolLoop]
  have hdb : (((UniformBField h.bnom_).fieldVect
      (h.position realMath K (drange.low + 1 / 10))).sub h.bnom_).R realMath = 0 := sub_self_R _
  simp only [hdb, mul_zero, add_zero, abs_zero, lt_irrefl, false_and, if_false, zero_add]

/-- Counterexample to claim C6 as stated: in the nominal field, with tolerance 0 and starting
time 0 below the upper bound 10 of the example helix, `rangeInTolerance` returns the range
from 0 to 0.1 after one pass, which does not reach the upper bound. -/
theorem rangeInTolerance_uniform_counterexample :
    exampleHelix.rangeInTolerance realMath exampleConst 1 ⟨0, 0⟩
        (UniformBField exampleHelix.bnom_) 0 = .done ⟨0, 1 / 10⟩ 0 1 ∧
    (0 : ℝ) < exampleHelix.range.high ∧ ¬ (exampleHelix.range.high ≤ 1 / 10) := by
  refine ⟨?_, ?_, ?_⟩
  · have h := rangeInTolerance_uniform_zero_tol exampleConst exampleHelix ⟨0, 0⟩ 0
    simpa using h
  · norm_num [exampleHelix, LHelix.range]
  · norm_num [exampleHelix, LHelix.range]


/-! ### General field -/

theorem realCbrt_pos (x : ℝ) (hx : 0 < x) : 0 < realCbrt x := by
  rw [realCbrt, if_pos hx.le]
  exact Real.rpow_pos_of_pos hx _

theorem R_nonneg (v : Vec3 ℝ) : 0 ≤ v.R realMath := Real.sqrt_nonneg _

/-- For a positive tolerance and a positive scaling factor the step of `rangeInTolerance` is a
finite positive number. -/
theorem tolStep_pos (K : PhysConst ℝ) (h : LHelix ℝ) (low tol : ℝ) (bfield : BField ℝ)
    (vel : Vec3 ℝ) (htol : 0 < tol) (hs : 0 < h.tolSfac realMath K low) :
    ∃ s : ℝ, 0 < s ∧ h.tolStep realMath K low bfield tol vel = .fin s := by
  unfold LHelix.tolStep
  simp only []
  set sfac := h.tolSfac realMath K low
  set db := ((bfield.fieldVect (h.position realMath K low)).sub h.bnom_).R realMath
  set g := (bfield.fieldDeriv (h.position realMath K low) vel).R realMath
  have hg : 0 ≤ g := R_nonneg _
  -- the first estimate is finite and positive
  have h1 : ∃ s1 : ℝ, 0 < s1 ∧
      (if db > 1 / 10000 then
        Ext.scale (2 / 10) (Ext.sqrt realMath (Ext.div tol (sfac * db)))
       else Ext.fin (1 / 10)) = Ext.fin s1 := by
    split_ifs with hdb
    · have hdbpos : 0 < db := lt_trans (by norm_num) hdb
      have hq : 0 < tol / (sfac * db) := div_pos htol (mul_pos hs hdbpos)
      refine ⟨2 / 10 * Real.sqrt (tol / (sfac * db)), ?_, ?_⟩
      · exact mul_pos (by norm_num) (Real.sqrt_pos.2 hq)
      · simp [Ext.div, (mul_pos hs hdbpos).ne', Ext.sqrt, not_lt.2 hq.le, Ext.scale]
    · exact ⟨1 / 10, by norm_num, rfl⟩
  obtain ⟨s1, hs1, he1⟩ := h1
  rw [he1]
  rcases hg.lt_or_eq with hgpos | hgzero
  · have hq : 0 < tol / (sfac * g) := div_pos htol (mul_pos hs hgpos)
    have hc := realCbrt_pos _ hq
    have he2 : Ext.scale (5 / 10) (Ext.cbrt realMath (Ext.div tol (sfac * g)))
        = Ext.fin (5 / 10 * realCbrt (tol / (sfac * g))) := by
      simp [Ext.div, (mul_pos hs hgpos).ne', Ext.cbrt, Ext.scale, realMath]
    rw [he2]
    unfold Ext.min
    split_ifs
    · exact ⟨_, mul_pos (by norm_num) hc, rfl⟩
    · exact ⟨s1, hs1, rfl⟩
  · refine ⟨s1, hs1, ?_⟩
    simp [Ext.div, ← hgzero, htol, Ext.cbrt, Ext.scale, Ext.min, Ext.lt]

theorem ebar_pos_of_pbar (h : LHelix ℝ) (hp : h.rad ≠ 0 ∨ h.lam ≠ 0) : 0 < h.ebar realMath := by
  rw [LHelix.ebar, realMath_sqrt]
  apply Real.sqrt_pos.2
  rw [LHelix.ebar2, LHelix.pbar2]
  rcases hp with hr | hl
  · nlinarith [mul_self_pos.2 hr, mul_self_nonneg h.lam, mul_self_nonneg h.mbar_]
  · nlinarith [mul_self_pos.2 hl, mul_self_nonneg h.rad, mul_self_nonneg h.mbar_]

/-- The scaling factor of a helix with a non-zero nominal field and a non-zero momentum is
positive. -/
theorem tolSfac_pos (K : PhysConst ℝ) (h : LHelix ℝ) (low : ℝ) (hc : K.c_light ≠ 0)
    (hB : h.bnom_ ≠ ⟨0, 0, 0⟩) (hp : h.rad ≠ 0 ∨ h.lam ≠ 0) : 0 < h.tolSfac realMath K low := by
  unfold LHelix.tolSfac
  simp only [LHelix.speed, LHelix.beta]
  have hpb := pbar_pos h hp
  have heb := ebar_pos_of_pbar h hp
  have hbn : 0 < h.bnom_.R realMath := lt_of_le_of_ne (R_nonneg _) (Ne.symm (R_ne_zero _ hB))
  have hspd : K.c_light * (h.pbar realMath / h.ebar realMath) ≠ 0 :=
    mul_ne_zero hc (div_pos hpb heb).ne'
  exact div_pos (mul_self_pos.2 hspd) (mul_pos hbn hpb)

/-- Claim C7 as amended: for every helix with a non-zero nominal field and a non-zero momentum
(`rad` and `lam` not both zero), every field, start time and tolerance `tol > 0`: the divisor
`bnom_.R() * pbar()` of the scaling factor is not zero, so that the scaling factor is the
finite number the code computes, and on return from `rangeInTolerance` either the accumulated
distortion over the returned range is at least `tol` or `drange.high` has reached
`range().high()`; the returned range is `n >= 1` steps long, `dx` is the distortion
accumulated over these `n` steps, and after each earlier step the accumulated distortion was
below `tol` with the upper bound not yet reached.  The function does return when `c_light` is
not zero. -/
theorem rangeInTolerance_post (K : PhysConst ℝ) (h : LHelix ℝ) (drange : TRange ℝ)
    (bfield : BField ℝ) (tol : ℝ) (htol : 0 < tol) (hB : h.bnom_ ≠ ⟨0, 0, 0⟩)
    (hp : h.rad ≠ 0 ∨ h.lam ≠ 0) :
    h.bnom_.R realMath * h.pbar realMath ≠ 0 ∧
    (∀ (fuel : Nat) (r : TRange ℝ) (dx : ℝ) (n : Nat),
      h.rangeInTolerance realMath K fuel drange bfield tol = .done r dx n →
      (tol ≤ |dx| ∨ h.range.high ≤ r.high) ∧
      ∃ tstep : ℝ, r = ⟨drange.low, drange.low + (n : ℝ) * tstep⟩ ∧ 1 ≤ n ∧
        dx = h.tolDx realMath K drange.low bfield (h.tolSfac realMath K drange.low) tstep n ∧
        ∀ k, 1 ≤ k → k < n →
          |h.tolDx realMath K drange.low bfield (h.tolSfac realMath K drange.low) tstep k| < tol ∧
          drange.low + (k : ℝ) * tstep < h.range.high) ∧
    (K.c_light ≠ 0 →
      ∃ N : Nat, ∀ fuel, N ≤ fuel → ∃ (r : TRange ℝ) (dx : ℝ) (n : Nat),
        h.rangeInTolerance realMath K fuel drange bfield tol = .done r dx n) := by
  refine ⟨mul_ne_zero (R_ne_zero _ hB) (pbar_pos h hp).ne', ?_, ?_⟩
  · intro fuel r dx n hdone
    rw [LHelix.rangeInTolerance, velocity_eq] at hdone
    simp only [] at hdone
    split at hdone
    · rename_i tstep hstep
      have hch := tolLoop_done realMath K h drange.low bfield tol
        (h.tolSfac realMath K drange.low) tstep fuel 0 r dx n
        (by simpa [LHelix.tolDx] using hdone)
      obtain ⟨h1, h2, h3, h4, h5⟩ := hch
      refine ⟨?_, tstep, h2, h1, h3, fun k hk1 hk2 => h5 k hk1 hk2⟩
      by_contra hcon
      push_neg at hcon
      exact h4 ⟨hcon.1, hcon.2⟩
    · exact absurd hdone (by simp)
  · intro hc
    have hs := tolSfac_pos K h drange.low hc hB hp
    obtain ⟨s, hspos, hstep⟩ := tolStep_pos K h drange.low tol bfield
      (Vec3.smul (h.speed realMath K drange.low)
      (h.l2g_.apply ⟨h.rad * realMath.cos (h.phi realMath K drange.low) * (h.sign / h.pbar realMath),
        h.rad * realMath.sin (h.phi realMath K drange.low) * (h.sign / h.pbar realMath),
        h.lam * (h.sign / h.pbar realMath)⟩)) htol hs
    obtain ⟨m, hm⟩ := exists_nat_ge ((h.range.high - drange.low) / s)
    refine ⟨m + 1, fun fuel hfuel => ?_⟩
    have hle : h.range.high - drange.low ≤ ((m + 1 : Nat) : ℝ) * s := by
      rw [div_le_iff₀ hspos] at hm
      push_cast
      nlinarith
    obtain ⟨r, dx, n, hdone⟩ := tolLoop_terminates realMath K h drange.low bfield tol
      (h.tolSfac realMath K drange.low) s m drange.low 0 0 hle
    have hdone1 := tolLoop_fuel_mono realMath K h drange.low bfield tol
      (h.tolSfac realMath K drange.low) s (m + 1) drange.low 0 0 r dx n hdone fuel hfuel
    refine ⟨r, dx, n, ?_⟩
    rw [LHelix.rangeInTolerance, velocity_eq]
    simp only [hstep]
    exact hdone1

theorem sqrt_of_mul_self (x y : ℝ) (hy : 0 ≤ y) (h : y * y = x) : Real.sqrt x = y := by
  rw [← h]
  exact Real.sqrt_mul_self hy

theorem exampleHelix_pbar : exampleHelix.pbar realMath = 5 := by
  simp only [LHelix.pbar, LHelix.pbar2, LHelix.rad, LHelix.lam, LHelix.paramVal, exampleHelix,
    rad_, lam_, realMath_sqrt]
  apply sqrt_of_mul_self _ _ (by norm_num)
  simp
  norm_num

theorem exampleHelix_ebar : exampleHelix.ebar realMath = 13 := by
  simp only [LHelix.ebar, LHelix.ebar2, LHelix.pbar2, LHelix.rad, LHelix.lam, LHelix.paramVal,
    exampleHelix, rad_, lam_, realMath_sqrt]
  apply sqrt_of_mul_self _ _ (by norm_num)
  simp
  norm_num

theorem exampleHelix_bnomR : exampleHelix.bnom_.R realMath = 1 := by
  simp only [Vec3.R, Vec3.Mag2, exampleHelix, realMath_sqrt]
  apply sqrt_of_mul_self _ _ (by norm_num)
  norm_num

theorem exampleHelix_sfac (low : ℝ) :
    exampleHelix.tolSfac realMath exampleConst low = (299792458 / 1000000 * (5 / 13)) ^ 2 / 5 := by
  simp only [LHelix.tolSfac, LHelix.speed, LHelix.beta, exampleHelix_pbar, exampleHelix_ebar,
    exampleHelix_bnomR, exampleConst]
  ring

theorem exampleField_db (p : Vec3 ℝ) :
    (((UniformBField (⟨0, 0, 10001 / 10000⟩ : Vec3 ℝ)).fieldVect p).sub exampleHelix.bnom_).R
      realMath = 1 / 10000 := by
  simp only [UniformBField, Vec3.sub, Vec3.R, Vec3.Mag2, exampleHelix, realMath_sqrt]
  apply sqrt_of_mul_self _ _ (by norm_num)
  norm_num

/-- Counterexample to claim C7 as stated: the example helix in a uniform field that differs
from the nominal one by 0.0001, with tolerance 0.001 and starting time 0: `rangeInTolerance`
returns the range from 0 to 0.1 after one pass, with an accumulated distortion of about 0.0027,
not below the tolerance, and an upper bound 0.1 that has not reached `range().high() = 10`. -/
theorem rangeInTolerance_counterexample :
    exampleHelix.rangeInTolerance realMath exampleConst 1 ⟨0, 0⟩
        (UniformBField ⟨0, 0, 10001 / 10000⟩) (1 / 1000)
      = .done ⟨0, 1 / 10⟩ ((299792458 / 1000000 * (5 / 13)) ^ 2 / 5 / 1000000) 1 ∧
    ¬ (|((299792458 / 1000000 * (5 / 13)) ^ 2 / 5 / 1000000 : ℝ)| < 1 / 1000) ∧
    ¬ (exampleHelix.range.high ≤ 1 / 10) := by
  refine ⟨?_, ?_, ?_⟩
  · rw [LHelix.rangeInTolerance, velocity_eq]
    have hstep : ∀ vel, exampleHelix.tolStep realMath exampleConst 0
        (UniformBField ⟨0, 0, 10001 / 10000⟩) (1 / 1000) vel = .fin (1 / 10) := by
      intro vel
      unfold LHelix.tolStep
      simp only [uniform_fieldDeriv_R, exampleField_db, mul_zero]
      have h1 : ¬ ((1 / 10000 : ℝ) > 1 / 10000) := lt_irrefl _
      rw [if_neg h1]
      simp [Ext.div, Ext.cbrt, Ext.scale, Ext.min, Ext.lt]
    simp only [hstep]
    rw [LHelix.tolLoop]
    simp only [exampleField_db, exampleHelix_sfac, TRange.range]
    have hcond : ¬ (|(0 : ℝ) + (299792458 / 1000000 * (5 / 13)) ^ 2 / 5 * (0 + 1 / 10 - 0) *
        (1 / 10) * (1 / 10000)| < 1 / 1000 ∧ (0 : ℝ) + 1 / 10 < exampleHelix.range.high) := by
      intro hc
      have := hc.1
      rw [abs_of_pos (by norm_num)] at this
      norm_num at this
    rw [if_neg hcond]
    norm_num
  · rw [abs_of_pos (by norm_num)]
    norm_num
  · norm_num [exampleHelix, LHelix.range]

/-- Witness of claim C6 as amended: the example helix, starting time 0 and tolerance 1. -/
theorem rangeInTolerance_uniform_witness :
    (0 : ℝ) < 1 ∧ exampleHelix.bnom_ ≠ ⟨0, 0, 0⟩ ∧
    (exampleHelix.rad ≠ 0 ∨ exampleHelix.lam ≠ 0) ∧
    exampleHelix.bnom_.R realMath * exampleHelix.pbar realMath ≠ 0 ∧
    ∃ N : Nat, ∀ fuel, N ≤ fuel → ∃ (high dx : ℝ) (n : Nat),
      exampleHelix.rangeInTolerance realMath exampleConst fuel ⟨0, 0⟩
        (UniformBField exampleHelix.bnom_) 1 = .done ⟨0, high⟩ dx n ∧
      exampleHelix.range.high ≤ high := by
  have hB : exampleHelix.bnom_ ≠ ⟨0, 0, 0⟩ := by
    intro h; injection h with _ _ h3; norm_num at h3
  have hp : exampleHelix.rad ≠ 0 ∨ exampleHelix.lam ≠ 0 :=
    Or.inl (by norm_num [LHelix.rad, LHelix.paramVal, exampleHelix, rad_])
  exact ⟨by norm_num, hB, hp,
    rangeInTolerance_uniform exampleConst exampleHelix ⟨0, 0⟩ 1 (by norm_num) hB hp⟩

/-- Witness of claim C7 as amended: the example helix in a uniform field that differs from the
nominal one by 0.0001, with tolerance 0.001 and starting time 0: the function returns. -/
theorem rangeInTolerance_post_witness :
    (0 : ℝ) < 1 / 1000 ∧ exampleHelix.bnom_ ≠ ⟨0, 0, 0⟩ ∧
    (exampleHelix.rad ≠ 0 ∨ exampleHelix.lam ≠ 0) ∧
    exampleHelix.bnom_.R realMath * exampleHelix.pbar realMath ≠ 0 ∧
    ∃ N : Nat, ∀ fuel, N ≤ fuel → ∃ (r : TRange ℝ) (dx : ℝ) (n : Nat),
      exampleHelix.rangeInTolerance realMath exampleConst fuel ⟨0, 0⟩
        (UniformBField ⟨0, 0, 10001 / 10000⟩) (1 / 1000) = .done r dx n := by
  have hB : exampleHelix.bnom_ ≠ ⟨0, 0, 0⟩ := by
    intro h; injection h with _ _ h3; norm_num at h3
  have hp : exampleHelix.rad ≠ 0 ∨ exampleHelix.lam ≠ 0 :=
    Or.inl (by norm_num [LHelix.rad, LHelix.paramVal, exampleHelix, rad_])
  have hthm := rangeInTolerance_post exampleConst exampleHelix ⟨0, 0⟩
    (UniformBField ⟨0, 0, 10001 / 10000⟩) (1 / 1000) (by norm_num) hB hp
  exact ⟨by norm_num, hB, hp, hthm.1, hthm.2.2 (by norm_num [exampleConst])⟩

/-! ### Momentum derivatives -/

theorem displaced_rad (h : LHelix ℝ) (δ : DVEC ℝ) (e : ℝ) :
    (h.displaced δ e).rad = h.rad + e * δ rad_ := rfl
theorem displaced_lam (h : LHelix ℝ) (δ : DVEC ℝ) (e : ℝ) :
    (h.displaced δ e).lam = h.lam + e * δ lam_ := rfl
theorem displaced_phi0 (h : LHelix ℝ) (δ : DVEC ℝ) (e : ℝ) :
    (h.displaced δ e).phi0 = h.phi0 + e * δ phi0_ := rfl
theorem displaced_t0 (h : LHelix ℝ) (δ : DVEC ℝ) (e : ℝ) :
    (h.displaced δ e).t0 = h.t0 + e * δ t0_ := rfl
theorem displaced_mbar (h : LHelix ℝ) (δ : DVEC ℝ) (e : ℝ) :
    (h.displaced δ e).mbar_ = h.mbar_ := rfl
theorem displaced_mass (h : LHelix ℝ) (δ : DVEC ℝ) (e : ℝ) :
    (h.displaced δ e).mass_ = h.mass_ := rfl
theorem displaced_l2g (h : LHelix ℝ) (δ : DVEC ℝ) (e : ℝ) :
    (h.displaced δ e).l2g_ = h.l2g_ := rfl
theorem displaced_sign (h : LHelix ℝ) (δ : DVEC ℝ) (e : ℝ) :
    (h.displaced δ e).sign = h.sign := rfl

/-- Azimuth of the displaced helix as a function of the displacement. -/
theorem hasDerivAt_phi (c s mb rad lam phi0 t0 t a b p q : ℝ) (hmb : mb ≠ 0) :
    HasDerivAt
      (fun e : ℝ => c * s / Real.sqrt ((rad + e * a) * (rad + e * a) + (lam + e * b) * (lam + e * b)
          + mb * mb) * (t - (t0 + e * q)) + (phi0 + e * p))
      (-(c * s * (rad * a + lam * b) / (Real.sqrt (rad * rad + lam * lam + mb * mb)) ^ 3) * (t - t0)
        - c * s / Real.sqrt (rad * rad + lam * lam + mb * mb) * q + p) 0 := by
  have hE2pos : 0 < rad * rad + lam * lam + mb * mb := by
    nlinarith [mul_self_nonneg rad, mul_self_nonneg lam, mul_self_pos.2 hmb]
  have hE0 : Real.sqrt (rad * rad + lam * lam + mb * mb) ≠ 0 := (Real.sqrt_pos.2 hE2pos).ne'
  have hr : HasDerivAt (fun e : ℝ => rad + e * a) a 0 := by
    simpa using ((hasDerivAt_id (0 : ℝ)).mul_const a).const_add rad
  have hl : HasDerivAt (fun e : ℝ => lam + e * b) b 0 := by
    simpa using ((hasDerivAt_id (0 : ℝ)).mul_const b).const_add lam
  have hq : HasDerivAt (fun e : ℝ => t - (t0 + e * q)) (-q) 0 := by
    simpa using (((hasDerivAt_id (0 : ℝ)).mul_const q).const_add t0).const_sub t
  have hp : HasDerivAt (fun e : ℝ => phi0 + e * p) p 0 := by
    simpa using ((hasDerivAt_id (0 : ℝ)).mul_const p).const_add phi0
  have hE2 : HasDerivAt (fun e : ℝ => (rad + e * a) * (rad + e * a) + (lam + e * b) * (lam + e * b)
      + mb * mb) ((a * (rad + 0 * a) + (rad + 0 * a) * a) + (b * (lam + 0 * b) + (lam + 0 * b) * b))
      0 := ((hr.mul hr).add (hl.mul hl)).add_const (mb * mb)
  have hE := hE2.sqrt (by simpa using hE2pos.ne')
  have hom := (hE.inv (by simpa using hE0)).const_mul (c * s)
  have hphi := (hom.mul hq).add hp
  have hfun : (fun e : ℝ => c * s / Real.sqrt ((rad + e * a) * (rad + e * a)
      + (lam + e * b) * (lam + e * b) + mb * mb) * (t - (t0 + e * q)) + (phi0 + e * p))
      = (fun e : ℝ => c * s * (Real.sqrt ((rad + e * a) * (rad + e * a)
      + (lam + e * b) * (lam + e * b) + mb * mb))⁻¹ * (t - (t0 + e * q)) + (phi0 + e * p)) := by
    funext e
    rw [div_eq_mul_inv]
  rw [hfun]
  convert hphi using 1
  simp only [zero_mul, add_zero]
  generalize Real.sqrt (rad * rad + lam * lam + mb * mb) = E at hE0
  field_simp
  ring


theorem displaced_phi (K : PhysConst ℝ) (h : LHelix ℝ) (δ : DVEC ℝ) (t e : ℝ) :
    (h.displaced δ e).phi realMath K t =
      K.c_light * h.sign / Real.sqrt ((h.rad + e * δ rad_) * (h.rad + e * δ rad_)
          + (h.lam + e * δ lam_) * (h.lam + e * δ lam_) + h.mbar_ * h.mbar_)
        * (t - (h.t0 + e * δ t0_)) + (h.phi0 + e * δ phi0_) := rfl

theorem displaced_pbar (h : LHelix ℝ) (δ : DVEC ℝ) (e : ℝ) :
    (h.displaced δ e).pbar realMath =
      Real.sqrt ((h.rad + e * δ rad_) * (h.rad + e * δ rad_)
          + (h.lam + e * δ lam_) * (h.lam + e * δ lam_)) := rfl

theorem displaced_zero (h : LHelix ℝ) (δ : DVEC ℝ) : h.displaced δ 0 = h := by
  obtain ⟨tr, ⟨p, c⟩, m, q, mb, b, l, g⟩ := h
  simp [LHelix.displaced, LHelix.withPData]

/-- The local components of the momentum of the displaced helix, as functions of the
displacement, and their derivatives at zero displacement. -/
theorem hasDerivAt_local (K : PhysConst ℝ) (h : LHelix ℝ) (δ : DVEC ℝ) (t κ : ℝ)
    (hmb : h.mbar_ ≠ 0) :
    let dφ := -(K.c_light * h.sign * (h.rad * δ rad_ + h.lam * δ lam_) / (h.ebar realMath) ^ 3)
        * (t - h.t0) - h.omega realMath K * δ t0_ + δ phi0_
    HasDerivAt (fun e : ℝ => κ * ((h.rad + e * δ rad_) * Real.cos ((h.displaced δ e).phi realMath K t)))
      (κ * (δ rad_ * Real.cos (h.phi realMath K t) - h.rad * Real.sin (h.phi realMath K t) * dφ)) 0 ∧
    HasDerivAt (fun e : ℝ => κ * ((h.rad + e * δ rad_) * Real.sin ((h.displaced δ e).phi realMath K t)))
      (κ * (δ rad_ * Real.sin (h.phi realMath K t) + h.rad * Real.cos (h.phi realMath K t) * dφ)) 0 ∧
    HasDerivAt (fun e : ℝ => κ * (h.lam + e * δ lam_)) (κ * δ lam_) 0 := by
  intro dφ
  have hphi := hasDerivAt_phi K.c_light h.sign h.mbar_ h.rad h.lam h.phi0 h.t0 t
    (δ rad_) (δ lam_) (δ phi0_) (δ t0_) hmb
  have hphi0 : (h.displaced δ 0).phi realMath K t = h.phi realMath K t := by
    rw [displaced_zero]
  have hfun : (fun e : ℝ => (h.displaced δ e).phi realMath K t) = fun e : ℝ =>
      K.c_light * h.sign / Real.sqrt ((h.rad + e * δ rad_) * (h.rad + e * δ rad_)
          + (h.lam + e * δ lam_) * (h.lam + e * δ lam_) + h.mbar_ * h.mbar_)
        * (t - (h.t0 + e * δ t0_)) + (h.phi0 + e * δ phi0_) := by
    funext e; rfl
  have hphi' : HasDerivAt (fun e : ℝ => (h.displaced δ e).phi realMath K t) dφ 0 := by
    rw [hfun]
    exact hphi
  have hr : HasDerivAt (fun e : ℝ => h.rad + e * δ rad_) (δ rad_) 0 := by
    simpa using ((hasDerivAt_id (0 : ℝ)).mul_const (δ rad_)).const_add h.rad
  have hl : HasDerivAt (fun e : ℝ => h.lam + e * δ lam_) (δ lam_) 0 := by
    simpa using ((hasDerivAt_id (0 : ℝ)).mul_const (δ lam_)).const_add h.lam
  refine ⟨?_, ?_, ?_⟩
  · have := (hr.mul hphi'.cos).const_mul κ
    simp only [hphi0, zero_mul, add_zero] at this
    convert this using 1
    ring
  · have := (hr.mul hphi'.sin).const_mul κ
    simp only [hphi0, zero_mul, add_zero] at this
    convert this using 1
    ring
  · exact hl.const_mul κ


theorem momentum_displaced (K : PhysConst ℝ) (h : LHelix ℝ) (δ : DVEC ℝ) (t e : ℝ) :
    (h.displaced δ e).momentum realMath K t = .ok (LHelix.displacedMomentum realMath K h δ t e) := rfl

/-- Where the reduced momentum of the displaced helix is not zero, its momentum is the
constant `mass * sign / |mbar|` times `(rad cos phi, rad sin phi, lam)`, rotated. -/
theorem displacedMomentum_eq (K : PhysConst ℝ) (h : LHelix ℝ) (δ : DVEC ℝ) (t e : ℝ) (hmb : h.mbar_ ≠ 0)
    (hpb : (h.rad + e * δ rad_) * (h.rad + e * δ rad_)
      + (h.lam + e * δ lam_) * (h.lam + e * δ lam_) ≠ 0) :
    LHelix.displacedMomentum realMath K h δ t e =
      ⟨(h.l2g_.apply ⟨h.mass_ * h.sign / |h.mbar_| * ((h.rad + e * δ rad_) * Real.cos ((h.displaced δ e).phi realMath K t)),
          h.mass_ * h.sign / |h.mbar_| * ((h.rad + e * δ rad_) * Real.sin ((h.displaced δ e).phi realMath K t)),
          h.mass_ * h.sign / |h.mbar_| * (h.lam + e * δ lam_)⟩).x,
       (h.l2g_.apply ⟨h.mass_ * h.sign / |h.mbar_| * ((h.rad + e * δ rad_) * Real.cos ((h.displaced δ e).phi realMath K t)),
          h.mass_ * h.sign / |h.mbar_| * ((h.rad + e * δ rad_) * Real.sin ((h.displaced δ e).phi realMath K t)),
          h.mass_ * h.sign / |h.mbar_| * (h.lam + e * δ lam_)⟩).y,
       (h.l2g_.apply ⟨h.mass_ * h.sign / |h.mbar_| * ((h.rad + e * δ rad_) * Real.cos ((h.displaced δ e).phi realMath K t)),
          h.mass_ * h.sign / |h.mbar_| * ((h.rad + e * δ rad_) * Real.sin ((h.displaced δ e).phi realMath K t)),
          h.mass_ * h.sign / |h.mbar_| * (h.lam + e * δ lam_)⟩).z,
       h.mass_⟩ := by
  have hpos : 0 < (h.displaced δ e).pbar realMath := by
    rw [displaced_pbar]
    apply Real.sqrt_pos.2
    exact lt_of_le_of_ne (add_nonneg (mul_self_nonneg _) (mul_self_nonneg _)) (Ne.symm hpb)
  have habs : |h.mbar_| ≠ 0 := abs_ne_zero.2 hmb
  simp only [LHelix.displacedMomentum, displaced_l2g, displaced_mass, displaced_sign, displaced_rad, displaced_lam,
    LHelix.betaGamma, displaced_mbar, realMath_cos, realMath_sin, Mat3.apply]
  rw [abs_div, abs_of_pos hpos]
  generalize (h.displaced δ e).pbar realMath = pb at hpos
  have hpb0 : pb ≠ 0 := hpos.ne'
  congr 1 <;> (field_simp; ring)

/-- Derivative at zero of the momentum of the displaced helix. -/
theorem hasDerivAt_displacedMomentum (K : PhysConst ℝ) (h : LHelix ℝ) (δ : DVEC ℝ) (t : ℝ)
    (hmb : h.mbar_ ≠ 0) (hp : h.rad ≠ 0 ∨ h.lam ≠ 0) :
    let κ := h.mass_ * h.sign / |h.mbar_|
    let dφ := -(K.c_light * h.sign * (h.rad * δ rad_ + h.lam * δ lam_) / (h.ebar realMath) ^ 3)
        * (t - h.t0) - h.omega realMath K * δ t0_ + δ phi0_
    let D : Vec3 ℝ := h.l2g_.apply
      ⟨κ * (δ rad_ * Real.cos (h.phi realMath K t) - h.rad * Real.sin (h.phi realMath K t) * dφ),
       κ * (δ rad_ * Real.sin (h.phi realMath K t) + h.rad * Real.cos (h.phi realMath K t) * dφ),
       κ * δ lam_⟩
    HasDerivAt (fun e => (LHelix.displacedMomentum realMath K h δ t e).px) D.x 0 ∧
    HasDerivAt (fun e => (LHelix.displacedMomentum realMath K h δ t e).py) D.y 0 ∧
    HasDerivAt (fun e => (LHelix.displacedMomentum realMath K h δ t e).pz) D.z 0 := by
  intro κ dφ D
  obtain ⟨hX, hY, hZ⟩ := hasDerivAt_local K h δ t κ hmb
  -- near zero displacement the reduced momentum does not vanish
  have hcont : ContinuousAt (fun e : ℝ => (h.rad + e * δ rad_) * (h.rad + e * δ rad_)
      + (h.lam + e * δ lam_) * (h.lam + e * δ lam_)) 0 := by
    apply Continuous.continuousAt
    continuity
  have hne0 : (fun e : ℝ => (h.rad + e * δ rad_) * (h.rad + e * δ rad_)
      + (h.lam + e * δ lam_) * (h.lam + e * δ lam_)) 0 ≠ 0 := by
    simp only [zero_mul, add_zero]
    rcases hp with hr | hl
    · nlinarith [mul_self_pos.2 hr, mul_self_nonneg h.lam]
    · nlinarith [mul_self_pos.2 hl, mul_self_nonneg h.rad]
  have hev := hcont.eventually_ne hne0
  refine ⟨?_, ?_, ?_⟩
  · have hG := ((hX.const_mul h.l2g_.xx).add (hY.const_mul h.l2g_.xy)).add
      (hZ.const_mul h.l2g_.xz)
    refine (hG.congr_of_eventuallyEq ?_)
    filter_upwards [hev] with e he
    rw [displacedMomentum_eq K h δ t e hmb he]
    rfl
  · have hG := ((hX.const_mul h.l2g_.yx).add (hY.const_mul h.l2g_.yy)).add
      (hZ.const_mul h.l2g_.yz)
    refine (hG.congr_of_eventuallyEq ?_)
    filter_upwards [hev] with e he
    rw [displacedMomentum_eq K h δ t e hmb he]
    rfl
  · have hG := ((hX.const_mul h.l2g_.zx).add (hY.const_mul h.l2g_.zy)).add
      (hZ.const_mul h.l2g_.zz)
    refine (hG.congr_of_eventuallyEq ?_)
    filter_upwards [hev] with e he
    rw [displacedMomentum_eq K h δ t e hmb he]
    rfl


theorem pbar_mul_self (h : LHelix ℝ) :
    h.pbar realMath * h.pbar realMath = h.rad * h.rad + h.lam * h.lam := by
  rw [LHelix.pbar, realMath_sqrt, LHelix.pbar2]
  exact Real.mul_self_sqrt (add_nonneg (mul_self_nonneg _) (mul_self_nonneg _))

theorem sign_mul_self (h : LHelix ℝ) : h.sign * h.sign = 1 := by
  unfold LHelix.sign
  split_ifs <;> norm_num

theorem momentumMag_eq (h : LHelix ℝ) (t : ℝ) (hm : 0 ≤ h.mass_) (hp : h.rad ≠ 0 ∨ h.lam ≠ 0) :
    h.momentumMag realMath t = h.mass_ * h.pbar realMath / |h.mbar_| := by
  rw [LHelix.momentumMag, LHelix.betaGamma, abs_mul, abs_abs, abs_div, abs_of_nonneg hm,
    abs_of_pos (pbar_pos h hp)]
  ring

theorem vec6_rad (a b c d e f : ℝ) : (![a, b, c, d, e, f] : DVEC ℝ) rad_ = a := rfl
theorem vec6_lam (a b c d e f : ℝ) : (![a, b, c, d, e, f] : DVEC ℝ) lam_ = b := rfl
theorem vec6_phi0 (a b c d e f : ℝ) : (![a, b, c, d, e, f] : DVEC ℝ) phi0_ = e := rfl
theorem vec6_t0 (a b c d e f : ℝ) : (![a, b, c, d, e, f] : DVEC ℝ) t0_ = f := rfl

set_option maxHeartbeats 800000 in
/-- Momentum-derivative consistency along the momentum direction. -/
theorem momDeriv_consistency_momdir (K : PhysConst ℝ) (h : LHelix ℝ) (t : ℝ)
    (hrad : h.rad ≠ 0) (hmb : h.mbar_ ≠ 0) (hmass : 0 ≤ h.mass_) :
    ∃ (δ : DVEC ℝ) (dir : Vec3 ℝ) (P : ℝ → Mom4 ℝ),
      h.momDeriv realMath K t LocDir.momdir = .ok δ ∧
      h.direction realMath K t LocDir.momdir = .ok dir ∧
      (∀ e, (h.displaced δ e).momentum realMath K t = .ok (P e)) ∧
      HasDerivAt (fun e => (P e).px) (h.momentumMag realMath t * dir.x) 0 ∧
      HasDerivAt (fun e => (P e).py) (h.momentumMag realMath t * dir.y) 0 ∧
      HasDerivAt (fun e => (P e).pz) (h.momentumMag realMath t * dir.z) 0 := by
  have hp : h.rad ≠ 0 ∨ h.lam ≠ 0 := Or.inl hrad
  have hpb := pbar_pos h hp
  have hpb2 := pbar_mul_self h
  have hE := ebar_pos h hmb
  have hE0 : h.ebar realMath ≠ 0 := hE.ne'
  have hE2 : h.ebar realMath * h.ebar realMath = h.rad * h.rad + h.lam * h.lam
      + h.mbar_ * h.mbar_ := by
    rw [LHelix.ebar, realMath_sqrt, LHelix.ebar2, LHelix.pbar2]
    exact Real.mul_self_sqrt
      (add_nonneg (add_nonneg (mul_self_nonneg _) (mul_self_nonneg _)) (mul_self_nonneg _))
  have hmag := momentumMag_eq h t hmass hp
  have habs : |h.mbar_| ≠ 0 := abs_ne_zero.2 hmb
  have hss := sign_mul_self h
  -- fractional momentum change
  refine ⟨_, _, LHelix.displacedMomentum realMath K h _ t, rfl, rfl, fun e => rfl, ?_⟩
  obtain ⟨hx, hy, hz⟩ := hasDerivAt_displacedMomentum K h
    ![h.rad, h.lam, -h.rad * realMath.sin (h.omega realMath K * (t - h.t0) + h.phi0),
      h.rad * realMath.cos (h.omega realMath K * (t - h.t0) + h.phi0),
      h.omega realMath K * (t - h.t0),
      (t - h.t0) * (1 - h.beta realMath * h.beta realMath)] t hmb hp
  simp only [vec6_rad, vec6_lam, vec6_phi0, vec6_t0] at hx hy hz
  have hdφ : -(K.c_light * h.sign * (h.rad * h.rad + h.lam * h.lam) / (h.ebar realMath) ^ 3)
      * (t - h.t0) - h.omega realMath K * ((t - h.t0) * (1 - h.beta realMath * h.beta realMath))
      + h.omega realMath K * (t - h.t0) = 0 := by
    rw [LHelix.omega, LHelix.beta, ← hpb2]
    field_simp
    ring
  rw [hdφ] at hx hy hz
  simp only [mul_zero, sub_zero, add_zero] at hx hy hz
  rw [hmag]
  simp only [Mat3.apply] at hx hy hz ⊢
  refine ⟨?_, ?_, ?_⟩
  · convert hx using 1
    field_simp
    ring
  · convert hy using 1
    field_simp
    ring
  · convert hz using 1
    field_simp
    ring

set_option maxHeartbeats 800000 in
/-- Momentum-derivative consistency along the polar bending direction. -/
theorem momDeriv_consistency_perpdir (K : PhysConst ℝ) (h : LHelix ℝ) (t : ℝ)
    (hrad : h.rad ≠ 0) (hlam : h.lam ≠ 0) (hmb : h.mbar_ ≠ 0) (hmass : 0 ≤ h.mass_) :
    ∃ (δ : DVEC ℝ) (dir : Vec3 ℝ) (P : ℝ → Mom4 ℝ),
      h.momDeriv realMath K t LocDir.perpdir = .ok δ ∧
      h.direction realMath K t LocDir.perpdir = .ok dir ∧
      (∀ e, (h.displaced δ e).momentum realMath K t = .ok (P e)) ∧
      HasDerivAt (fun e => (P e).px) (h.momentumMag realMath t * dir.x) 0 ∧
      HasDerivAt (fun e => (P e).py) (h.momentumMag realMath t * dir.y) 0 ∧
      HasDerivAt (fun e => (P e).pz) (h.momentumMag realMath t * dir.z) 0 := by
  have hp : h.rad ≠ 0 ∨ h.lam ≠ 0 := Or.inl hrad
  have hpb := pbar_pos h hp
  have hpb2 := pbar_mul_self h
  have hE := ebar_pos h hmb
  have hE0 : h.ebar realMath ≠ 0 := hE.ne'
  have hE2 : h.ebar realMath * h.ebar realMath = h.rad * h.rad + h.lam * h.lam
      + h.mbar_ * h.mbar_ := by
    rw [LHelix.ebar, realMath_sqrt, LHelix.ebar2, LHelix.pbar2]
    exact Real.mul_self_sqrt
      (add_nonneg (add_nonneg (mul_self_nonneg _) (mul_self_nonneg _)) (mul_self_nonneg _))
  have hmag := momentumMag_eq h t hmass hp
  have habs : |h.mbar_| ≠ 0 := abs_ne_zero.2 hmb
  have hss := sign_mul_self h
  -- polar bending
  refine ⟨_, _, LHelix.displacedMomentum realMath K h _ t, rfl, rfl, fun e => rfl, ?_⟩
  obtain ⟨hx, hy, hz⟩ := hasDerivAt_displacedMomentum K h
    ![h.lam, -h.rad, -h.lam * realMath.sin (h.omega realMath K * (t - h.t0) + h.phi0),
      h.lam * realMath.cos (h.omega realMath K * (t - h.t0) + h.phi0),
      -h.omega realMath K * (t - h.t0) * h.rad / h.lam,
      -(t - h.t0) * h.rad / h.lam] t hmb hp
  simp only [vec6_rad, vec6_lam, vec6_phi0, vec6_t0] at hx hy hz
  have hdφ : -(K.c_light * h.sign * (h.rad * h.lam + h.lam * -h.rad) / (h.ebar realMath) ^ 3)
      * (t - h.t0) - h.omega realMath K * (-(t - h.t0) * h.rad / h.lam)
      + -h.omega realMath K * (t - h.t0) * h.rad / h.lam = 0 := by
    field_simp
    ring
  rw [hdφ] at hx hy hz
  simp only [mul_zero, sub_zero, add_zero] at hx hy hz
  rw [hmag]
  simp only [Mat3.apply] at hx hy hz ⊢
  refine ⟨?_, ?_, ?_⟩
  · convert hx using 1
    field_simp
    ring
  · convert hy using 1
    field_simp
    ring
  · convert hz using 1
    field_simp
    ring

set_option maxHeartbeats 800000 in
/-- Momentum-derivative consistency along the azimuthal bending direction. -/
theorem momDeriv_consistency_phidir (K : PhysConst ℝ) (h : LHelix ℝ) (t : ℝ)
    (hrad : h.rad ≠ 0) (hmb : h.mbar_ ≠ 0) (hmass : 0 ≤ h.mass_) :
    ∃ (δ : DVEC ℝ) (dir : Vec3 ℝ) (P : ℝ → Mom4 ℝ),
      h.momDeriv realMath K t LocDir.phidir = .ok δ ∧
      h.direction realMath K t LocDir.phidir = .ok dir ∧
      (∀ e, (h.displaced δ e).momentum realMath K t = .ok (P e)) ∧
      HasDerivAt (fun e => (P e).px) (h.momentumMag realMath t * dir.x) 0 ∧
      HasDerivAt (fun e => (P e).py) (h.momentumMag realMath t * dir.y) 0 ∧
      HasDerivAt (fun e => (P e).pz) (h.momentumMag realMath t * dir.z) 0 := by
  have hp : h.rad ≠ 0 ∨ h.lam ≠ 0 := Or.inl hrad
  have hpb := pbar_pos h hp
  have hpb2 := pbar_mul_self h
  have hE := ebar_pos h hmb
  have hE0 : h.ebar realMath ≠ 0 := hE.ne'
  have hE2 : h.ebar realMath * h.ebar realMath = h.rad * h.rad + h.lam * h.lam
      + h.mbar_ * h.mbar_ := by
    rw [LHelix.ebar, realMath_sqrt, LHelix.ebar2, LHelix.pbar2]
    exact Real.mul_self_sqrt
      (add_nonneg (add_nonneg (mul_self_nonneg _) (mul_self_nonneg _)) (mul_self_nonneg _))
  have hmag := momentumMag_eq h t hmass hp
  have habs : |h.mbar_| ≠ 0 := abs_ne_zero.2 hmb
  have hss := sign_mul_self h
  -- azimuthal bending
  refine ⟨_, _, LHelix.displacedMomentum realMath K h _ t, rfl, rfl, fun e => rfl, ?_⟩
  obtain ⟨hx, hy, hz⟩ := hasDerivAt_displacedMomentum K h
    ![0, 0, -(h.pbar realMath * h.sign) * realMath.cos (h.omega realMath K * (t - h.t0) + h.phi0),
      -(h.pbar realMath * h.sign) * realMath.sin (h.omega realMath K * (t - h.t0) + h.phi0),
      h.pbar realMath * h.sign / h.rad, 0] t hmb hp
  simp only [vec6_rad, vec6_lam, vec6_phi0, vec6_t0] at hx hy hz
  have hdφ : -(K.c_light * h.sign * (h.rad * 0 + h.lam * 0) / (h.ebar realMath) ^ 3)
      * (t - h.t0) - h.omega realMath K * 0 + h.pbar realMath * h.sign / h.rad
      = h.pbar realMath * h.sign / h.rad := by
    simp
  rw [hdφ] at hx hy hz
  rw [hmag]
  simp only [Mat3.apply, realMath_sin, realMath_cos] at hx hy hz ⊢
  have hsgn : h.sign = 1 ∨ h.sign = -1 := by
    unfold LHelix.sign
    split_ifs
    · exact Or.inr rfl
    · exact Or.inl rfl
  refine ⟨?_, ?_, ?_⟩
  · convert hx using 1
    rcases hsgn with hs | hs <;> rw [hs] <;> field_simp <;> ring
  · convert hy using 1
    rcases hsgn with hs | hs <;> rw [hs] <;> field_simp <;> ring
  · convert hz using 1
    rcases hsgn with hs | hs <;> rw [hs] <;> field_simp <;> ring

/-- Claim C2 as amended: for every helix of non-negative mass with `rad != 0`, `lam != 0` and
`mbar != 0`, every time `t` and each basis direction `d` among `momdir`, `perpdir`, `phidir`,
`momDeriv(t, d)` and `direction(t, d)` return without throwing, and the derivative at
`eps = 0` of `momentum(t)` evaluated with the parameters displaced by `eps * momDeriv(t, d)` is
`momentumMag(t) * direction(t, d)`, component by component. -/
theorem momDeriv_consistency (K : PhysConst ℝ) (h : LHelix ℝ) (t : ℝ) (d : LocDir)
    (hd : d = LocDir.momdir ∨ d = LocDir.perpdir ∨ d = LocDir.phidir)
    (hrad : h.rad ≠ 0) (hlam : h.lam ≠ 0) (hmb : h.mbar_ ≠ 0) (hmass : 0 ≤ h.mass_) :
    ∃ (δ : DVEC ℝ) (dir : Vec3 ℝ) (P : ℝ → Mom4 ℝ),
      h.momDeriv realMath K t d = .ok δ ∧
      h.direction realMath K t d = .ok dir ∧
      (∀ e, (h.displaced δ e).momentum realMath K t = .ok (P e)) ∧
      HasDerivAt (fun e => (P e).px) (h.momentumMag realMath t * dir.x) 0 ∧
      HasDerivAt (fun e => (P e).py) (h.momentumMag realMath t * dir.y) 0 ∧
      HasDerivAt (fun e => (P e).pz) (h.momentumMag realMath t * dir.z) 0 := by
  rcases hd with rfl | rfl | rfl
  · exact momDeriv_consistency_momdir K h t hrad hmb hmass
  · exact momDeriv_consistency_perpdir K h t hrad hlam hmb hmass
  · exact momDeriv_consistency_phidir K h t hrad hmb hmass


theorem exampleNegMassHelix_pbar : exampleNegMassHelix.pbar realMath = 5 := by
  simp only [LHelix.pbar, LHelix.pbar2, LHelix.rad, LHelix.lam, LHelix.paramVal,
    exampleNegMassHelix, rad_, lam_, realMath_sqrt]
  have h25 : (![3, 4, 0, 0, 0, 0] : Fin 6 → ℝ) 0 * (![3, 4, 0, 0, 0, 0] : Fin 6 → ℝ) 0
      + (![3, 4, 0, 0, 0, 0] : Fin 6 → ℝ) 1 * (![3, 4, 0, 0, 0, 0] : Fin 6 → ℝ) 1 = 5 * 5 := by
    simp
    norm_num
  rw [h25]
  exact Real.sqrt_mul_self (by norm_num)

/-! ### The example helices are built by the constructor -/

theorem atan2_zero_zero : Complex.arg (⟨0, 0⟩ : ℂ) = 0 := by
  have : (⟨0, 0⟩ : ℂ) = 0 := rfl
  rw [this, Complex.arg_zero]

theorem atan2_zero_pos (x : ℝ) (hx : 0 ≤ x) : Complex.arg (⟨x, 0⟩ : ℂ) = 0 := by
  have : (⟨x, 0⟩ : ℂ) = (x : ℂ) := rfl
  rw [this]
  exact Complex.arg_ofReal_of_nonneg hx

/-- For a field along +z the rotation built by the constructor is the identity. -/
theorem rot_z_axis (b : ℝ) (hb : 0 < b) :
    Mat3.ofAxisAngle realMath
      ⟨realMath.sin ((⟨0, 0, b⟩ : Vec3 ℝ).Phi realMath),
        -realMath.cos ((⟨0, 0, b⟩ : Vec3 ℝ).Phi realMath), 0⟩
      ((⟨0, 0, b⟩ : Vec3 ℝ).Theta realMath) = ⟨1, 0, 0, 0, 1, 0, 0, 0, 1⟩ := by
  have hphi : (⟨0, 0, b⟩ : Vec3 ℝ).Phi realMath = 0 := by
    simp only [Vec3.Phi, realMath_atan2, atan2_zero_zero]
  have hrho : (⟨0, 0, b⟩ : Vec3 ℝ).Rho realMath = 0 := by
    simp [Vec3.Rho]
  have hth : (⟨0, 0, b⟩ : Vec3 ℝ).Theta realMath = 0 := by
    simp only [Vec3.Theta, hrho, realMath_atan2]
    exact atan2_zero_pos b hb.le
  rw [hphi, hth]
  simp only [realMath_sin, realMath_cos, Mat3.ofAxisAngle, axis_unit, Real.sin_zero,
    Real.cos_zero]
  norm_num

theorem Rho_of (x y z r : ℝ) (hr : 0 ≤ r) (h : r * r = x * x + y * y) :
    (⟨x, y, z⟩ : Vec3 ℝ).Rho realMath = r := by
  simp only [Vec3.Rho, realMath_sqrt]
  exact sqrt_of_mul_self _ _ hr h

theorem R_of (x y z r : ℝ) (hr : 0 ≤ r) (h : r * r = x * x + y * y + z * z) :
    (⟨x, y, z⟩ : Vec3 ℝ).R realMath = r := by
  simp only [Vec3.R, Vec3.Mag2, realMath_sqrt]
  exact sqrt_of_mul_self _ _ hr h

theorem realRint_zero : realRint 0 = 0 := by
  simp [realRint]

/-- The parameters the constructor computes for the example helix. -/
theorem fill_exampleHelix :
    LHelix.fill realMath exampleConst ⟨1, 0, 0, 0, 1, 0, 0, 0, 1⟩ ⟨0, -3, 0, 0⟩
      ⟨3 * (299792458 / 1000000000), 0, 4 * (299792458 / 1000000000)⟩
      (12 * (299792458 / 1000000000)) (-1) ⟨0, 0, 1⟩ ⟨0, 10⟩ = exampleHelix := by
  have hR : (⟨0, 0, 1⟩ : Vec3 ℝ).R realMath = 1 := R_of 0 0 1 1 (by norm_num) (by norm_num)
  have hRho : (⟨3 * (299792458 / 1000000000), 0, 4 * (299792458 / 1000000000)⟩ : Vec3 ℝ).Rho
      realMath = 3 * (299792458 / 1000000000) := Rho_of _ _ _ _ (by norm_num) (by norm_num)
  have hPhi : (⟨3 * (299792458 / 1000000000), 0, 4 * (299792458 / 1000000000)⟩ : Vec3 ℝ).Phi
      realMath = 0 := by
    simp only [Vec3.Phi, realMath_atan2]
    exact atan2_zero_pos _ (by norm_num)
  unfold LHelix.fill exampleHelix
  simp only [LHelix.setParam, LHelix.omega, LHelix.lam, LHelix.t0, LHelix.paramVal, hR, hRho,
    hPhi, exampleConst, realMath_pi, realMath_rint, PData.zero, Mat3.Inverse]
  congr 1
  · congr 1
    funext i
    fin_cases i <;> simp [Function.update, rad_, lam_, cx_, cy_, phi0_, t0_, realRint_zero] <;>
      first | rfl | norm_num
  · norm_num


/-- The constructor returns the example helix. -/
theorem construct_exampleHelix :
    LHelix.construct realMath exampleConst ⟨0, -3, 0, 0⟩
      ⟨3 * (299792458 / 1000000000), 0, 4 * (299792458 / 1000000000),
        12 * (299792458 / 1000000000)⟩ (-1) ⟨0, 0, 1⟩ ⟨0, 10⟩ = .ok exampleHelix := by
  unfold LHelix.construct
  simp only [rot_z_axis 1 (by norm_num)]
  have happ : ∀ v : Vec3 ℝ, (⟨1, 0, 0, 0, 1, 0, 0, 0, 1⟩ : Mat3 ℝ).apply v = v := by
    intro v
    simp [Mat3.apply]
  have happ4 : ∀ v : Vec4 ℝ, (⟨1, 0, 0, 0, 1, 0, 0, 0, 1⟩ : Mat3 ℝ).apply4 v = v := by
    intro v
    simp [Mat3.apply4, happ, Vec4.Vect]
  simp only [happ, happ4, Mom4.Vect, fill_exampleHelix]
  have hth : (⟨0, 0, 1⟩ : Vec3 ℝ).Theta realMath = 0 := theta_z_axis 1 (by norm_num)
  rw [hth]
  have hpb := exampleHelix_pbar
  have hrad : exampleHelix.rad = 3 := rfl
  have hlam : exampleHelix.lam = 4 := rfl
  have hcx : exampleHelix.cx = 0 := rfl
  have hcy : exampleHelix.cy = 0 := rfl
  have hphi0 : exampleHelix.phi0 = 0 := rfl
  have ht0 : exampleHelix.t0 = 0 := rfl
  have hl2g : exampleHelix.l2g_ = ⟨1, 0, 0, 0, 1, 0, 0, 0, 1⟩ := rfl
  have hmass : exampleHelix.mass_ = 12 * (299792458 / 1000000000) := rfl
  have hmbar : exampleHelix.mbar_ = 12 := rfl
  have hphi : exampleHelix.phi realMath exampleConst 0 = 0 := by
    rw [LHelix.phi, LHelix.dphi, ht0, hphi0]
    ring
  have hpos : exampleHelix.position4 realMath exampleConst ⟨0, -3, 0, 0⟩
      = ⟨0, -3, 0, 0⟩ := by
    have hd : exampleHelix.dphi realMath exampleConst 0 = 0 := by
      rw [LHelix.dphi, ht0]
      ring
    simp only [LHelix.position4, LHelix.position, hd, hphi0, hcx, hcy, hrad, hlam, hl2g, happ,
      realMath_sin, realMath_cos, add_zero, Real.sin_zero, Real.cos_zero]
    norm_num
  have hmom : exampleHelix.momentum realMath exampleConst 0
      = .ok ⟨3 * (299792458 / 1000000000), 0, 4 * (299792458 / 1000000000),
        12 * (299792458 / 1000000000)⟩ := by
    have hsign : exampleHelix.sign = 1 := by
      simp [LHelix.sign, hmbar]
    rw [momentum_eq, LHelix.betaGamma, hpb, hphi, hsign, hrad, hlam, hl2g, hmass, hmbar]
    simp only [happ, realMath_sin, realMath_cos, Real.sin_zero, Real.cos_zero]
    norm_num [abs_of_pos]
  simp only [hpos, hmom]
  have hz : ∀ v : Vec3 ℝ, (v.sub v).R realMath = 0 := sub_self_R
  simp only [Vec4.Vect, Mom4.Vect, hz]
  norm_num


/-- The parameters the constructor computes for the example helix of negative mass. -/
theorem fill_exampleNegMassHelix :
    LHelix.fill realMath exampleConst ⟨1, 0, 0, 0, 1, 0, 0, 0, 1⟩ ⟨0, -3, 0, 0⟩
      ⟨3 * (299792458 / 1000000000), 0, 4 * (299792458 / 1000000000)⟩
      (-4 * (299792458 / 1000000000)) (-1) ⟨0, 0, 1⟩ ⟨0, 10⟩ = exampleNegMassHelix := by
  have hR : (⟨0, 0, 1⟩ : Vec3 ℝ).R realMath = 1 := R_of 0 0 1 1 (by norm_num) (by norm_num)
  have hRho : (⟨3 * (299792458 / 1000000000), 0, 4 * (299792458 / 1000000000)⟩ : Vec3 ℝ).Rho
      realMath = 3 * (299792458 / 1000000000) := Rho_of _ _ _ _ (by norm_num) (by norm_num)
  have hPhi : (⟨3 * (299792458 / 1000000000), 0, 4 * (299792458 / 1000000000)⟩ : Vec3 ℝ).Phi
      realMath = 0 := by
    simp only [Vec3.Phi, realMath_atan2]
    exact atan2_zero_pos _ (by norm_num)
  unfold LHelix.fill exampleNegMassHelix
  simp only [LHelix.setParam, LHelix.omega, LHelix.lam, LHelix.t0, LHelix.paramVal, hR, hRho,
    hPhi, exampleConst, realMath_pi, realMath_rint, PData.zero, Mat3.Inverse]
  congr 1
  · congr 1
    funext i
    fin_cases i <;> simp [Function.update, rad_, lam_, cx_, cy_, phi0_, t0_, realRint_zero] <;>
      first | rfl | norm_num
  · norm_num


/-- The constructor returns the example helix of negative mass. -/
theorem construct_exampleNegMassHelix :
    LHelix.construct realMath exampleConst ⟨0, -3, 0, 0⟩
      ⟨3 * (299792458 / 1000000000), 0, 4 * (299792458 / 1000000000),
        -4 * (299792458 / 1000000000)⟩ (-1) ⟨0, 0, 1⟩ ⟨0, 10⟩ = .ok exampleNegMassHelix := by
  unfold LHelix.construct
  simp only [rot_z_axis 1 (by norm_num)]
  have happ : ∀ v : Vec3 ℝ, (⟨1, 0, 0, 0, 1, 0, 0, 0, 1⟩ : Mat3 ℝ).apply v = v := by
    intro v
    simp [Mat3.apply]
  have happ4 : ∀ v : Vec4 ℝ, (⟨1, 0, 0, 0, 1, 0, 0, 0, 1⟩ : Mat3 ℝ).apply4 v = v := by
    intro v
    simp [Mat3.apply4, happ, Vec4.Vect]
  simp only [happ, happ4, Mom4.Vect, fill_exampleNegMassHelix]
  have hth : (⟨0, 0, 1⟩ : Vec3 ℝ).Theta realMath = 0 := theta_z_axis 1 (by norm_num)
  rw [hth]
  have hpb := exampleNegMassHelix_pbar
  have hrad : exampleNegMassHelix.rad = 3 := rfl
  have hlam : exampleNegMassHelix.lam = 4 := rfl
  have hcx : exampleNegMassHelix.cx = 0 := rfl
  have hcy : exampleNegMassHelix.cy = 0 := rfl
  have hphi0 : exampleNegMassHelix.phi0 = 0 := rfl
  have ht0 : exampleNegMassHelix.t0 = 0 := rfl
  have hl2g : exampleNegMassHelix.l2g_ = ⟨1, 0, 0, 0, 1, 0, 0, 0, 1⟩ := rfl
  have hmass : exampleNegMassHelix.mass_ = -4 * (299792458 / 1000000000) := rfl
  have hmbar : exampleNegMassHelix.mbar_ = -4 := rfl
  have hphi : exampleNegMassHelix.phi realMath exampleConst 0 = 0 := by
    rw [LHelix.phi, LHelix.dphi, ht0, hphi0]
    ring
  have hpos : exampleNegMassHelix.position4 realMath exampleConst ⟨0, -3, 0, 0⟩
      = ⟨0, -3, 0, 0⟩ := by
    have hd : exampleNegMassHelix.dphi realMath exampleConst 0 = 0 := by
      rw [LHelix.dphi, ht0]
      ring
    simp only [LHelix.position4, LHelix.position, hd, hphi0, hcx, hcy, hrad, hlam, hl2g, happ,
      realMath_sin, realMath_cos, add_zero, Real.sin_zero, Real.cos_zero]
    norm_num
  have hmom : exampleNegMassHelix.momentum realMath exampleConst 0
      = .ok ⟨3 * (299792458 / 1000000000), 0, 4 * (299792458 / 1000000000),
        -4 * (299792458 / 1000000000)⟩ := by
    have hsign : exampleNegMassHelix.sign = -1 := by
      simp [LHelix.sign, hmbar]
    rw [momentum_eq, LHelix.betaGamma, hpb, hphi, hsign, hrad, hlam, hl2g, hmass, hmbar]
    simp only [happ, realMath_sin, realMath_cos, Real.sin_zero, Real.cos_zero]
    norm_num [abs_of_pos]
  simp only [hpos, hmom]
  have hz : ∀ v : Vec3 ℝ, (v.sub v).R realMath = 0 := sub_self_R
  simp only [Vec4.Vect, Mom4.Vect, hz]
  norm_num

/-- Counterexample to claim C2 as stated: the helix that the constructor returns for the
4-momentum (3, 0, 4) `cbar` with mass coordinate -4 `cbar`, charge -1 and a field of 1 along z
has `rad = 3`, `lam = 4`, `mbar = -4`, all non-zero, and at time 0 along `momdir` the derivative
of the momentum under the displacement `momDeriv` is not `momentumMag * direction`: the z
components are opposite. -/
theorem momDeriv_consistency_counterexample :
    LHelix.construct realMath exampleConst ⟨0, -3, 0, 0⟩
      ⟨3 * (299792458 / 1000000000), 0, 4 * (299792458 / 1000000000),
        -4 * (299792458 / 1000000000)⟩ (-1) ⟨0, 0, 1⟩ ⟨0, 10⟩ = .ok exampleNegMassHelix ∧
    exampleNegMassHelix.rad ≠ 0 ∧ exampleNegMassHelix.lam ≠ 0 ∧
    exampleNegMassHelix.mbar_ ≠ 0 ∧
    ¬ ∃ (δ : DVEC ℝ) (dir : Vec3 ℝ) (P : ℝ → Mom4 ℝ),
      exampleNegMassHelix.momDeriv realMath exampleConst 0 LocDir.momdir = .ok δ ∧
      exampleNegMassHelix.direction realMath exampleConst 0 LocDir.momdir = .ok dir ∧
      (∀ e, (exampleNegMassHelix.displaced δ e).momentum realMath exampleConst 0 = .ok (P e)) ∧
      HasDerivAt (fun e => (P e).px) (exampleNegMassHelix.momentumMag realMath 0 * dir.x) 0 ∧
      HasDerivAt (fun e => (P e).py) (exampleNegMassHelix.momentumMag realMath 0 * dir.y) 0 ∧
      HasDerivAt (fun e => (P e).pz) (exampleNegMassHelix.momentumMag realMath 0 * dir.z) 0 := by
  have hrad : exampleNegMassHelix.rad = 3 := by
    simp [LHelix.rad, LHelix.paramVal, exampleNegMassHelix, rad_]
  have hlam : exampleNegMassHelix.lam = 4 := by
    simp [LHelix.lam, LHelix.paramVal, exampleNegMassHelix, lam_]
  have hmb : exampleNegMassHelix.mbar_ = -4 := rfl
  have hmass : exampleNegMassHelix.mass_ = -4 * (299792458 / 1000000000) := rfl
  have hsign : exampleNegMassHelix.sign = -1 := by
    simp [LHelix.sign, hmb]
  refine ⟨construct_exampleNegMassHelix, by rw [hrad]; norm_num, by rw [hlam]; norm_num,
    by rw [hmb]; norm_num, ?_⟩
  rintro ⟨δ, dir, P, hδ, hdir, hP, -, -, hz⟩
  have hP' : P = fun e => LHelix.displacedMomentum realMath exampleConst exampleNegMassHelix δ 0 e := by
    funext e
    have := hP e
    rw [momentum_displaced] at this
    exact (Except.ok.inj this).symm
  subst hP'
  obtain ⟨-, -, hz'⟩ := hasDerivAt_displacedMomentum exampleConst exampleNegMassHelix δ 0
    (by rw [hmb]; norm_num) (Or.inl (by rw [hrad]; norm_num))
  have huniq := hz.unique hz'
  have hδ' := Except.ok.inj hδ
  have hdir' := Except.ok.inj hdir
  rw [← hdir', ← hδ'] at huniq
  simp only [vec6_lam, Mat3.apply, exampleNegMassHelix_pbar, hsign, hlam, hrad, hmb, hmass,
    LHelix.momentumMag, LHelix.betaGamma] at huniq
  have hl2g : exampleNegMassHelix.l2g_ = ⟨1, 0, 0, 0, 1, 0, 0, 0, 1⟩ := rfl
  rw [hl2g] at huniq
  norm_num [abs_of_pos, abs_of_neg] at huniq



/-- Witness of claim C2 as amended: the example helix at time 0 along `momdir`. -/
theorem momDeriv_consistency_witness :
    exampleHelix.rad ≠ 0 ∧ exampleHelix.lam ≠ 0 ∧ exampleHelix.mbar_ ≠ 0 ∧
    0 ≤ exampleHelix.mass_ ∧
    ∃ (δ : DVEC ℝ) (dir : Vec3 ℝ) (P : ℝ → Mom4 ℝ),
      exampleHelix.momDeriv realMath exampleConst 0 LocDir.momdir = .ok δ ∧
      exampleHelix.direction realMath exampleConst 0 LocDir.momdir = .ok dir ∧
      (∀ e, (exampleHelix.displaced δ e).momentum realMath exampleConst 0 = .ok (P e)) ∧
      HasDerivAt (fun e => (P e).px) (exampleHelix.momentumMag realMath 0 * dir.x) 0 ∧
      HasDerivAt (fun e => (P e).py) (exampleHelix.momentumMag realMath 0 * dir.y) 0 ∧
      HasDerivAt (fun e => (P e).pz) (exampleHelix.momentumMag realMath 0 * dir.z) 0 := by
  have hrad : exampleHelix.rad ≠ 0 := by
    norm_num [LHelix.rad, LHelix.paramVal, exampleHelix, rad_]
  have hlam : exampleHelix.lam ≠ 0 := by
    norm_num [LHelix.lam, LHelix.paramVal, exampleHelix, lam_]
  have hmb : exampleHelix.mbar_ ≠ 0 := by norm_num [exampleHelix]
  have hmass : 0 ≤ exampleHelix.mass_ := by norm_num [exampleHelix]
  exact ⟨hrad, hlam, hmb, hmass,
    momDeriv_consistency exampleConst exampleHelix 0 LocDir.momdir (Or.inl rfl) hrad hlam hmb
      hmass⟩

/-! ### Hit update: conflicting and missing updaters; charge-time inversion; basis directions -/

omit [LinearOrderedField F] in
/-- The search loop throws exactly when the list holds two or more updaters. -/
theorem findUpdater_many (l : List (AnyUpdater F))
    (h : 2 ≤ (l.filterMap AnyUpdater.castWireHit).length) :
    WireHit.findUpdater l none = .error (.invalid_argument "Multiple WireHitUpdaters found") := by
  rw [findUpdater_spec]
  match hl : l.filterMap AnyUpdater.castWireHit with
  | [] => rw [hl] at h; simp at h
  | [u] => rw [hl] at h; simp at h
  | u :: v :: rest => rfl

omit [LinearOrderedField F] in
/-- The search loop finds nothing when the list holds no updater of wire hits. -/
theorem findUpdater_none (l : List (AnyUpdater F))
    (h : l.filterMap AnyUpdater.castWireHit = []) :
    WireHit.findUpdater l none = .ok none := by
  rw [findUpdater_spec, h]

/-- The only exception `resid` can raise is the POCA failure. -/
theorem resid_raised_cases (M : MathFns F) (hit : WireHit F) (tpoca : TPoca F)
    (res : Residual F) :
    (hit.resid M tpoca res).raised = none ∨
      (hit.resid M tpoca res).raised = some (.runtime_error "POCA failure") := by
  unfold WireHit.resid
  split_ifs
  · left; rfl
  · left; rfl
  · right; rfl

/-- When the search loop returns, the exception of `update` is the one of its call of `resid`. -/
theorem update_raised_of_ok {PKTRAJ : Type} (M : MathFns F)
    (mkTPoca : PKTRAJ → TLine F → TPoca F) (hit : WireHit F) (pktraj : PKTRAJ)
    (mconfig : MConfig F) (residual : Residual F) (w : Option (WireHitUpdater F))
    (hw : WireHit.findUpdater mconfig.hitupdaters_ none = .ok w) :
    ∃ hit1 : WireHit F, (hit.update M mkTPoca pktraj mconfig residual).raised
      = (hit1.resid M (mkTPoca pktraj hit.wire_) residual).raised := by
  simp only [WireHit.update, hw]
  exact ⟨_, rfl⟩

/-- Claim C11: when the list `hitupdaters_` holds two or more `WireHitUpdater` entries, in any
positions among entries of other types, `WireHit::update` raises the `invalid_argument`
exception of the search loop and returns the hit and the residual of the caller unchanged;
with at most one such entry no `invalid_argument` exception is raised, whatever its message. -/
theorem update_conflict {PKTRAJ : Type} (M : MathFns F) (mkTPoca : PKTRAJ → TLine F → TPoca F)
    (hit : WireHit F) (pktraj : PKTRAJ) (mconfig : MConfig F) (residual : Residual F) :
    (2 ≤ (mconfig.hitupdaters_.filterMap AnyUpdater.castWireHit).length →
      (hit.update M mkTPoca pktraj mconfig residual).raised
        = some (.invalid_argument "Multiple WireHitUpdaters found") ∧
      (hit.update M mkTPoca pktraj mconfig residual).hit = hit ∧
      (hit.update M mkTPoca pktraj mconfig residual).residual = residual) ∧
    ((mconfig.hitupdaters_.filterMap AnyUpdater.castWireHit).length ≤ 1 →
      ∀ msg, (hit.update M mkTPoca pktraj mconfig residual).raised
        ≠ some (.invalid_argument msg)) := by
  constructor
  · intro h2
    simp [WireHit.update, findUpdater_many _ h2]
  · intro h1 msg
    have hfind : ∃ w, WireHit.findUpdater mconfig.hitupdaters_ none = .ok w := by
      match hl : mconfig.hitupdaters_.filterMap AnyUpdater.castWireHit with
      | [] => exact ⟨none, findUpdater_none _ hl⟩
      | [u] => exact ⟨some u, findUpdater_single _ u hl⟩
      | u :: v :: rest => rw [hl] at h1; simp at h1
    obtain ⟨w, hw⟩ := hfind
    obtain ⟨hit1, hr⟩ := update_raised_of_ok M mkTPoca hit pktraj mconfig residual w hw
    rw [hr]
    rcases resid_raised_cases M hit1 (mkTPoca pktraj hit.wire_) residual with h0 | h0
    · rw [h0]; simp
    · rw [h0]; simp

/-- Claim C12: when the list `hitupdaters_` holds no `WireHitUpdater` entry, the hit after
`WireHit::update` is the hit before the call, so its ambiguity, null variance and activity are
unchanged, for every closest approach the trajectory gives. -/
theorem update_frozen {PKTRAJ : Type} (M : MathFns F) (mkTPoca : PKTRAJ → TLine F → TPoca F)
    (hit : WireHit F) (pktraj : PKTRAJ) (mconfig : MConfig F) (residual : Residual F)
    (hnone : mconfig.hitupdaters_.filterMap AnyUpdater.castWireHit = []) :
    (hit.update M mkTPoca pktraj mconfig residual).hit = hit ∧
    (hit.update M mkTPoca pktraj mconfig residual).hit.ambig_ = hit.ambig_ ∧
    (hit.update M mkTPoca pktraj mconfig residual).hit.nullvar_ = hit.nullvar_ ∧
    (hit.update M mkTPoca pktraj mconfig residual).hit.active_ = hit.active_ := by
  have h : (hit.update M mkTPoca pktraj mconfig residual).hit = hit := by
    simp only [WireHit.update, findUpdater_none _ hnone]
  rw [h]
  exact ⟨rfl, rfl, rfl, rfl⟩

/-- Claim C14: `direction(time, d)` and `momDeriv(time, d)` raise `invalid_argument` for the
direction value outside `momdir`, `perpdir`, `phidir`, and return a value without an exception
for those three, for every helix and time; every direction value is one of the four. -/
theorem direction_invalid (M : MathFns F) (K : PhysConst F) (h : LHelix F) (time : F)
    (mdir : LocDir) :
    (mdir = LocDir.invalid →
      h.direction M K time mdir = .error (.invalid_argument "Invalid direction") ∧
      h.momDeriv M K time mdir = .error (.invalid_argument "Invalid direction")) ∧
    ((mdir = LocDir.momdir ∨ mdir = LocDir.perpdir ∨ mdir = LocDir.phidir) →
      (∃ v, h.direction M K time mdir = .ok v) ∧ (∃ pder, h.momDeriv M K time mdir = .ok pder)) ∧
    (mdir = LocDir.invalid ∨ mdir = LocDir.momdir ∨ mdir = LocDir.perpdir ∨
      mdir = LocDir.phidir) := by
  cases mdir
  · exact ⟨(fun h => by cases h), (fun _ => ⟨⟨_, rfl⟩, ⟨_, rfl⟩⟩), (by simp)⟩
  · exact ⟨(fun h => by cases h), (fun _ => ⟨⟨_, rfl⟩, ⟨_, rfl⟩⟩), (by simp)⟩
  · exact ⟨(fun h => by cases h), (fun _ => ⟨⟨_, rfl⟩, ⟨_, rfl⟩⟩), (by simp)⟩
  · exact ⟨(fun _ => ⟨rfl, rfl⟩), (fun h => by rcases h with h | h | h <;> cases h), (by simp)⟩

/-- Claim C13: for a helix with `mbar` nonzero, `invertCT()` negates `mbar`, the charge and
`t0`, keeps the other parameters, the mass and the nominal field, and the inverted helix at
time `-t` is at the position of the original helix at time `t`. -/
theorem invertCT_position (M : MathFns F) (K : PhysConst F) (h : LHelix F) (t : F)
    (hmb : h.mbar_ ≠ 0) :
    h.invertCT.position M K (-t) = h.position M K t ∧
    h.invertCT.mbar_ = -h.mbar_ ∧ h.invertCT.charge_ = -h.charge_ ∧
    h.invertCT.t0 = -h.t0 ∧ h.invertCT.rad = h.rad ∧ h.invertCT.lam = h.lam ∧
    h.invertCT.cx = h.cx ∧ h.invertCT.cy = h.cy ∧ h.invertCT.phi0 = h.phi0 ∧
    h.invertCT.mass_ = h.mass_ ∧ h.invertCT.bnom_ = h.bnom_ := by
  have hrad : h.invertCT.rad = h.rad := rfl
  have hlam : h.invertCT.lam = h.lam := rfl
  have hcx : h.invertCT.cx = h.cx := rfl
  have hcy : h.invertCT.cy = h.cy := rfl
  have hphi0 : h.invertCT.phi0 = h.phi0 := rfl
  have ht0 : h.invertCT.t0 = -h.t0 := by
    simp [LHelix.invertCT, LHelix.t0, LHelix.paramVal]
  have hmbar : h.invertCT.mbar_ = -h.mbar_ := by
    simp [LHelix.invertCT]
  have hch : h.invertCT.charge_ = -h.charge_ := by
    simp [LHelix.invertCT]
  have hl2g : h.invertCT.l2g_ = h.l2g_ := rfl
  have hsign : h.invertCT.sign = -h.sign := by
    unfold LHelix.sign
    rw [hmbar]
    rcases lt_or_gt_of_ne hmb with hneg | hpos
    · rw [if_neg (by linarith), if_pos hneg]
      simp
    · rw [if_pos (by linarith), if_neg (by linarith)]
  have hebar : h.invertCT.ebar M = h.ebar M := by
    unfold LHelix.ebar LHelix.ebar2 LHelix.pbar2
    rw [hrad, hlam, hmbar]
    congr 1
    ring
  have hom : h.invertCT.omega M K = -h.omega M K := by
    unfold LHelix.omega
    rw [hsign, hebar]
    ring
  have hdphi : h.invertCT.dphi M K (-t) = h.dphi M K t := by
    unfold LHelix.dphi
    rw [hom, ht0]
    ring
  refine ⟨?_, hmbar, hch, ht0, hrad, hlam, hcx, hcy, hphi0, rfl, rfl⟩
  unfold LHelix.position
  simp only [hdphi, hphi0, hcx, hcy, hrad, hlam, hl2g]

/-! ### Field-correction effect: append and update -/

/-- The function `std::max` is the maximum of the order. -/
theorem stdMax_eq_max (a b : F) : stdMax a b = max a b := by
  unfold stdMax
  split_ifs with h
  · exact (max_eq_right h.le).symm
  · exact (max_eq_left (not_lt.1 h)).symm

/-- The new piece built by `append` from the last piece `last` of `fit`. -/
theorem newPiece_eq {PKTRAJ : Type} (ops : PKTrajOps PKTRAJ F) (e : KKBField F) (fit : PKTRAJ)
    (last : LHelix F) (hback : ops.back fit = some last) :
    KKBField.newPiece ops e fit = some
      ((last.addToParams e.bfeff_.parameters).setRange
        ⟨stdMax e.time (last.range.low + 1 / 100), (ops.range fit).high⟩) := by
  simp only [KKBField.newPiece, hback]

/-- Claim C15: for an active effect and a fit whose last piece is `last`, `append` makes one
call `fit.append(newpiece)`, where the parameter vector of `newpiece` is the one of `last`
plus the stored correction `bfeff_.parameters()`, and the covariance, mass, charge, reduced
mass, nominal field and rotations of `newpiece` are those of `last`. -/
theorem append_parameters {PKTRAJ : Type} (ops : PKTrajOps PKTRAJ F) (e : KKBField F)
    (fit : PKTRAJ) (last : LHelix F) (hact : e.active_ = true)
    (hback : ops.back fit = some last) :
    ∃ newpiece : LHelix F,
      KKBField.newPiece ops e fit = some newpiece ∧
      e.append ops fit = some (ops.append fit newpiece) ∧
      (∀ i, newpiece.pars_.parameters i = last.pars_.parameters i + e.bfeff_.parameters i) ∧
      newpiece.pars_.covariance = last.pars_.covariance ∧
      newpiece.mass_ = last.mass_ ∧ newpiece.charge_ = last.charge_ ∧
      newpiece.mbar_ = last.mbar_ ∧ newpiece.bnom_ = last.bnom_ ∧
      newpiece.l2g_ = last.l2g_ ∧ newpiece.g2l_ = last.g2l_ := by
  refine ⟨_, newPiece_eq ops e fit last hback, ?_, fun i => rfl, rfl, rfl, rfl, rfl, rfl, rfl,
    rfl⟩
  simp only [KKBField.append, hact, if_true, newPiece_eq ops e fit last hback, Option.map_some']

/-- Claim C16, amended: for an active effect and a fit whose last piece is `last`, the piece
that `append` adds has a range whose lower bound is the larger of the effect time and the
START of `last` plus the buffer 0.01, hence strictly after the start of `last`, and whose upper
bound is `fit.range().high()` as it was before the call. -/
theorem append_range {PKTRAJ : Type} (ops : PKTrajOps PKTRAJ F) (e : KKBField F)
    (fit : PKTRAJ) (last : LHelix F) (hact : e.active_ = true)
    (hback : ops.back fit = some last) :
    ∃ newpiece : LHelix F,
      KKBField.newPiece ops e fit = some newpiece ∧
      e.append ops fit = some (ops.append fit newpiece) ∧
      newpiece.range.low = max e.time (last.range.low + 1 / 100) ∧
      last.range.low + 1 / 100 ≤ newpiece.range.low ∧
      last.range.low < newpiece.range.low ∧
      e.time ≤ newpiece.range.low ∧
      newpiece.range.high = (ops.range fit).high := by
  have hlow : ((last.addToParams e.bfeff_.parameters).setRange
      ⟨stdMax e.time (last.range.low + 1 / 100), (ops.range fit).high⟩).range.low
      = max e.time (last.range.low + 1 / 100) := by
    rw [← stdMax_eq_max]
    rfl
  refine ⟨_, newPiece_eq ops e fit last hback, ?_, hlow, ?_, ?_, ?_, rfl⟩
  · simp only [KKBField.append, hact, if_true, newPiece_eq ops e fit last hback,
      Option.map_some']
  · rw [hlow]; exact le_max_right _ _
  · rw [hlow]
    have h1 : last.range.low < last.range.low + 1 / 100 := by
      have : (0 : F) < 1 / 100 := by norm_num
      linarith
    exact lt_of_lt_of_le h1 (le_max_right _ _)
  · rw [hlow]; exact le_max_left _ _

/-- The directions and derivatives read by `update` are returned without an exception. -/
theorem update_eq {PKTRAJ : Type} (ops : PKTrajOps PKTRAJ F) (M : MathFns F)
    (K : PhysConst F) (e : KKBField F) (ref : PKTRAJ) :
    ∃ (t1hat t2hat : Vec3 F) (dpdt1 dpdt2 : DVEC F),
      (ops.nearestPiece ref e.drange_.mid).direction M K e.drange_.mid LocDir.perpdir
        = .ok t1hat ∧
      (ops.nearestPiece ref e.drange_.mid).direction M K e.drange_.mid LocDir.phidir
        = .ok t2hat ∧
      (ops.nearestPiece ref e.drange_.mid).momDeriv M K e.drange_.mid LocDir.perpdir
        = .ok dpdt1 ∧
      (ops.nearestPiece ref e.drange_.mid).momDeriv M K e.drange_.mid LocDir.phidir
        = .ok dpdt2 ∧
      e.update ops M K ref = .ok (KKBField.updateStatus
        { e with bfeff_ := { e.bfeff_ with
            parameters := fun i => e.dpfrac_.Dot t1hat * dpdt1 i
              + e.dpfrac_.Dot t2hat * dpdt2 i } }) :=
  ⟨_, _, _, _, rfl, rfl, rfl, rfl, rfl⟩

/-- Claim C17: `update(ref)` returns without an exception and sets the parameters of the stored
correction to `(dpfrac . t1) * momDeriv(tmid, perpdir) + (dpfrac . t2) * momDeriv(tmid, phidir)`
with `t1`, `t2` the `perpdir` and `phidir` directions of the piece of `ref` nearest the domain
midpoint, keeping the covariance, `dpfrac_`, the activity flag, the domain range and the
field; `update(ref, config)` with `updatebfcorr_` off is `update(ref)`. -/
theorem update_projection {PKTRAJ : Type} (ops : PKTrajOps PKTRAJ F) (M : MathFns F)
    (K : PhysConst F) (e : KKBField F) (ref : PKTRAJ) :
    (∃ (t1 t2 : Vec3 F) (d1 d2 : DVEC F) (e1 : KKBField F),
      (ops.nearestPiece ref e.drange_.mid).direction M K e.drange_.mid LocDir.perpdir = .ok t1 ∧
      (ops.nearestPiece ref e.drange_.mid).direction M K e.drange_.mid LocDir.phidir = .ok t2 ∧
      (ops.nearestPiece ref e.drange_.mid).momDeriv M K e.drange_.mid LocDir.perpdir = .ok d1 ∧
      (ops.nearestPiece ref e.drange_.mid).momDeriv M K e.drange_.mid LocDir.phidir = .ok d2 ∧
      e.update ops M K ref = .ok e1 ∧
      (∀ i, e1.bfeff_.parameters i = e.dpfrac_.Dot t1 * d1 i + e.dpfrac_.Dot t2 * d2 i) ∧
      e1.bfeff_.covariance = e.bfeff_.covariance ∧
      e1.dpfrac_ = e.dpfrac_ ∧ e1.active_ = e.active_ ∧ e1.drange_ = e.drange_ ∧
      e1.bfield_ = e.bfield_) ∧
    ∀ mconfig : MConfig F, mconfig.updatebfcorr_ = false →
      e.updateConfig ops M K ref mconfig = e.update ops M K ref := by
  constructor
  · obtain ⟨t1, t2, d1, d2, h1, h2, h3, h4, h5⟩ := update_eq ops M K e ref
    exact ⟨t1, t2, d1, d2, _, h1, h2, h3, h4, h5, fun i => rfl, rfl, rfl, rfl, rfl, rfl⟩
  · intro mconfig hoff
    simp [KKBField.updateConfig, hoff]

/-- Claim C18: for an effect whose activity flag is false, `process(kkdata, tdir)` returns the
accumulator unchanged in both directions, marks the effect processed for `tdir` and keeps it
inactive, `append(fit)` returns the fit unchanged, and every freshly constructed effect is
inactive. -/
theorem inactive_contributes_nothing {KKDATA PKTRAJ : Type}
    (append : KKDATA → PData F → KKDATA) (ops : PKTrajOps PKTRAJ F) (e : KKBField F)
    (kkdata : KKDATA) (fit : PKTRAJ) (tdir : TDir) (hin : e.active_ = false) :
    (e.process append kkdata tdir).2 = kkdata ∧
    (tdir = TDir.forwards → (e.process append kkdata tdir).1.statusFwd = Status.processed) ∧
    (tdir = TDir.backwards → (e.process append kkdata tdir).1.statusBwd = Status.processed) ∧
    (e.process append kkdata tdir).1.active_ = false ∧
    e.append ops fit = some fit ∧
    ∀ (bfield : BField F) (drange : TRange F), (KKBField.create bfield drange).active_ = false := by
  refine ⟨?_, ?_, ?_, ?_, ?_, fun _ _ => rfl⟩
  · simp [KKBField.process, hin]
  · intro h; subst h; rfl
  · intro h; subst h; rfl
  · cases tdir <;> exact hin
  · simp [KKBField.append, hin]

/-! ### Distortion estimate of the domain splitter -/

theorem displaced_cx (h : LHelix ℝ) (δ : DVEC ℝ) (e : ℝ) :
    (h.displaced δ e).cx = h.cx + e * δ cx_ := rfl
theorem displaced_cy (h : LHelix ℝ) (δ : DVEC ℝ) (e : ℝ) :
    (h.displaced δ e).cy = h.cy + e * δ cy_ := rfl
theorem vec6_cx (a b c d e f : ℝ) : (![a, b, c, d, e, f] : DVEC ℝ) cx_ = c := rfl
theorem vec6_cy (a b c d e f : ℝ) : (![a, b, c, d, e, f] : DVEC ℝ) cy_ = d := rfl

/-- Derivative at zero of the azimuth of the displaced helix. -/
theorem hasDerivAt_displaced_phi (K : PhysConst ℝ) (h : LHelix ℝ) (δ : DVEC ℝ) (t : ℝ)
    (hmb : h.mbar_ ≠ 0) :
    HasDerivAt (fun e : ℝ => (h.displaced δ e).phi realMath K t)
      (-(K.c_light * h.sign * (h.rad * δ rad_ + h.lam * δ lam_) / (h.ebar realMath) ^ 3)
        * (t - h.t0) - h.omega realMath K * δ t0_ + δ phi0_) 0 := by
  have hphi := hasDerivAt_phi K.c_light h.sign h.mbar_ h.rad h.lam h.phi0 h.t0 t
    (δ rad_) (δ lam_) (δ phi0_) (δ t0_) hmb
  have hfun : (fun e : ℝ => (h.displaced δ e).phi realMath K t) = fun e : ℝ =>
      K.c_light * h.sign / Real.sqrt ((h.rad + e * δ rad_) * (h.rad + e * δ rad_)
          + (h.lam + e * δ lam_) * (h.lam + e * δ lam_) + h.mbar_ * h.mbar_)
        * (t - (h.t0 + e * δ t0_)) + (h.phi0 + e * δ phi0_) := by
    funext e; rfl
  rw [hfun]
  exact hphi

/-- Derivative at zero of the azimuth advance of the displaced helix. -/
theorem hasDerivAt_displaced_dphi (K : PhysConst ℝ) (h : LHelix ℝ) (δ : DVEC ℝ) (t : ℝ)
    (hmb : h.mbar_ ≠ 0) :
    HasDerivAt (fun e : ℝ => (h.displaced δ e).dphi realMath K t)
      (-(K.c_light * h.sign * (h.rad * δ rad_ + h.lam * δ lam_) / (h.ebar realMath) ^ 3)
        * (t - h.t0) - h.omega realMath K * δ t0_) 0 := by
  have hphi := hasDerivAt_phi K.c_light h.sign h.mbar_ h.rad h.lam 0 h.t0 t
    (δ rad_) (δ lam_) 0 (δ t0_) hmb
  have hfun : (fun e : ℝ => (h.displaced δ e).dphi realMath K t) = fun e : ℝ =>
      K.c_light * h.sign / Real.sqrt ((h.rad + e * δ rad_) * (h.rad + e * δ rad_)
          + (h.lam + e * δ lam_) * (h.lam + e * δ lam_) + h.mbar_ * h.mbar_)
        * (t - (h.t0 + e * δ t0_)) + (0 + e * 0) := by
    funext e
    rw [mul_zero, add_zero, add_zero]
    rfl
  rw [hfun]
  have := hphi
  rw [add_zero] at this
  exact this

/-- The position of the displaced helix, component by component in the rotated frame. -/
theorem displaced_position (K : PhysConst ℝ) (h : LHelix ℝ) (δ : DVEC ℝ) (t e : ℝ) :
    (h.displaced δ e).position realMath K t = h.l2g_.apply
      ⟨(h.cx + e * δ cx_) + (h.rad + e * δ rad_) * Real.sin ((h.displaced δ e).phi realMath K t),
       (h.cy + e * δ cy_) - (h.rad + e * δ rad_) * Real.cos ((h.displaced δ e).phi realMath K t),
       (h.displaced δ e).dphi realMath K t * (h.lam + e * δ lam_)⟩ := rfl

/-- Derivatives at zero of the components of the position of the displaced helix in the rotated
frame. -/
theorem hasDerivAt_position_local (K : PhysConst ℝ) (h : LHelix ℝ) (δ : DVEC ℝ) (t : ℝ)
    (hmb : h.mbar_ ≠ 0) :
    let dD := -(K.c_light * h.sign * (h.rad * δ rad_ + h.lam * δ lam_) / (h.ebar realMath) ^ 3)
        * (t - h.t0) - h.omega realMath K * δ t0_
    HasDerivAt (fun e : ℝ => (h.cx + e * δ cx_)
        + (h.rad + e * δ rad_) * Real.sin ((h.displaced δ e).phi realMath K t))
      (δ cx_ + (δ rad_ * Real.sin (h.phi realMath K t)
        + h.rad * (Real.cos (h.phi realMath K t) * (dD + δ phi0_)))) 0 ∧
    HasDerivAt (fun e : ℝ => (h.cy + e * δ cy_)
        - (h.rad + e * δ rad_) * Real.cos ((h.displaced δ e).phi realMath K t))
      (δ cy_ - (δ rad_ * Real.cos (h.phi realMath K t)
        + h.rad * (-Real.sin (h.phi realMath K t) * (dD + δ phi0_)))) 0 ∧
    HasDerivAt (fun e : ℝ => (h.displaced δ e).dphi realMath K t * (h.lam + e * δ lam_))
      (dD * h.lam + h.dphi realMath K t * δ lam_) 0 := by
  intro dD
  have hphi := hasDerivAt_displaced_phi K h δ t hmb
  have hdphi := hasDerivAt_displaced_dphi K h δ t hmb
  have hphi0 : (h.displaced δ 0).phi realMath K t = h.phi realMath K t := by
    rw [displaced_zero]
  have hdphi0 : (h.displaced δ 0).dphi realMath K t = h.dphi realMath K t := by
    rw [displaced_zero]
  have hr : HasDerivAt (fun e : ℝ => h.rad + e * δ rad_) (δ rad_) 0 := by
    simpa using ((hasDerivAt_id (0 : ℝ)).mul_const (δ rad_)).const_add h.rad
  have hl : HasDerivAt (fun e : ℝ => h.lam + e * δ lam_) (δ lam_) 0 := by
    simpa using ((hasDerivAt_id (0 : ℝ)).mul_const (δ lam_)).const_add h.lam
  have hcx : HasDerivAt (fun e : ℝ => h.cx + e * δ cx_) (δ cx_) 0 := by
    simpa using ((hasDerivAt_id (0 : ℝ)).mul_const (δ cx_)).const_add h.cx
  have hcy : HasDerivAt (fun e : ℝ => h.cy + e * δ cy_) (δ cy_) 0 := by
    simpa using ((hasDerivAt_id (0 : ℝ)).mul_const (δ cy_)).const_add h.cy
  refine ⟨?_, ?_, ?_⟩
  · have := hcx.add (hr.mul hphi.sin)
    simp only [hphi0, zero_mul, add_zero] at this
    exact this
  · have := hcy.sub (hr.mul hphi.cos)
    simp only [hphi0, zero_mul, add_zero] at this
    exact this
  · have := hdphi.mul hl
    simp only [hdphi0, zero_mul, add_zero] at this
    exact this

/-- Derivative at zero of the position of the displaced helix, given that the three derivatives
in the rotated frame vanish. -/
theorem hasDerivAt_position_zero (K : PhysConst ℝ) (h : LHelix ℝ) (δ : DVEC ℝ) (t : ℝ)
    (hmb : h.mbar_ ≠ 0)
    (hx : δ cx_ + (δ rad_ * Real.sin (h.phi realMath K t)
        + h.rad * (Real.cos (h.phi realMath K t) *
          (-(K.c_light * h.sign * (h.rad * δ rad_ + h.lam * δ lam_) / (h.ebar realMath) ^ 3)
            * (t - h.t0) - h.omega realMath K * δ t0_ + δ phi0_))) = 0)
    (hy : δ cy_ - (δ rad_ * Real.cos (h.phi realMath K t)
        + h.rad * (-Real.sin (h.phi realMath K t) *
          (-(K.c_light * h.sign * (h.rad * δ rad_ + h.lam * δ lam_) / (h.ebar realMath) ^ 3)
            * (t - h.t0) - h.omega realMath K * δ t0_ + δ phi0_))) = 0)
    (hz : (-(K.c_light * h.sign * (h.rad * δ rad_ + h.lam * δ lam_) / (h.ebar realMath) ^ 3)
        * (t - h.t0) - h.omega realMath K * δ t0_) * h.lam + h.dphi realMath K t * δ lam_ = 0) :
    HasDerivAt (fun e => ((h.displaced δ e).position realMath K t).x) 0 0 ∧
    HasDerivAt (fun e => ((h.displaced δ e).position realMath K t).y) 0 0 ∧
    HasDerivAt (fun e => ((h.displaced δ e).position realMath K t).z) 0 0 := by
  obtain ⟨hX, hY, hZ⟩ := hasDerivAt_position_local K h δ t hmb
  rw [hx] at hX
  rw [hy] at hY
  rw [hz] at hZ
  refine ⟨?_, ?_, ?_⟩
  · have hG := ((hX.const_mul h.l2g_.xx).add (hY.const_mul h.l2g_.xy)).add
      (hZ.const_mul h.l2g_.xz)
    simp only [mul_zero, add_zero] at hG
    exact hG
  · have hG := ((hX.const_mul h.l2g_.yx).add (hY.const_mul h.l2g_.yy)).add
      (hZ.const_mul h.l2g_.yz)
    simp only [mul_zero, add_zero] at hG
    exact hG
  · have hG := ((hX.const_mul h.l2g_.zx).add (hY.const_mul h.l2g_.zy)).add
      (hZ.const_mul h.l2g_.zz)
    simp only [mul_zero, add_zero] at hG
    exact hG


/-- Derivative at zero of the reduced momentum under a displacement of radius and wavelength. -/
theorem hasDerivAt_pbar (rad lam a b : ℝ) (hne : rad * rad + lam * lam ≠ 0) :
    HasDerivAt (fun e : ℝ => Real.sqrt ((rad + e * a) * (rad + e * a)
        + (lam + e * b) * (lam + e * b)))
      ((rad * a + lam * b) / Real.sqrt (rad * rad + lam * lam)) 0 := by
  have hr : HasDerivAt (fun e : ℝ => rad + e * a) a 0 := by
    simpa using ((hasDerivAt_id (0 : ℝ)).mul_const a).const_add rad
  have hl : HasDerivAt (fun e : ℝ => lam + e * b) b 0 := by
    simpa using ((hasDerivAt_id (0 : ℝ)).mul_const b).const_add lam
  have h2 := (hr.mul hr).add (hl.mul hl)
  have hs := h2.sqrt (by simpa using hne)
  simp only [zero_mul, add_zero] at hs
  convert hs using 1
  have hpos : 0 < rad * rad + lam * lam :=
    lt_of_le_of_ne (add_nonneg (mul_self_nonneg _) (mul_self_nonneg _)) (Ne.symm hne)
  have h0 : Real.sqrt (rad * rad + lam * lam) ≠ 0 := (Real.sqrt_pos.2 hpos).ne'
  field_simp
  ring

theorem displaced_momentumMag (h : LHelix ℝ) (δ : DVEC ℝ) (t e : ℝ) :
    (h.displaced δ e).momentumMag realMath t =
      |h.mass_| * (Real.sqrt ((h.rad + e * δ rad_) * (h.rad + e * δ rad_)
        + (h.lam + e * δ lam_) * (h.lam + e * δ lam_)) / |h.mbar_|) := by
  rw [LHelix.momentumMag, LHelix.betaGamma, displaced_pbar, displaced_mass, displaced_mbar,
    abs_mul, abs_abs, abs_div, abs_of_nonneg (Real.sqrt_nonneg _)]

/-- A displacement that keeps `rad^2 + lam^2` to first order keeps the momentum magnitude to
first order. -/
theorem hasDerivAt_momentumMag_zero (h : LHelix ℝ) (δ : DVEC ℝ) (t : ℝ)
    (hp : h.rad ≠ 0 ∨ h.lam ≠ 0) (hδ : h.rad * δ rad_ + h.lam * δ lam_ = 0) :
    HasDerivAt (fun e => (h.displaced δ e).momentumMag realMath t) 0 0 := by
  have hne : h.rad * h.rad + h.lam * h.lam ≠ 0 := by
    rcases hp with hr | hl
    · nlinarith [mul_self_pos.2 hr, mul_self_nonneg h.lam]
    · nlinarith [mul_self_pos.2 hl, mul_self_nonneg h.rad]
  have hpb := hasDerivAt_pbar h.rad h.lam (δ rad_) (δ lam_) hne
  rw [hδ, zero_div] at hpb
  have := (hpb.div_const |h.mbar_|).const_mul |h.mass_|
  simp only [zero_div, mul_zero] at this
  have hfun : (fun e => (h.displaced δ e).momentumMag realMath t) = fun e : ℝ =>
      |h.mass_| * (Real.sqrt ((h.rad + e * δ rad_) * (h.rad + e * δ rad_)
        + (h.lam + e * δ lam_) * (h.lam + e * δ lam_)) / |h.mbar_|) := by
    funext e
    exact displaced_momentumMag h δ t e
  rw [hfun]
  exact this

theorem direction_displaced (K : PhysConst ℝ) (h : LHelix ℝ) (δ : DVEC ℝ) (t e : ℝ) :
    (h.displaced δ e).direction realMath K t LocDir.momdir = .ok (LHelix.displacedDirection realMath K h δ t e) := rfl

/-- A displacement that scales radius and wavelength by the same factor and keeps the azimuth
to first order keeps the momentum direction to first order. -/
theorem hasDerivAt_direction_zero (K : PhysConst ℝ) (h : LHelix ℝ) (δ : DVEC ℝ) (t : ℝ)
    (hmb : h.mbar_ ≠ 0) (hp : h.rad ≠ 0 ∨ h.lam ≠ 0)
    (hrad : δ rad_ = h.rad) (hlam : δ lam_ = h.lam)
    (hphi : -(K.c_light * h.sign * (h.rad * δ rad_ + h.lam * δ lam_) / (h.ebar realMath) ^ 3)
        * (t - h.t0) - h.omega realMath K * δ t0_ + δ phi0_ = 0) :
    HasDerivAt (fun e => (LHelix.displacedDirection realMath K h δ t e).x) 0 0 ∧
    HasDerivAt (fun e => (LHelix.displacedDirection realMath K h δ t e).y) 0 0 ∧
    HasDerivAt (fun e => (LHelix.displacedDirection realMath K h δ t e).z) 0 0 := by
  have hne : h.rad * h.rad + h.lam * h.lam ≠ 0 := by
    rcases hp with hr | hl
    · nlinarith [mul_self_pos.2 hr, mul_self_nonneg h.lam]
    · nlinarith [mul_self_pos.2 hl, mul_self_nonneg h.rad]
  have hpos : 0 < h.rad * h.rad + h.lam * h.lam :=
    lt_of_le_of_ne (add_nonneg (mul_self_nonneg _) (mul_self_nonneg _)) (Ne.symm hne)
  have hsq0 : Real.sqrt (h.rad * h.rad + h.lam * h.lam) ≠ 0 := (Real.sqrt_pos.2 hpos).ne'
  have hsq2 : Real.sqrt (h.rad * h.rad + h.lam * h.lam) * Real.sqrt (h.rad * h.rad + h.lam * h.lam)
      = h.rad * h.rad + h.lam * h.lam := Real.mul_self_sqrt hpos.le
  have hpb := hasDerivAt_pbar h.rad h.lam (δ rad_) (δ lam_) hne
  have hinv := (hpb.inv (by simpa using hsq0)).const_mul h.sign
  simp only [zero_mul, add_zero] at hinv
  have hΦ := hasDerivAt_displaced_phi K h δ t hmb
  rw [hphi] at hΦ
  have hphi0 : (h.displaced δ 0).phi realMath K t = h.phi realMath K t := by
    rw [displaced_zero]
  have hr : HasDerivAt (fun e : ℝ => h.rad + e * δ rad_) (δ rad_) 0 := by
    simpa using ((hasDerivAt_id (0 : ℝ)).mul_const (δ rad_)).const_add h.rad
  have hl : HasDerivAt (fun e : ℝ => h.lam + e * δ lam_) (δ lam_) 0 := by
    simpa using ((hasDerivAt_id (0 : ℝ)).mul_const (δ lam_)).const_add h.lam
  -- the three components in the rotated frame
  have hX : HasDerivAt (fun e : ℝ => (h.rad + e * δ rad_)
      * Real.cos ((h.displaced δ e).phi realMath K t)
      * (h.sign / (h.displaced δ e).pbar realMath)) 0 0 := by
    have := (hr.mul hΦ.cos).mul hinv
    simp only [hphi0, zero_mul, add_zero, mul_zero] at this
    have hfun : (fun e : ℝ => (h.rad + e * δ rad_)
        * Real.cos ((h.displaced δ e).phi realMath K t)
        * (h.sign / (h.displaced δ e).pbar realMath)) = fun e : ℝ => (h.rad + e * δ rad_)
        * Real.cos ((h.displaced δ e).phi realMath K t)
        * (h.sign * (Real.sqrt ((h.rad + e * δ rad_) * (h.rad + e * δ rad_)
          + (h.lam + e * δ lam_) * (h.lam + e * δ lam_)))⁻¹) := by
      funext e
      rw [displaced_pbar, div_eq_mul_inv]
    rw [hfun]
    convert this using 1
    rw [hrad, hlam]
    generalize Real.sqrt (h.rad * h.rad + h.lam * h.lam) = E at hsq0 hsq2
    field_simp
    have hrr : h.rad * h.rad = E * E - h.lam * h.lam := by linarith
    rw [hrr]
    ring
  have hY : HasDerivAt (fun e : ℝ => (h.rad + e * δ rad_)
      * Real.sin ((h.displaced δ e).phi realMath K t)
      * (h.sign / (h.displaced δ e).pbar realMath)) 0 0 := by
    have := (hr.mul hΦ.sin).mul hinv
    simp only [hphi0, zero_mul, add_zero, mul_zero] at this
    have hfun : (fun e : ℝ => (h.rad + e * δ rad_)
        * Real.sin ((h.displaced δ e).phi realMath K t)
        * (h.sign / (h.displaced δ e).pbar realMath)) = fun e : ℝ => (h.rad + e * δ rad_)
        * Real.sin ((h.displaced δ e).phi realMath K t)
        * (h.sign * (Real.sqrt ((h.rad + e * δ rad_) * (h.rad + e * δ rad_)
          + (h.lam + e * δ lam_) * (h.lam + e * δ lam_)))⁻¹) := by
      funext e
      rw [displaced_pbar, div_eq_mul_inv]
    rw [hfun]
    convert this using 1
    rw [hrad, hlam]
    generalize Real.sqrt (h.rad * h.rad + h.lam * h.lam) = E at hsq0 hsq2
    field_simp
    have hrr : h.rad * h.rad = E * E - h.lam * h.lam := by linarith
    rw [hrr]
    ring
  have hZ : HasDerivAt (fun e : ℝ => (h.lam + e * δ lam_)
      * (h.sign / (h.displaced δ e).pbar realMath)) 0 0 := by
    have := hl.mul hinv
    simp only [zero_mul, add_zero] at this
    have hfun : (fun e : ℝ => (h.lam + e * δ lam_)
        * (h.sign / (h.displaced δ e).pbar realMath)) = fun e : ℝ => (h.lam + e * δ lam_)
        * (h.sign * (Real.sqrt ((h.rad + e * δ rad_) * (h.rad + e * δ rad_)
          + (h.lam + e * δ lam_) * (h.lam + e * δ lam_)))⁻¹) := by
      funext e
      rw [displaced_pbar, div_eq_mul_inv]
    rw [hfun]
    convert this using 1
    rw [hrad, hlam]
    generalize Real.sqrt (h.rad * h.rad + h.lam * h.lam) = E at hsq0 hsq2
    field_simp
    have hrr : h.rad * h.rad = E * E - h.lam * h.lam := by linarith
    rw [hrr]
    ring
  refine ⟨?_, ?_, ?_⟩
  · have hG := ((hX.const_mul h.l2g_.xx).add (hY.const_mul h.l2g_.xy)).add
      (hZ.const_mul h.l2g_.xz)
    simp only [mul_zero, add_zero] at hG
    exact hG
  · have hG := ((hX.const_mul h.l2g_.yx).add (hY.const_mul h.l2g_.yy)).add
      (hZ.const_mul h.l2g_.yz)
    simp only [mul_zero, add_zero] at hG
    exact hG
  · have hG := ((hX.const_mul h.l2g_.zx).add (hY.const_mul h.l2g_.zy)).add
      (hZ.const_mul h.l2g_.zz)
    simp only [mul_zero, add_zero] at hG
    exact hG


set_option maxHeartbeats 800000 in
/-- The fractional-momentum-change derivative keeps the position and the direction. -/
theorem momDeriv_fixes_momdir (K : PhysConst ℝ) (h : LHelix ℝ) (t : ℝ)
    (hrad : h.rad ≠ 0) (hmb : h.mbar_ ≠ 0) :
    ∃ δ : DVEC ℝ, h.momDeriv realMath K t LocDir.momdir = .ok δ ∧
      (HasDerivAt (fun e => ((h.displaced δ e).position realMath K t).x) 0 0 ∧
        HasDerivAt (fun e => ((h.displaced δ e).position realMath K t).y) 0 0 ∧
        HasDerivAt (fun e => ((h.displaced δ e).position realMath K t).z) 0 0) ∧
      (HasDerivAt (fun e => (LHelix.displacedDirection realMath K h δ t e).x) 0 0 ∧
        HasDerivAt (fun e => (LHelix.displacedDirection realMath K h δ t e).y) 0 0 ∧
        HasDerivAt (fun e => (LHelix.displacedDirection realMath K h δ t e).z) 0 0) := by
  have hp : h.rad ≠ 0 ∨ h.lam ≠ 0 := Or.inl hrad
  have hpb2 := pbar_mul_self h
  have hE := ebar_pos h hmb
  have hE0 : h.ebar realMath ≠ 0 := hE.ne'
  have hdφ : -(K.c_light * h.sign * (h.rad * h.rad + h.lam * h.lam) / (h.ebar realMath) ^ 3)
      * (t - h.t0) - h.omega realMath K * ((t - h.t0) * (1 - h.beta realMath * h.beta realMath))
      + h.omega realMath K * (t - h.t0) = 0 := by
    rw [LHelix.omega, LHelix.beta, ← hpb2]
    field_simp
    ring
  have hdD : -(K.c_light * h.sign * (h.rad * h.rad + h.lam * h.lam) / (h.ebar realMath) ^ 3)
      * (t - h.t0) - h.omega realMath K * ((t - h.t0) * (1 - h.beta realMath * h.beta realMath))
      = -(h.omega realMath K * (t - h.t0)) := by linarith
  have hphi : h.phi realMath K t = h.omega realMath K * (t - h.t0) + h.phi0 := rfl
  refine ⟨_, rfl, ?_, ?_⟩
  · apply hasDerivAt_position_zero K h _ t hmb
    · simp only [vec6_rad, vec6_lam, vec6_cx, vec6_cy, vec6_phi0, vec6_t0, realMath_sin,
        realMath_cos]
      rw [hdφ, ← hphi]
      ring
    · simp only [vec6_rad, vec6_lam, vec6_cx, vec6_cy, vec6_phi0, vec6_t0, realMath_sin,
        realMath_cos]
      rw [hdφ, ← hphi]
      ring
    · simp only [vec6_rad, vec6_lam, vec6_cx, vec6_cy, vec6_phi0, vec6_t0]
      rw [hdD, LHelix.dphi]
      ring
  · apply hasDerivAt_direction_zero K h _ t hmb hp
    · simp only [vec6_rad]
    · simp only [vec6_lam]
    · simp only [vec6_rad, vec6_lam, vec6_phi0, vec6_t0]
      exact hdφ

set_option maxHeartbeats 800000 in
/-- The polar-bend derivative keeps the position and the momentum magnitude. -/
theorem momDeriv_fixes_perpdir (K : PhysConst ℝ) (h : LHelix ℝ) (t : ℝ)
    (hrad : h.rad ≠ 0) (hlam : h.lam ≠ 0) (hmb : h.mbar_ ≠ 0) :
    ∃ δ : DVEC ℝ, h.momDeriv realMath K t LocDir.perpdir = .ok δ ∧
      (HasDerivAt (fun e => ((h.displaced δ e).position realMath K t).x) 0 0 ∧
        HasDerivAt (fun e => ((h.displaced δ e).position realMath K t).y) 0 0 ∧
        HasDerivAt (fun e => ((h.displaced δ e).position realMath K t).z) 0 0) ∧
      HasDerivAt (fun e => (h.displaced δ e).momentumMag realMath t) 0 0 := by
  have hp : h.rad ≠ 0 ∨ h.lam ≠ 0 := Or.inl hrad
  have hE := ebar_pos h hmb
  have hE0 : h.ebar realMath ≠ 0 := hE.ne'
  have hphi : h.phi realMath K t = h.omega realMath K * (t - h.t0) + h.phi0 := rfl
  have hdD : -(K.c_light * h.sign * (h.rad * h.lam + h.lam * -h.rad) / (h.ebar realMath) ^ 3)
      * (t - h.t0) - h.omega realMath K * (-(t - h.t0) * h.rad / h.lam)
      = h.omega realMath K * (t - h.t0) * h.rad / h.lam := by
    field_simp
    ring
  have hdφ : -(K.c_light * h.sign * (h.rad * h.lam + h.lam * -h.rad) / (h.ebar realMath) ^ 3)
      * (t - h.t0) - h.omega realMath K * (-(t - h.t0) * h.rad / h.lam)
      + -h.omega realMath K * (t - h.t0) * h.rad / h.lam = 0 := by
    rw [hdD]
    ring
  refine ⟨_, rfl, ?_, ?_⟩
  · apply hasDerivAt_position_zero K h _ t hmb
    · simp only [vec6_rad, vec6_lam, vec6_cx, vec6_cy, vec6_phi0, vec6_t0, realMath_sin,
        realMath_cos]
      rw [hdφ, ← hphi]
      ring
    · simp only [vec6_rad, vec6_lam, vec6_cx, vec6_cy, vec6_phi0, vec6_t0, realMath_sin,
        realMath_cos]
      rw [hdφ, ← hphi]
      ring
    · simp only [vec6_rad, vec6_lam, vec6_cx, vec6_cy, vec6_phi0, vec6_t0]
      rw [hdD, LHelix.dphi]
      field_simp
  · apply hasDerivAt_momentumMag_zero h _ t hp
    simp only [vec6_rad, vec6_lam]
    ring

set_option maxHeartbeats 800000 in
/-- The azimuthal-bend derivative keeps the position and the momentum magnitude. -/
theorem momDeriv_fixes_phidir (K : PhysConst ℝ) (h : LHelix ℝ) (t : ℝ)
    (hrad : h.rad ≠ 0) (hmb : h.mbar_ ≠ 0) :
    ∃ δ : DVEC ℝ, h.momDeriv realMath K t LocDir.phidir = .ok δ ∧
      (HasDerivAt (fun e => ((h.displaced δ e).position realMath K t).x) 0 0 ∧
        HasDerivAt (fun e => ((h.displaced δ e).position realMath K t).y) 0 0 ∧
        HasDerivAt (fun e => ((h.displaced δ e).position realMath K t).z) 0 0) ∧
      HasDerivAt (fun e => (h.displaced δ e).momentumMag realMath t) 0 0 := by
  have hp : h.rad ≠ 0 ∨ h.lam ≠ 0 := Or.inl hrad
  have hphi : h.phi realMath K t = h.omega realMath K * (t - h.t0) + h.phi0 := rfl
  refine ⟨_, rfl, ?_, ?_⟩
  · apply hasDerivAt_position_zero K h _ t hmb
    · simp only [vec6_rad, vec6_lam, vec6_cx, vec6_cy, vec6_phi0, vec6_t0, realMath_sin,
        realMath_cos]
      rw [← hphi]
      field_simp
      ring
    · simp only [vec6_rad, vec6_lam, vec6_cx, vec6_cy, vec6_phi0, vec6_t0, realMath_sin,
        realMath_cos]
      rw [← hphi]
      field_simp
      ring
    · simp only [vec6_rad, vec6_lam, vec6_cx, vec6_cy, vec6_phi0, vec6_t0]
      ring
  · apply hasDerivAt_momentumMag_zero h _ t hp
    simp only [vec6_rad, vec6_lam]
    ring

/-- Claim C19: for a helix with `rad`, `lam` and `mbar` nonzero and each of the three basis
directions, `momDeriv(t, d)` returns a parameter displacement along which the three components
of `position(t)` have derivative zero; along the `momdir` displacement the three components of
`direction(t, momdir)` have derivative zero as well, and along the `perpdir` and `phidir`
displacements `momentumMag(t)` has derivative zero. -/
theorem momDeriv_keeps_position (K : PhysConst ℝ) (h : LHelix ℝ) (t : ℝ) (d : LocDir)
    (hd : d = LocDir.momdir ∨ d = LocDir.perpdir ∨ d = LocDir.phidir)
    (hrad : h.rad ≠ 0) (hlam : h.lam ≠ 0) (hmb : h.mbar_ ≠ 0) :
    ∃ δ : DVEC ℝ, h.momDeriv realMath K t d = .ok δ ∧
      (HasDerivAt (fun e => ((h.displaced δ e).position realMath K t).x) 0 0 ∧
        HasDerivAt (fun e => ((h.displaced δ e).position realMath K t).y) 0 0 ∧
        HasDerivAt (fun e => ((h.displaced δ e).position realMath K t).z) 0 0) ∧
      (d = LocDir.momdir → ∃ D : ℝ → Vec3 ℝ,
        (∀ e, (h.displaced δ e).direction realMath K t LocDir.momdir = .ok (D e)) ∧
        HasDerivAt (fun e => (D e).x) 0 0 ∧ HasDerivAt (fun e => (D e).y) 0 0 ∧
        HasDerivAt (fun e => (D e).z) 0 0) ∧
      (d = LocDir.perpdir ∨ d = LocDir.phidir →
        HasDerivAt (fun e => (h.displaced δ e).momentumMag realMath t) 0 0) := by
  rcases hd with hd | hd | hd
  · subst hd
    obtain ⟨δ, h1, h2, h3⟩ := momDeriv_fixes_momdir K h t hrad hmb
    refine ⟨δ, h1, h2, fun _ => ⟨LHelix.displacedDirection realMath K h δ t, fun e => direction_displaced K h δ t e, h3⟩, ?_⟩
    intro hc
    rcases hc with hc | hc <;> cases hc
  · subst hd
    obtain ⟨δ, h1, h2, h3⟩ := momDeriv_fixes_perpdir K h t hrad hlam hmb
    exact ⟨δ, h1, h2, (fun hc => by cases hc), fun _ => h3⟩
  · subst hd
    obtain ⟨δ, h1, h2, h3⟩ := momDeriv_fixes_phidir K h t hrad hmb
    exact ⟨δ, h1, h2, (fun hc => by cases hc), fun _ => h3⟩

/-! ### Examples for the field-correction effect, the inversion and the distortion estimate -/

/-- Witness of claim C12: the example hit updated with a configuration that holds one entry of
another type only, at a closest approach of distance 1. -/
theorem update_frozen_witness :
    exampleFrozenConfig.hitupdaters_.filterMap AnyUpdater.castWireHit = [] ∧
    (exampleHit.update realMath (fun (_ : Unit) _ => examplePoca 1 true) ()
        exampleFrozenConfig exampleResidual).hit = exampleHit ∧
    (exampleHit.update realMath (fun (_ : Unit) _ => examplePoca 1 true) ()
        exampleFrozenConfig exampleResidual).hit.ambig_ = exampleHit.ambig_ ∧
    (exampleHit.update realMath (fun (_ : Unit) _ => examplePoca 1 true) ()
        exampleFrozenConfig exampleResidual).hit.nullvar_ = exampleHit.nullvar_ ∧
    (exampleHit.update realMath (fun (_ : Unit) _ => examplePoca 1 true) ()
        exampleFrozenConfig exampleResidual).hit.active_ = exampleHit.active_ :=
  ⟨rfl, update_frozen realMath (fun (_ : Unit) _ => examplePoca 1 true) exampleHit ()
    exampleFrozenConfig exampleResidual rfl⟩

/-- Witness of claim C13: the example helix at time 1. -/
theorem invertCT_position_witness :
    exampleHelix.mbar_ ≠ 0 ∧
    exampleHelix.invertCT.position realMath exampleConst (-1)
      = exampleHelix.position realMath exampleConst 1 ∧
    exampleHelix.invertCT.mbar_ = -exampleHelix.mbar_ ∧
    exampleHelix.invertCT.charge_ = -exampleHelix.charge_ ∧
    exampleHelix.invertCT.t0 = -exampleHelix.t0 ∧
    exampleHelix.invertCT.rad = exampleHelix.rad ∧
    exampleHelix.invertCT.lam = exampleHelix.lam ∧
    exampleHelix.invertCT.cx = exampleHelix.cx ∧
    exampleHelix.invertCT.cy = exampleHelix.cy ∧
    exampleHelix.invertCT.phi0 = exampleHelix.phi0 ∧
    exampleHelix.invertCT.mass_ = exampleHelix.mass_ ∧
    exampleHelix.invertCT.bnom_ = exampleHelix.bnom_ := by
  have hmb : exampleHelix.mbar_ ≠ 0 := by norm_num [exampleHelix]
  exact ⟨hmb, invertCT_position realMath exampleConst exampleHelix 1 hmb⟩

/-- Witness of claim C15: the example effect appended to the example fit. -/
theorem append_parameters_witness :
    exampleEffect.active_ = true ∧ examplePKTrajOps.back exampleFit = some exampleHelix ∧
    ∃ newpiece : LHelix ℝ,
      KKBField.newPiece examplePKTrajOps exampleEffect exampleFit = some newpiece ∧
      exampleEffect.append examplePKTrajOps exampleFit
        = some (examplePKTrajOps.append exampleFit newpiece) ∧
      (∀ i, newpiece.pars_.parameters i
        = exampleHelix.pars_.parameters i + exampleEffect.bfeff_.parameters i) ∧
      newpiece.pars_.covariance = exampleHelix.pars_.covariance ∧
      newpiece.mass_ = exampleHelix.mass_ ∧ newpiece.charge_ = exampleHelix.charge_ ∧
      newpiece.mbar_ = exampleHelix.mbar_ ∧ newpiece.bnom_ = exampleHelix.bnom_ ∧
      newpiece.l2g_ = exampleHelix.l2g_ ∧ newpiece.g2l_ = exampleHelix.g2l_ :=
  ⟨rfl, rfl, append_parameters examplePKTrajOps exampleEffect exampleFit exampleHelix rfl rfl⟩

/-- Witness of claim C16 as amended: the example effect appended to the example fit. -/
theorem append_range_witness :
    exampleEffect.active_ = true ∧ examplePKTrajOps.back exampleFit = some exampleHelix ∧
    ∃ newpiece : LHelix ℝ,
      KKBField.newPiece examplePKTrajOps exampleEffect exampleFit = some newpiece ∧
      exampleEffect.append examplePKTrajOps exampleFit
        = some (examplePKTrajOps.append exampleFit newpiece) ∧
      newpiece.range.low = max exampleEffect.time (exampleHelix.range.low + 1 / 100) ∧
      exampleHelix.range.low + 1 / 100 ≤ newpiece.range.low ∧
      exampleHelix.range.low < newpiece.range.low ∧
      exampleEffect.time ≤ newpiece.range.low ∧
      newpiece.range.high = (examplePKTrajOps.range exampleFit).high :=
  ⟨rfl, rfl, append_range examplePKTrajOps exampleEffect exampleFit exampleHelix rfl rfl⟩

/-- Counterexample to claim C16 as stated: the example effect, active with domain from 0 to 1
and time 0.5, appended to the example fit, whose last piece is valid from 0 to 10: the added
piece starts at 0.5, which is not after the end 10 of the previous last piece. -/
theorem append_range_counterexample :
    exampleEffect.active_ = true ∧ examplePKTrajOps.back exampleFit = some exampleHelix ∧
    exampleHelix.range.high = 10 ∧
    ∃ newpiece : LHelix ℝ,
      KKBField.newPiece examplePKTrajOps exampleEffect exampleFit = some newpiece ∧
      exampleEffect.append examplePKTrajOps exampleFit = some (exampleFit ++ [newpiece]) ∧
      newpiece.range.low = 1 / 2 ∧
      ¬ (exampleHelix.range.high < newpiece.range.low) := by
  have hnew := newPiece_eq examplePKTrajOps exampleEffect exampleFit exampleHelix rfl
  have hlow : stdMax exampleEffect.time (exampleHelix.range.low + 1 / 100) = 1 / 2 := by
    have ht : exampleEffect.time = 1 / 2 := by
      norm_num [KKBField.time, TRange.mid, exampleEffect]
    have hl : exampleHelix.range.low = 0 := rfl
    rw [stdMax_eq_max, ht, hl]
    norm_num
  refine ⟨rfl, rfl, rfl, _, hnew, ?_, ?_, ?_⟩
  · simp only [KKBField.append, hnew, Option.map_some']
    rfl
  · exact hlow
  · have h10 : exampleHelix.range.high = 10 := rfl
    have hl : ((exampleHelix.addToParams exampleEffect.bfeff_.parameters).setRange
        ⟨stdMax exampleEffect.time (exampleHelix.range.low + 1 / 100),
          (examplePKTrajOps.range exampleFit).high⟩).range.low = 1 / 2 := hlow
    rw [h10, hl]
    norm_num

/-- Witness of claim C18: the inactive example effect, processed forwards with an empty list as
accumulator and appended to the example fit. -/
theorem inactive_contributes_nothing_witness :
    exampleInactiveEffect.active_ = false ∧
    (exampleInactiveEffect.process (fun (l : List (PData ℝ)) p => p :: l) [] TDir.forwards).2
      = [] ∧
    (TDir.forwards = TDir.forwards →
      (exampleInactiveEffect.process (fun (l : List (PData ℝ)) p => p :: l) []
        TDir.forwards).1.statusFwd = Status.processed) ∧
    (TDir.forwards = TDir.backwards →
      (exampleInactiveEffect.process (fun (l : List (PData ℝ)) p => p :: l) []
        TDir.forwards).1.statusBwd = Status.processed) ∧
    (exampleInactiveEffect.process (fun (l : List (PData ℝ)) p => p :: l) []
      TDir.forwards).1.active_ = false ∧
    exampleInactiveEffect.append examplePKTrajOps exampleFit = some exampleFit ∧
    ∀ (bfield : BField ℝ) (drange : TRange ℝ), (KKBField.create bfield drange).active_ = false :=
  ⟨rfl, inactive_contributes_nothing (fun (l : List (PData ℝ)) p => p :: l) examplePKTrajOps
    exampleInactiveEffect [] exampleFit TDir.forwards rfl⟩

/-- Witness of claim C19: the example helix at time 0 along `perpdir`. -/
theorem momDeriv_keeps_position_witness :
    exampleHelix.rad ≠ 0 ∧ exampleHelix.lam ≠ 0 ∧ exampleHelix.mbar_ ≠ 0 ∧
    ∃ δ : DVEC ℝ, exampleHelix.momDeriv realMath exampleConst 0 LocDir.perpdir = .ok δ ∧
      (HasDerivAt (fun e => ((exampleHelix.displaced δ e).position realMath exampleConst 0).x)
          0 0 ∧
        HasDerivAt (fun e => ((exampleHelix.displaced δ e).position realMath exampleConst 0).y)
          0 0 ∧
        HasDerivAt (fun e => ((exampleHelix.displaced δ e).position realMath exampleConst 0).z)
          0 0) ∧
      (LocDir.perpdir = LocDir.momdir → ∃ D : ℝ → Vec3 ℝ,
        (∀ e, (exampleHelix.displaced δ e).direction realMath exampleConst 0 LocDir.momdir
          = .ok (D e)) ∧
        HasDerivAt (fun e => (D e).x) 0 0 ∧ HasDerivAt (fun e => (D e).y) 0 0 ∧
        HasDerivAt (fun e => (D e).z) 0 0) ∧
      (LocDir.perpdir = LocDir.perpdir ∨ LocDir.perpdir = LocDir.phidir →
        HasDerivAt (fun e => (exampleHelix.displaced δ e).momentumMag realMath 0) 0 0) := by
  have hrad : exampleHelix.rad ≠ 0 := by
    norm_num [LHelix.rad, LHelix.paramVal, exampleHelix, rad_]
  have hlam : exampleHelix.lam ≠ 0 := by
    norm_num [LHelix.lam, LHelix.paramVal, exampleHelix, lam_]
  have hmb : exampleHelix.mbar_ ≠ 0 := by norm_num [exampleHelix]
  exact ⟨hrad, hlam, hmb,
    momDeriv_keeps_position exampleConst exampleHelix 0 LocDir.perpdir (Or.inr (Or.inl rfl))
      hrad hlam hmb⟩

/-- One call of `update` keeps the cell size, and keeps the null variance between zero and a
third of the squared cell size. -/
theorem update_nullvar_step {PKTRAJ : Type} (M : MathFns F)
    (mkTPoca : PKTRAJ → TLine F → TPoca F) (hit : WireHit F) (pktraj : PKTRAJ)
    (mconfig : MConfig F) (residual : Residual F)
    (hinv : 0 ≤ hit.nullvar_ ∧ hit.nullvar_ ≤ hit.csize_ * hit.csize_ / 3) :
    (hit.update M mkTPoca pktraj mconfig residual).hit.csize_ = hit.csize_ ∧
    0 ≤ (hit.update M mkTPoca pktraj mconfig residual).hit.nullvar_ ∧
    (hit.update M mkTPoca pktraj mconfig residual).hit.nullvar_ ≤ hit.csize_ * hit.csize_ / 3 := by
  unfold WireHit.update
  cases hfind : WireHit.findUpdater mconfig.hitupdaters_ none with
  | error e => exact ⟨rfl, hinv.1, hinv.2⟩
  | ok w =>
    cases w with
    | none => exact ⟨rfl, hinv.1, hinv.2⟩
    | some whu =>
      simp only []
      by_cases hd : |(mkTPoca pktraj hit.wire).doca| > whu.mindoca_
      · simp only [hd, if_true]
        exact ⟨rfl, hinv.1, hinv.2⟩
      · simp only [hd, if_false]
        have hmin : 0 ≤ whu.mindoca_ := le_trans (abs_nonneg _) (not_lt.1 hd)
        refine ⟨rfl, ?_, ?_⟩
        · show 0 ≤ stdMin hit.cellSize whu.mindoca_ * stdMin hit.cellSize whu.mindoca_ / 3
          exact div_nonneg (mul_self_nonneg _) (by norm_num)
        · show stdMin hit.cellSize whu.mindoca_ * stdMin hit.cellSize whu.mindoca_ / 3
            ≤ hit.csize_ * hit.csize_ / 3
          apply div_le_div_of_nonneg_right _ (by norm_num : (0 : F) ≤ 3)
          unfold stdMin WireHit.cellSize
          split_ifs with hlt
          · exact mul_self_le_mul_self hmin hlt.le
          · exact le_refl _

/-- Claim C26: a hit constructed with cell size `c` has null variance `c^2 / 3`, and after any
finite sequence of `update` calls, with arbitrary trajectories (hence closest approaches),
configurations and residual variables, calls that throw included, its null variance is at
least 0 and at most `c^2 / 3`, the value set by the constructor. -/
theorem updateAll_nullvar_bounded {PKTRAJ : Type} (M : MathFns F)
    (mkTPoca : PKTRAJ → TLine F → TPoca F) (bfield : BField F) (wire : TLine F) (d2t : D2T F)
    (c : F) (ambig : LRAmbig) (calls : List (PKTRAJ × MConfig F × Residual F)) :
    (WireHit.create bfield wire d2t c ambig).nullvar_ = c * c / 3 ∧
    0 ≤ (WireHit.updateAll M mkTPoca (WireHit.create bfield wire d2t c ambig) calls).nullvar_ ∧
    (WireHit.updateAll M mkTPoca (WireHit.create bfield wire d2t c ambig) calls).nullvar_
      ≤ c * c / 3 := by
  have hgen : ∀ (calls : List (PKTRAJ × MConfig F × Residual F)) (hit : WireHit F),
      0 ≤ hit.nullvar_ ∧ hit.nullvar_ ≤ hit.csize_ * hit.csize_ / 3 →
      (WireHit.updateAll M mkTPoca hit calls).csize_ = hit.csize_ ∧
      0 ≤ (WireHit.updateAll M mkTPoca hit calls).nullvar_ ∧
      (WireHit.updateAll M mkTPoca hit calls).nullvar_ ≤ hit.csize_ * hit.csize_ / 3 := by
    intro calls
    induction calls with
    | nil => intro hit hinv; exact ⟨rfl, hinv.1, hinv.2⟩
    | cons call rest ih =>
      intro hit hinv
      obtain ⟨hc, h0, h1⟩ := update_nullvar_step M mkTPoca hit call.1 call.2.1 call.2.2 hinv
      have := ih (hit.update M mkTPoca call.1 call.2.1 call.2.2).hit (by rw [hc]; exact ⟨h0, h1⟩)
      rw [hc] at this
      exact this
  have hcreate : (WireHit.create bfield wire d2t c ambig).nullvar_ = c * c / 3 := rfl
  have hcs : (WireHit.create bfield wire d2t c ambig).csize_ = c := rfl
  have h := hgen calls (WireHit.create bfield wire d2t c ambig) (by
    rw [hcreate, hcs]
    exact ⟨div_nonneg (mul_self_nonneg _) (by norm_num), le_refl _⟩)
  rw [hcs] at h
  exact ⟨hcreate, h.2.1, h.2.2⟩

/-- An unusable closest approach makes `update` throw, whatever the configuration. -/
theorem update_raises_of_unusable {PKTRAJ : Type} (M : MathFns F)
    (mkTPoca : PKTRAJ → TLine F → TPoca F) (hit : WireHit F) (pktraj : PKTRAJ)
    (mconfig : MConfig F) (residual : Residual F)
    (hun : (mkTPoca pktraj hit.wire).usable = false) :
    (hit.update M mkTPoca pktraj mconfig residual).raised ≠ none := by
  unfold WireHit.update
  cases hfind : WireHit.findUpdater mconfig.hitupdaters_ none with
  | error e => simp
  | ok w => simp [WireHit.resid, hun]


/-- Claim C23, the code at the failing input: the example hit (null ambiguity, null variance
16/3, active) updated with the example configuration, which holds one `WireHitUpdater(1, 5)`.
With an unusable closest approach of distance 7 the call throws the POCA failure, but the hit
has by then been given the right ambiguity and made inactive; with an unusable closest
approach of distance 1/2 the call throws as well, and the null variance has by then been set
to 1/3.  The hit reads the distance of a closest approach that is not usable. -/
theorem update_unusable_changes_hit :
    exampleHit.ambig_ = LRAmbig.null ∧ exampleHit.active_ = true ∧
    exampleHit.nullvar_ = 16 / 3 ∧
    (exampleHit.update realMath (fun (_ : Unit) _ => examplePoca 7 false) () exampleConfig
      exampleResidual).raised = some (.runtime_error "POCA failure") ∧
    (exampleHit.update realMath (fun (_ : Unit) _ => examplePoca 7 false) () exampleConfig
      exampleResidual).hit.ambig_ = LRAmbig.right ∧
    (exampleHit.update realMath (fun (_ : Unit) _ => examplePoca 7 false) () exampleConfig
      exampleResidual).hit.active_ = false ∧
    (exampleHit.update realMath (fun (_ : Unit) _ => examplePoca (1 / 2) false) () exampleConfig
      exampleResidual).raised = some (.runtime_error "POCA failure") ∧
    (exampleHit.update realMath (fun (_ : Unit) _ => examplePoca (1 / 2) false) () exampleConfig
      exampleResidual).hit.nullvar_ = 1 / 3 := by
  have hfind : WireHit.findUpdater exampleConfig.hitupdaters_ none
      = .ok (some (⟨1, 5⟩ : WireHitUpdater ℝ)) := rfl
  refine ⟨rfl, rfl, ?_, ?_, ?_, ?_, ?_, ?_⟩
  · norm_num [exampleHit, WireHit.create, WireHit.setNullVar]
  · simp [WireHit.update, hfind, WireHit.resid, examplePoca]
  · simp only [WireHit.update, hfind, examplePoca]
    norm_num [WireHit.setAmbig, WireHit.setActivity]
  · simp only [WireHit.update, hfind, examplePoca]
    norm_num [WireHit.setAmbig, WireHit.setActivity]
  · simp [WireHit.update, hfind, WireHit.resid, examplePoca]
  · simp only [WireHit.update, hfind, examplePoca]
    norm_num [WireHit.setAmbig, WireHit.setActivity, WireHit.setNullVar, stdMin,
      WireHit.cellSize, exampleHit, WireHit.create]
    rw [if_neg (by rw [abs_of_pos (by norm_num)]; norm_num)]

/-! ### Local basis, velocity and winding number -/

/-- The magnitude of the image of a vector under a matrix that keeps scalar products. -/
theorem apply_R_of_dot (m : Mat3 ℝ) (hrot : ∀ u v : Vec3 ℝ, (m.apply u).Dot (m.apply v) = u.Dot v)
    (u : Vec3 ℝ) : (m.apply u).R realMath = u.R realMath := by
  have h := hrot u u
  simp only [Vec3.R, realMath_sqrt, Vec3.Mag2]
  simp only [Vec3.Dot] at h
  rw [h]

/-- A positive squared reduced momentum means a non-zero radius or wavelength. -/
theorem pbar2_pos_iff (h : LHelix ℝ) (hp : 0 < h.rad * h.rad + h.lam * h.lam) :
    h.rad ≠ 0 ∨ h.lam ≠ 0 := by
  by_contra hc
  push_neg at hc
  rw [hc.1, hc.2] at hp
  simp at hp

/-- The three local basis vectors before the rotation `l2g_` are orthonormal. -/
theorem local_basis_orthonormal (K : PhysConst ℝ) (h : LHelix ℝ) (t : ℝ)
    (hp : 0 < h.rad * h.rad + h.lam * h.lam) :
    (Vec3.Dot (⟨h.rad * Real.cos (h.phi realMath K t) * (h.sign / h.pbar realMath),
        h.rad * Real.sin (h.phi realMath K t) * (h.sign / h.pbar realMath),
        h.lam * (h.sign / h.pbar realMath)⟩ : Vec3 ℝ)
      ⟨h.rad * Real.cos (h.phi realMath K t) * (h.sign / h.pbar realMath),
        h.rad * Real.sin (h.phi realMath K t) * (h.sign / h.pbar realMath),
        h.lam * (h.sign / h.pbar realMath)⟩ = 1) ∧
    (Vec3.Dot (⟨h.lam * Real.cos (h.phi realMath K t) * (h.sign / h.pbar realMath),
        h.lam * Real.sin (h.phi realMath K t) * (h.sign / h.pbar realMath),
        -h.rad * (h.sign / h.pbar realMath)⟩ : Vec3 ℝ)
      ⟨h.lam * Real.cos (h.phi realMath K t) * (h.sign / h.pbar realMath),
        h.lam * Real.sin (h.phi realMath K t) * (h.sign / h.pbar realMath),
        -h.rad * (h.sign / h.pbar realMath)⟩ = 1) ∧
    (Vec3.Dot (⟨-Real.sin (h.phi realMath K t), Real.cos (h.phi realMath K t), 0⟩ : Vec3 ℝ)
      ⟨-Real.sin (h.phi realMath K t), Real.cos (h.phi realMath K t), 0⟩ = 1) ∧
    (Vec3.Dot (⟨h.rad * Real.cos (h.phi realMath K t) * (h.sign / h.pbar realMath),
        h.rad * Real.sin (h.phi realMath K t) * (h.sign / h.pbar realMath),
        h.lam * (h.sign / h.pbar realMath)⟩ : Vec3 ℝ)
      ⟨h.lam * Real.cos (h.phi realMath K t) * (h.sign / h.pbar realMath),
        h.lam * Real.sin (h.phi realMath K t) * (h.sign / h.pbar realMath),
        -h.rad * (h.sign / h.pbar realMath)⟩ = 0) ∧
    (Vec3.Dot (⟨h.rad * Real.cos (h.phi realMath K t) * (h.sign / h.pbar realMath),
        h.rad * Real.sin (h.phi realMath K t) * (h.sign / h.pbar realMath),
        h.lam * (h.sign / h.pbar realMath)⟩ : Vec3 ℝ)
      ⟨-Real.sin (h.phi realMath K t), Real.cos (h.phi realMath K t), 0⟩ = 0) ∧
    (Vec3.Dot (⟨h.lam * Real.cos (h.phi realMath K t) * (h.sign / h.pbar realMath),
        h.lam * Real.sin (h.phi realMath K t) * (h.sign / h.pbar realMath),
        -h.rad * (h.sign / h.pbar realMath)⟩ : Vec3 ℝ)
      ⟨-Real.sin (h.phi realMath K t), Real.cos (h.phi realMath K t), 0⟩ = 0) := by
  have hpb := pbar_pos h (pbar2_pos_iff h hp)
  have hpb0 : h.pbar realMath ≠ 0 := hpb.ne'
  have hpb2 := pbar_mul_self h
  have hss := sign_mul_self h
  have hsc := Real.sin_sq_add_cos_sq (h.phi realMath K t)
  generalize Real.sin (h.phi realMath K t) = sn at hsc
  generalize Real.cos (h.phi realMath K t) = cs at hsc
  generalize h.pbar realMath = pb at hpb hpb0 hpb2
  generalize h.sign = s at hss
  simp only [Vec3.Dot]
  refine ⟨?_, ?_, ?_, ?_, ?_, ?_⟩
  · field_simp
    linear_combination (h.rad * h.rad * s * s) * hsc + (h.rad * h.rad + h.lam * h.lam) * hss
      - hpb2
  · field_simp
    linear_combination (h.lam * h.lam * s * s) * hsc + (h.rad * h.rad + h.lam * h.lam) * hss
      - hpb2
  · linear_combination hsc
  · field_simp
    linear_combination (h.rad * h.lam * s * s) * hsc
  · ring
  · ring

/-- Claim C24: for a helix with `rad^2 + lam^2 > 0` (whatever its `mbar`) whose member `l2g_`
keeps scalar products, as every `Rotation3D` does, and every time `t`, the three calls
`direction(t, momdir)`, `direction(t, perpdir)`, `direction(t, phidir)` return vectors of
magnitude 1 that are pairwise orthogonal. -/
theorem direction_orthonormal (K : PhysConst ℝ) (h : LHelix ℝ) (t : ℝ)
    (hp : 0 < h.rad * h.rad + h.lam * h.lam)
    (hrot : ∀ u v : Vec3 ℝ, (h.l2g_.apply u).Dot (h.l2g_.apply v) = u.Dot v) :
    ∃ m p f : Vec3 ℝ,
      h.direction realMath K t LocDir.momdir = .ok m ∧
      h.direction realMath K t LocDir.perpdir = .ok p ∧
      h.direction realMath K t LocDir.phidir = .ok f ∧
      m.R realMath = 1 ∧ p.R realMath = 1 ∧ f.R realMath = 1 ∧
      m.Dot p = 0 ∧ m.Dot f = 0 ∧ p.Dot f = 0 := by
  obtain ⟨h1, h2, h3, h4, h5, h6⟩ := local_basis_orthonormal K h t hp
  have hR : ∀ u : Vec3 ℝ, u.Dot u = 1 → (h.l2g_.apply u).R realMath = 1 := by
    intro u hu
    rw [apply_R_of_dot _ hrot]
    simp only [Vec3.R, realMath_sqrt, Vec3.Mag2]
    simp only [Vec3.Dot] at hu
    rw [hu, Real.sqrt_one]
  refine ⟨_, _, _, rfl, rfl, rfl, ?_, ?_, ?_, ?_, ?_, ?_⟩
  · exact hR _ h1
  · exact hR _ h2
  · exact hR _ h3
  · rw [hrot]; exact h4
  · rw [hrot]; exact h5
  · rw [hrot]; exact h6


/-- Every helix the constructor returns is the one filled in the rotated frame. -/
theorem construct_ok_eq_fill (M : MathFns F) (K : PhysConst F) (pos0 : Vec4 F) (mom0 : Mom4 F)
    (charge : Int) (bnom : Vec3 F) (trange : TRange F) (h : LHelix F)
    (hok : LHelix.construct M K pos0 mom0 charge bnom trange = .ok h) :
    h = LHelix.fill M K
      (Mat3.ofAxisAngle M ⟨M.sin (bnom.Phi M), -M.cos (bnom.Phi M), 0⟩ (bnom.Theta M))
      ((Mat3.ofAxisAngle M ⟨M.sin (bnom.Phi M), -M.cos (bnom.Phi M), 0⟩ (bnom.Theta M)).apply4
        pos0)
      ((Mat3.ofAxisAngle M ⟨M.sin (bnom.Phi M), -M.cos (bnom.Phi M), 0⟩ (bnom.Theta M)).apply
        mom0.Vect) mom0.m charge bnom trange := by
  unfold LHelix.construct at hok
  simp only [] at hok
  split_ifs at hok with h1
  split at hok
  · exact absurd hok (by simp)
  · split_ifs at hok with h2
    exact (Except.ok.inj hok).symm

/-- Scalar product with the image under a matrix, moved to the transposed matrix. -/
theorem dot_apply_transpose (A : Mat3 ℝ) (u w : Vec3 ℝ) :
    (A.apply u).Dot w = u.Dot (A.Inverse.apply w) := by
  simp only [Mat3.apply, Mat3.Inverse, Vec3.Dot]
  ring

/-- The rotation by the opposite angle is the transposed matrix. -/
theorem ofAxisAngle_neg (a : Vec3 ℝ) (q : ℝ) :
    Mat3.ofAxisAngle realMath a (-q) = (Mat3.ofAxisAngle realMath a q).Inverse := by
  simp only [Mat3.ofAxisAngle, Mat3.Inverse, realMath_sin, realMath_cos, Real.sin_neg,
    Real.cos_neg, Mat3.mk.injEq]
  refine ⟨?_, ?_, ?_, ?_, ?_, ?_, ?_, ?_, ?_⟩ <;> first | trivial | ring

/-- The inverse of the rotation built by the constructor keeps scalar products. -/
theorem rot_inverse_dot (p q : ℝ) (u v : Vec3 ℝ) :
    ((Mat3.ofAxisAngle realMath ⟨Real.sin p, -Real.cos p, 0⟩ q).Inverse.apply u).Dot
      ((Mat3.ofAxisAngle realMath ⟨Real.sin p, -Real.cos p, 0⟩ q).Inverse.apply v) = u.Dot v := by
  rw [← ofAxisAngle_neg, dot_apply_transpose, rot_inverse_apply]

/-- The rotation `l2g_` of every helix the constructor returns keeps scalar products. -/
theorem construct_l2g_dot (K : PhysConst ℝ) (pos0 : Vec4 ℝ) (mom0 : Mom4 ℝ)
    (charge : Int) (bnom : Vec3 ℝ) (trange : TRange ℝ) (h : LHelix ℝ)
    (hok : LHelix.construct realMath K pos0 mom0 charge bnom trange = .ok h) (u v : Vec3 ℝ) :
    (h.l2g_.apply u).Dot (h.l2g_.apply v) = u.Dot v := by
  rw [construct_ok_eq_fill realMath K pos0 mom0 charge bnom trange h hok, fill_l2g]
  simp only [realMath_sin, realMath_cos]
  exact rot_inverse_dot _ _ u v

/-- Derivative of the position in the rotated frame with respect to time. -/
theorem hasDerivAt_position_time (K : PhysConst ℝ) (h : LHelix ℝ) (t : ℝ) :
    HasDerivAt (fun s => h.cx + h.rad * Real.sin (h.phi realMath K s))
      (h.rad * (Real.cos (h.phi realMath K t) * h.omega realMath K)) t ∧
    HasDerivAt (fun s => h.cy - h.rad * Real.cos (h.phi realMath K s))
      (h.rad * (Real.sin (h.phi realMath K t) * h.omega realMath K)) t ∧
    HasDerivAt (fun s => h.dphi realMath K s * h.lam) (h.omega realMath K * h.lam) t := by
  have hd : HasDerivAt (fun s => h.dphi realMath K s) (h.omega realMath K) t := by
    have := ((hasDerivAt_id t).sub_const h.t0).const_mul (h.omega realMath K)
    simpa [LHelix.dphi] using this
  have hphi : HasDerivAt (fun s => h.phi realMath K s) (h.omega realMath K) t := by
    have := hd.add_const h.phi0
    simpa [LHelix.phi] using this
  refine ⟨?_, ?_, ?_⟩
  · have := (hphi.sin.const_mul h.rad).const_add h.cx
    exact this
  · have := (hphi.cos.const_mul h.rad).const_sub h.cy
    convert this using 1
    ring
  · exact hd.mul_const h.lam

/-- Claim C25: for a helix with `rad^2 + lam^2 > 0` and `mbar` nonzero whose rotation `l2g_`
keeps scalar products, with a positive speed of light, and every time `t`: `velocity(t)`
returns a vector whose components are the time derivatives of the components of `position`
at `t`, whose magnitude is `speed(t)`, and `speed(t) = c_light * beta()` is at least 0 and
strictly below `c_light`. -/
theorem velocity_is_position_derivative (K : PhysConst ℝ) (h : LHelix ℝ) (t : ℝ)
    (hp : 0 < h.rad * h.rad + h.lam * h.lam) (hmb : h.mbar_ ≠ 0) (hc : 0 < K.c_light)
    (hrot : ∀ u v : Vec3 ℝ, (h.l2g_.apply u).Dot (h.l2g_.apply v) = u.Dot v) :
    ∃ vel : Vec3 ℝ, h.velocity realMath K t = .ok vel ∧
      HasDerivAt (fun s => (h.position realMath K s).x) vel.x t ∧
      HasDerivAt (fun s => (h.position realMath K s).y) vel.y t ∧
      HasDerivAt (fun s => (h.position realMath K s).z) vel.z t ∧
      vel.R realMath = h.speed realMath K t ∧
      h.speed realMath K t = K.c_light * h.beta realMath ∧
      0 ≤ h.speed realMath K t ∧ h.speed realMath K t < K.c_light := by
  have hpb := pbar_pos h (pbar2_pos_iff h hp)
  have hpb0 : h.pbar realMath ≠ 0 := hpb.ne'
  have hE := ebar_pos h hmb
  have hE0 : h.ebar realMath ≠ 0 := hE.ne'
  have hpb2 := pbar_mul_self h
  have hE2 : h.ebar realMath * h.ebar realMath = h.rad * h.rad + h.lam * h.lam
      + h.mbar_ * h.mbar_ := by
    rw [LHelix.ebar, realMath_sqrt, LHelix.ebar2, LHelix.pbar2]
    exact Real.mul_self_sqrt
      (add_nonneg (add_nonneg (mul_self_nonneg _) (mul_self_nonneg _)) (mul_self_nonneg _))
  have hlt : h.pbar realMath < h.ebar realMath := by
    have hm2 : 0 < h.mbar_ * h.mbar_ := mul_self_pos.2 hmb
    nlinarith
  have hbeta0 : 0 ≤ h.beta realMath := div_nonneg hpb.le hE.le
  have hbeta1 : h.beta realMath < 1 := by
    rw [LHelix.beta, div_lt_one hE]
    exact hlt
  have hspd0 : 0 ≤ h.speed realMath K t := mul_nonneg hc.le hbeta0
  have hspd1 : h.speed realMath K t < K.c_light := by
    have : K.c_light * h.beta realMath < K.c_light * 1 := mul_lt_mul_of_pos_left hbeta1 hc
    simpa [LHelix.speed] using this
  -- speed times the signed inverse momentum is the rotational velocity
  have hom : h.speed realMath K t * (h.sign / h.pbar realMath) = h.omega realMath K := by
    rw [LHelix.speed, LHelix.beta, LHelix.omega]
    field_simp
    ring
  obtain ⟨hX, hY, hZ⟩ := hasDerivAt_position_time K h t
  obtain ⟨h1, -, -, -, -, -⟩ := local_basis_orthonormal K h t hp
  refine ⟨_, velocity_eq realMath K h t, ?_, ?_, ?_, ?_, rfl, hspd0, hspd1⟩
  · have hG := ((hX.const_mul h.l2g_.xx).add (hY.const_mul h.l2g_.xy)).add
      (hZ.const_mul h.l2g_.xz)
    convert hG using 1
    simp only [Vec3.smul, Mat3.apply, realMath_cos, realMath_sin]
    rw [← hom]
    ring_nf
  · have hG := ((hX.const_mul h.l2g_.yx).add (hY.const_mul h.l2g_.yy)).add
      (hZ.const_mul h.l2g_.yz)
    convert hG using 1
    simp only [Vec3.smul, Mat3.apply, realMath_cos, realMath_sin]
    rw [← hom]
    ring_nf
  · have hG := ((hX.const_mul h.l2g_.zx).add (hY.const_mul h.l2g_.zy)).add
      (hZ.const_mul h.l2g_.zz)
    convert hG using 1
    simp only [Vec3.smul, Mat3.apply, realMath_cos, realMath_sin]
    rw [← hom]
    ring_nf
  · -- magnitude
    have hmag : ∀ (c : ℝ) (w : Vec3 ℝ), 0 ≤ c → w.Dot w = 1 →
        (Vec3.smul c (h.l2g_.apply w)).R realMath = c := by
      intro c w hc0 hw
      have hd := hrot w w
      rw [hw] at hd
      simp only [Vec3.Dot] at hd
      simp only [Vec3.R, realMath_sqrt, Vec3.Mag2, Vec3.smul]
      have : c * (h.l2g_.apply w).x * (c * (h.l2g_.apply w).x)
          + c * (h.l2g_.apply w).y * (c * (h.l2g_.apply w).y)
          + c * (h.l2g_.apply w).z * (c * (h.l2g_.apply w).z) = c * c := by
        linear_combination (c * c) * hd
      rw [this]
      exact Real.sqrt_mul_self hc0
    simp only [realMath_cos, realMath_sin]
    exact hmag _ _ hspd0 h1


/-- The step of `rangeInTolerance` for a positive tolerance and a positive scaling factor, case
by case: the first estimate is used only when the field difference exceeds 0.0001 and is
replaced by the default 0.1 otherwise; the second estimate is infinite when the field
derivative vanishes. -/
theorem tolStep_value (K : PhysConst ℝ) (h : LHelix ℝ) (low tol : ℝ) (bfield : BField ℝ)
    (vel : Vec3 ℝ) (htol : 0 < tol) (hs : 0 < h.tolSfac realMath K low) :
    h.tolStep realMath K low bfield tol vel = .fin
      (if (bfield.fieldDeriv (h.position realMath K low) vel).R realMath = 0 then
        (if ((bfield.fieldVect (h.position realMath K low)).sub h.bnom_).R realMath > 1 / 10000
          then 2 / 10 * Real.sqrt (tol / (h.tolSfac realMath K low *
            ((bfield.fieldVect (h.position realMath K low)).sub h.bnom_).R realMath))
          else 1 / 10)
      else min
        (if ((bfield.fieldVect (h.position realMath K low)).sub h.bnom_).R realMath > 1 / 10000
          then 2 / 10 * Real.sqrt (tol / (h.tolSfac realMath K low *
            ((bfield.fieldVect (h.position realMath K low)).sub h.bnom_).R realMath))
          else 1 / 10)
        (5 / 10 * realCbrt (tol / (h.tolSfac realMath K low *
          (bfield.fieldDeriv (h.position realMath K low) vel).R realMath)))) := by
  unfold LHelix.tolStep
  simp only []
  set sfac := h.tolSfac realMath K low
  set db := ((bfield.fieldVect (h.position realMath K low)).sub h.bnom_).R realMath
  set g := (bfield.fieldDeriv (h.position realMath K low) vel).R realMath
  have hg : 0 ≤ g := R_nonneg _
  have h1 : (if db > 1 / 10000 then
        Ext.scale (2 / 10) (Ext.sqrt realMath (Ext.div tol (sfac * db)))
       else Ext.fin (1 / 10)) = Ext.fin (if db > 1 / 10000
          then 2 / 10 * Real.sqrt (tol / (sfac * db)) else 1 / 10) := by
    split_ifs with hdb
    · have hdbpos : 0 < db := lt_trans (by norm_num) hdb
      have hq : 0 < tol / (sfac * db) := div_pos htol (mul_pos hs hdbpos)
      simp [Ext.div, (mul_pos hs hdbpos).ne', Ext.sqrt, not_lt.2 hq.le, Ext.scale]
    · rfl
  rw [h1]
  generalize (if db > 1 / 10000 then 2 / 10 * Real.sqrt (tol / (sfac * db)) else 1 / 10) = e1
  rcases hg.lt_or_eq with hgpos | hgzero
  · have he2 : Ext.scale (5 / 10) (Ext.cbrt realMath (Ext.div tol (sfac * g)))
        = Ext.fin (5 / 10 * realCbrt (tol / (sfac * g))) := by
      simp [Ext.div, (mul_pos hs hgpos).ne', Ext.cbrt, Ext.scale, realMath]
    rw [he2, if_neg hgpos.ne']
    unfold Ext.min Ext.lt
    simp only [decide_eq_true_eq]
    split_ifs with hlt
    · rw [min_eq_right hlt.le]
    · rw [min_eq_left (not_lt.1 hlt)]
  · rw [if_pos hgzero.symm]
    simp [Ext.div, ← hgzero, htol, Ext.cbrt, Ext.scale, Ext.min, Ext.lt]


/-- Claim C21, amended: for a positive tolerance and a helix with non-zero momentum and nominal
field, the step `s` of `rangeInTolerance` is a positive number and every returned range is
`low` to `low + n * s`.  With `db` the field difference at the start point and `g` the
magnitude of the field derivative along the velocity there, the first estimate
`e1 = 0.2 * sqrt(tol / (sfac * db))` is used only when `db > 0.0001` and is replaced by the
default `0.1` otherwise; the second estimate `e2 = 0.5 * cbrt(tol / (sfac * g))` is infinite
when `g = 0`.  The step is the smaller of the first value and `e2`: it never exceeds `e2`, and
it never exceeds `e1` when `db > 0.0001`. -/
theorem tolStep_choice (K : PhysConst ℝ) (h : LHelix ℝ) (drange : TRange ℝ)
    (bfield : BField ℝ) (tol : ℝ) (htol : 0 < tol) (hc : K.c_light ≠ 0)
    (hB : h.bnom_ ≠ ⟨0, 0, 0⟩) (hp : h.rad ≠ 0 ∨ h.lam ≠ 0) :
    ∃ (vel : Vec3 ℝ) (s : ℝ),
      h.velocity realMath K drange.low = .ok vel ∧
      h.tolStep realMath K drange.low bfield tol vel = .fin s ∧ 0 < s ∧
      (∀ (fuel : Nat) (r : TRange ℝ) (dx : ℝ) (n : Nat),
        h.rangeInTolerance realMath K fuel drange bfield tol = .done r dx n →
        r = ⟨drange.low, drange.low + (n : ℝ) * s⟩) ∧
      (((bfield.fieldVect (h.position realMath K drange.low)).sub h.bnom_).R realMath > 1 / 10000 →
        s ≤ 2 / 10 * Real.sqrt (tol / (h.tolSfac realMath K drange.low *
          ((bfield.fieldVect (h.position realMath K drange.low)).sub h.bnom_).R realMath))) ∧
      (((bfield.fieldVect (h.position realMath K drange.low)).sub h.bnom_).R realMath ≤ 1 / 10000 →
        s ≤ 1 / 10) ∧
      ((bfield.fieldDeriv (h.position realMath K drange.low) vel).R realMath ≠ 0 →
        s ≤ 5 / 10 * realCbrt (tol / (h.tolSfac realMath K drange.low *
          (bfield.fieldDeriv (h.position realMath K drange.low) vel).R realMath))) ∧
      (((bfield.fieldVect (h.position realMath K drange.low)).sub h.bnom_).R realMath > 1 / 10000 →
        (bfield.fieldDeriv (h.position realMath K drange.low) vel).R realMath ≠ 0 →
        s = min (2 / 10 * Real.sqrt (tol / (h.tolSfac realMath K drange.low *
          ((bfield.fieldVect (h.position realMath K drange.low)).sub h.bnom_).R realMath)))
          (5 / 10 * realCbrt (tol / (h.tolSfac realMath K drange.low *
          (bfield.fieldDeriv (h.position realMath K drange.low) vel).R realMath)))) ∧
      (((bfield.fieldVect (h.position realMath K drange.low)).sub h.bnom_).R realMath > 1 / 10000 →
        (bfield.fieldDeriv (h.position realMath K drange.low) vel).R realMath = 0 →
        s = 2 / 10 * Real.sqrt (tol / (h.tolSfac realMath K drange.low *
          ((bfield.fieldVect (h.position realMath K drange.low)).sub h.bnom_).R realMath))) ∧
      (((bfield.fieldVect (h.position realMath K drange.low)).sub h.bnom_).R realMath ≤ 1 / 10000 →
        (bfield.fieldDeriv (h.position realMath K drange.low) vel).R realMath ≠ 0 →
        s = min (1 / 10) (5 / 10 * realCbrt (tol / (h.tolSfac realMath K drange.low *
          (bfield.fieldDeriv (h.position realMath K drange.low) vel).R realMath)))) ∧
      (((bfield.fieldVect (h.position realMath K drange.low)).sub h.bnom_).R realMath ≤ 1 / 10000 →
        (bfield.fieldDeriv (h.position realMath K drange.low) vel).R realMath = 0 →
        s = 1 / 10) := by
  have hs := tolSfac_pos K h drange.low hc hB hp
  obtain ⟨s, hspos, hstep⟩ := tolStep_pos K h drange.low tol bfield
    (Vec3.smul (h.speed realMath K drange.low)
    (h.l2g_.apply ⟨h.rad * realMath.cos (h.phi realMath K drange.low) * (h.sign / h.pbar realMath),
      h.rad * realMath.sin (h.phi realMath K drange.low) * (h.sign / h.pbar realMath),
      h.lam * (h.sign / h.pbar realMath)⟩)) htol hs
  have hval := tolStep_value K h drange.low tol bfield
    (Vec3.smul (h.speed realMath K drange.low)
    (h.l2g_.apply ⟨h.rad * realMath.cos (h.phi realMath K drange.low) * (h.sign / h.pbar realMath),
      h.rad * realMath.sin (h.phi realMath K drange.low) * (h.sign / h.pbar realMath),
      h.lam * (h.sign / h.pbar realMath)⟩)) htol hs
  rw [hstep] at hval
  have hv := Ext.fin.inj hval
  refine ⟨_, s, velocity_eq realMath K h drange.low, hstep, hspos, ?_, ?_, ?_, ?_, ?_, ?_, ?_,
    ?_⟩
  · intro fuel r dx n hdone
    rw [LHelix.rangeInTolerance, velocity_eq] at hdone
    simp only [hstep] at hdone
    exact (tolLoop_done realMath K h drange.low bfield tol
      (h.tolSfac realMath K drange.low) s fuel 0 r dx n
      (by simpa [LHelix.tolDx] using hdone)).2.1
  · intro hdb
    rw [hv]
    split_ifs with hg
    · exact le_refl _
    · exact min_le_left _ _
  · intro hdb
    rw [hv, if_neg (not_lt.2 hdb)]
    split_ifs with hg
    · exact le_refl _
    · exact min_le_left _ _
  · intro hg
    rw [hv, if_neg hg]
    exact min_le_right _ _
  · intro hdb hg
    rw [hv, if_neg hg, if_pos hdb]
  · intro hdb hg
    rw [hv, if_pos hg, if_pos hdb]
  · intro hdb hg
    rw [hv, if_neg hg, if_neg (not_lt.2 hdb)]
  · intro hdb hg
    rw [hv, if_pos hg, if_neg (not_lt.2 hdb)]


/-- The step of the example helix in a uniform field that differs from the nominal one by
0.0001, for the tolerance 0.01, is the default 0.1. -/
theorem exampleHelix_tolStep (vel : Vec3 ℝ) :
    exampleHelix.tolStep realMath exampleConst 0 (UniformBField ⟨0, 0, 10001 / 10000⟩)
      (1 / 100) vel = .fin (1 / 10) := by
  unfold LHelix.tolStep
  simp only [uniform_fieldDeriv_R, exampleField_db, mul_zero]
  have h1 : ¬ ((1 / 10000 : ℝ) > 1 / 10000) := lt_irrefl _
  rw [if_neg h1]
  simp [Ext.div, Ext.cbrt, Ext.scale, Ext.min, Ext.lt]

/-- Counterexample to claim C21 as stated: the example helix in a uniform field that differs
from the nominal one by exactly 0.0001, with tolerance 0.01 and starting time 0.  The field
difference does not exceed 0.0001, so the step is the default 0.1 (and the field derivative
is zero, so the second estimate is infinite), while the first estimate
`0.2 * sqrt(tol / (sfac * db))` is below 0.1: the step exceeds the first estimate and is not
the smaller of the two. -/
theorem tolStep_choice_counterexample :
    (∀ vel : Vec3 ℝ, exampleHelix.tolStep realMath exampleConst 0
      (UniformBField ⟨0, 0, 10001 / 10000⟩) (1 / 100) vel = .fin (1 / 10)) ∧
    (∀ vel : Vec3 ℝ, ((UniformBField (⟨0, 0, 10001 / 10000⟩ : Vec3 ℝ)).fieldDeriv
      (exampleHelix.position realMath exampleConst 0) vel).R realMath = 0) ∧
    2 / 10 * Real.sqrt ((1 / 100) / (exampleHelix.tolSfac realMath exampleConst 0 *
      (((UniformBField (⟨0, 0, 10001 / 10000⟩ : Vec3 ℝ)).fieldVect
        (exampleHelix.position realMath exampleConst 0)).sub exampleHelix.bnom_).R realMath))
      < 1 / 10 := by
  refine ⟨exampleHelix_tolStep, fun vel => uniform_fieldDeriv_R _ _ _, ?_⟩
  rw [exampleField_db, exampleHelix_sfac]
  have hlt : Real.sqrt (1 / 100 / ((299792458 / 1000000 * (5 / 13)) ^ 2 / 5 * (1 / 10000)))
      < 1 / 2 := by
    rw [Real.sqrt_lt' (by norm_num)]
    norm_num
  linarith

/-- Witness of claim C21 as amended: the example helix in a uniform field that differs from
the nominal one by 0.0001, with tolerance 0.01 and starting time 0. -/
theorem tolStep_choice_witness :
    (0 : ℝ) < 1 / 100 ∧ exampleConst.c_light ≠ 0 ∧ exampleHelix.bnom_ ≠ ⟨0, 0, 0⟩ ∧
    (exampleHelix.rad ≠ 0 ∨ exampleHelix.lam ≠ 0) ∧
    ∃ (vel : Vec3 ℝ) (s : ℝ),
      exampleHelix.velocity realMath exampleConst 0 = .ok vel ∧
      exampleHelix.tolStep realMath exampleConst 0 (UniformBField ⟨0, 0, 10001 / 10000⟩)
        (1 / 100) vel = .fin s ∧ 0 < s := by
  have hc : exampleConst.c_light ≠ 0 := by norm_num [exampleConst]
  have hB : exampleHelix.bnom_ ≠ ⟨0, 0, 0⟩ := by
    intro h; injection h with _ _ h3; norm_num at h3
  have hp : exampleHelix.rad ≠ 0 ∨ exampleHelix.lam ≠ 0 :=
    Or.inl (by norm_num [LHelix.rad, LHelix.paramVal, exampleHelix, rad_])
  obtain ⟨vel, s, h1, h2, h3, -⟩ := tolStep_choice exampleConst exampleHelix ⟨0, 0⟩
    (UniformBField ⟨0, 0, 10001 / 10000⟩) (1 / 100) (by norm_num) hc hB hp
  exact ⟨by norm_num, hc, hB, hp, vel, s, h1, h2, h3⟩

/-- The passes of the stepping loop in exact arithmetic.  For a positive tolerance and a helix
with non-zero momentum and nominal field the step `dt` is strictly positive, and with the sums
`low + k * dt` taken exactly the loop returns after `n` passes with
`1 <= n <= max(1, ceil((range().high() - low) / dt))`, the lower bound unchanged and the upper
bound `low + n * dt`, above `low` and at most `max(low, range().high()) + dt`.  The code
accumulates `drange.high() += tstep` in a `double`: the rounded sums can stay below
`range().high()` for one pass more than the exact ones, and for a bound much larger than the
step the sum may not advance at all, so this count describes the exact loop `tolLoop` and not
the number of passes of the compiled program. -/
theorem rangeInTolerance_exact_passes (K : PhysConst ℝ) (h : LHelix ℝ) (drange : TRange ℝ)
    (bfield : BField ℝ) (tol : ℝ) (htol : 0 < tol) (hc : K.c_light ≠ 0)
    (hB : h.bnom_ ≠ ⟨0, 0, 0⟩) (hp : h.rad ≠ 0 ∨ h.lam ≠ 0) :
    ∃ (vel : Vec3 ℝ) (dt : ℝ),
      h.velocity realMath K drange.low = .ok vel ∧
      h.tolStep realMath K drange.low bfield tol vel = .fin dt ∧ 0 < dt ∧
      ∃ (N : Nat) (r : TRange ℝ) (dx : ℝ) (n : Nat),
        (∀ fuel, N ≤ fuel →
          h.rangeInTolerance realMath K fuel drange bfield tol = .done r dx n) ∧
        1 ≤ n ∧ (n : ℤ) ≤ max 1 ⌈(h.range.high - drange.low) / dt⌉ ∧
        r.low = drange.low ∧ r.high = drange.low + (n : ℝ) * dt ∧
        drange.low < r.high ∧
        r.high ≤ max drange.low h.range.high + dt ∧
        (drange.low < h.range.high → r.high < max drange.low h.range.high + dt) := by
  have hs := tolSfac_pos K h drange.low hc hB hp
  obtain ⟨s, hspos, hstep⟩ := tolStep_pos K h drange.low tol bfield
    (Vec3.smul (h.speed realMath K drange.low)
    (h.l2g_.apply ⟨h.rad * realMath.cos (h.phi realMath K drange.low) * (h.sign / h.pbar realMath),
      h.rad * realMath.sin (h.phi realMath K drange.low) * (h.sign / h.pbar realMath),
      h.lam * (h.sign / h.pbar realMath)⟩)) htol hs
  obtain ⟨m, hm⟩ := exists_nat_ge ((h.range.high - drange.low) / s)
  have hle : h.range.high - drange.low ≤ ((m + 1 : Nat) : ℝ) * s := by
    rw [div_le_iff₀ hspos] at hm
    push_cast
    nlinarith
  obtain ⟨r, dx, n, hdone⟩ := tolLoop_terminates realMath K h drange.low bfield tol
    (h.tolSfac realMath K drange.low) s m drange.low 0 0 hle
  obtain ⟨h1, h2, -, -, h5⟩ := tolLoop_done realMath K h drange.low bfield tol
    (h.tolSfac realMath K drange.low) s (m + 1) 0 r dx n
    (by simpa [LHelix.tolDx] using hdone)
  have hn1 : 1 ≤ n := h1
  have hn1r : (1 : ℝ) ≤ (n : ℝ) := by exact_mod_cast hn1
  have hhigh : r.high = drange.low + (n : ℝ) * s := by rw [h2]
  -- the pass before the last one, if any, was below the upper bound of the helix
  have hprev : 2 ≤ n → drange.low + ((n : ℝ) - 1) * s < h.range.high := by
    intro h2n
    have := (h5 (n - 1) (by omega) (by omega)).2
    have hcast : ((n - 1 : Nat) : ℝ) = (n : ℝ) - 1 := by
      rw [Nat.cast_sub hn1]
      simp
    rw [hcast] at this
    exact this
  refine ⟨_, s, velocity_eq realMath K h drange.low, hstep, hspos, m + 1, r, dx, n, ?_, hn1,
    ?_, ?_, hhigh, ?_, ?_, ?_⟩
  · intro fuel hfuel
    have hdone1 := tolLoop_fuel_mono realMath K h drange.low bfield tol
      (h.tolSfac realMath K drange.low) s (m + 1) drange.low 0 0 r dx n hdone fuel hfuel
    rw [LHelix.rangeInTolerance, velocity_eq]
    simp only [hstep]
    exact hdone1
  · rcases Nat.lt_or_ge n 2 with hlt | hge
    · have : n = 1 := by omega
      rw [this]
      exact le_max_left _ _
    · have hlt := hprev hge
      have hq : (n : ℝ) - 1 < (h.range.high - drange.low) / s := by
        rw [lt_div_iff₀ hspos]
        linarith
      have hceil : (n : ℝ) - 1 < (⌈(h.range.high - drange.low) / s⌉ : ℝ) :=
        lt_of_lt_of_le hq (Int.le_ceil _)
      have hint : (n : ℤ) - 1 < ⌈(h.range.high - drange.low) / s⌉ := by
        exact_mod_cast hceil
      exact le_trans (by omega) (le_max_right _ _)
  · rw [h2]
  · rw [hhigh]
    nlinarith
  · rw [hhigh]
    rcases Nat.lt_or_ge n 2 with hlt | hge
    · have : n = 1 := by omega
      rw [this]
      have := le_max_left drange.low h.range.high
      simp only [Nat.cast_one, one_mul]
      linarith
    · have hlt := hprev hge
      have := le_max_right drange.low h.range.high
      nlinarith
  · intro hlow
    rw [hhigh]
    rcases Nat.lt_or_ge n 2 with hlt | hge
    · have : n = 1 := by omega
      rw [this]
      have := le_max_right drange.low h.range.high
      simp only [Nat.cast_one, one_mul]
      linarith
    · have hlt := hprev hge
      have := le_max_right drange.low h.range.high
      nlinarith

/-- The loop body runs once even when the starting time is the upper bound of the helix: the
example helix, valid up to time 10, in its nominal field, with tolerance 0.01 and the starting
time 10.  The step is 0.1 and the loop makes one pass: the returned upper bound is 10.1, which
is `max(low, range().high()) + dt` itself and not strictly below it. -/
theorem rangeInTolerance_start_at_bound :
    exampleHelix.range.high = 10 ∧
    (∀ vel : Vec3 ℝ, exampleHelix.tolStep realMath exampleConst 10
      (UniformBField ⟨0, 0, 1⟩) (1 / 100) vel = .fin (1 / 10)) ∧
    exampleHelix.rangeInTolerance realMath exampleConst 1 ⟨10, 10⟩
      (UniformBField ⟨0, 0, 1⟩) (1 / 100) = .done ⟨10, 10 + 1 / 10⟩ 0 1 ∧
    ¬ ((10 : ℝ) + 1 / 10 < max 10 exampleHelix.range.high + 1 / 10) := by
  have hhigh : exampleHelix.range.high = 10 := rfl
  have hb : (⟨0, 0, 1⟩ : Vec3 ℝ) = exampleHelix.bnom_ := rfl
  have hstep : ∀ vel : Vec3 ℝ, exampleHelix.tolStep realMath exampleConst 10
      (UniformBField ⟨0, 0, 1⟩) (1 / 100) vel = .fin (1 / 10) := by
    intro vel
    rw [hb]
    exact tolStep_uniform exampleConst exampleHelix 10 (1 / 100) vel (by norm_num)
  refine ⟨hhigh, hstep, ?_, ?_⟩
  · rw [LHelix.rangeInTolerance, velocity_eq]
    simp only [hstep]
    rw [LHelix.tolLoop]
    have hdb : ∀ p : Vec3 ℝ, (((UniformBField (⟨0, 0, 1⟩ : Vec3 ℝ)).fieldVect p).sub
        exampleHelix.bnom_).R realMath = 0 := by
      intro p
      rw [hb]
      exact sub_self_R _
    simp only [hdb, mul_zero, add_zero, hhigh]
    rw [if_neg (by
      intro hcon
      have := hcon.2
      norm_num at this)]
  · rw [hhigh]
    norm_num

/-! ### Examples for the local basis, the velocity and the winding number -/

/-- The identity matrix keeps scalar products. -/
theorem exampleHelix_l2g_dot (u v : Vec3 ℝ) :
    (exampleHelix.l2g_.apply u).Dot (exampleHelix.l2g_.apply v) = u.Dot v := by
  have happ : ∀ w : Vec3 ℝ, exampleHelix.l2g_.apply w = w := by
    intro w
    simp [Mat3.apply, exampleHelix]
  rw [happ, happ]

/-- Witness of claim C24: the example helix at time 0. -/
theorem direction_orthonormal_witness :
    0 < exampleHelix.rad * exampleHelix.rad + exampleHelix.lam * exampleHelix.lam ∧
    ∃ m p f : Vec3 ℝ,
      exampleHelix.direction realMath exampleConst 0 LocDir.momdir = .ok m ∧
      exampleHelix.direction realMath exampleConst 0 LocDir.perpdir = .ok p ∧
      exampleHelix.direction realMath exampleConst 0 LocDir.phidir = .ok f ∧
      m.R realMath = 1 ∧ p.R realMath = 1 ∧ f.R realMath = 1 ∧
      m.Dot p = 0 ∧ m.Dot f = 0 ∧ p.Dot f = 0 := by
  have hp : 0 < exampleHelix.rad * exampleHelix.rad + exampleHelix.lam * exampleHelix.lam := by
    norm_num [LHelix.rad, LHelix.lam, LHelix.paramVal, exampleHelix, rad_, lam_]
  exact ⟨hp, direction_orthonormal exampleConst exampleHelix 0 hp exampleHelix_l2g_dot⟩

/-- Witness of claim C25: the example helix at time 0. -/
theorem velocity_is_position_derivative_witness :
    0 < exampleHelix.rad * exampleHelix.rad + exampleHelix.lam * exampleHelix.lam ∧
    exampleHelix.mbar_ ≠ 0 ∧ 0 < exampleConst.c_light ∧
    ∃ vel : Vec3 ℝ, exampleHelix.velocity realMath exampleConst 0 = .ok vel ∧
      HasDerivAt (fun s => (exampleHelix.position realMath exampleConst s).x) vel.x 0 ∧
      HasDerivAt (fun s => (exampleHelix.position realMath exampleConst s).y) vel.y 0 ∧
      HasDerivAt (fun s => (exampleHelix.position realMath exampleConst s).z) vel.z 0 ∧
      vel.R realMath = exampleHelix.speed realMath exampleConst 0 ∧
      exampleHelix.speed realMath exampleConst 0
        = exampleConst.c_light * exampleHelix.beta realMath ∧
      0 ≤ exampleHelix.speed realMath exampleConst 0 ∧
      exampleHelix.speed realMath exampleConst 0 < exampleConst.c_light := by
  have hp : 0 < exampleHelix.rad * exampleHelix.rad + exampleHelix.lam * exampleHelix.lam := by
    norm_num [LHelix.rad, LHelix.lam, LHelix.paramVal, exampleHelix, rad_, lam_]
  have hmb : exampleHelix.mbar_ ≠ 0 := by norm_num [exampleHelix]
  have hc : 0 < exampleConst.c_light := by norm_num [exampleConst]
  exact ⟨hp, hmb, hc,
    velocity_is_position_derivative exampleConst exampleHelix 0 hp hmb hc exampleHelix_l2g_dot⟩

end Theorems

end KinKal
